import Mathlib

/-!
# Disnix: D-Bus service jobs and the activation transition

A shallow embedding of `src/dbus-service/methods.c`,
`src/libstatemgmt/state-management.c` and of the transition engine declared in
`src/activate/transition.h` and `src/activate/activate.h`.

Conventions of the embedding

* A C string is a `List Char`; a `gchar**` vector is a list of strings, or, where
  the code manipulates the allocated block itself, a list of `Slot`s.
* `fork()` is modelled by the value it returns in the process that is executing
  the code: `0` in the child, `-1` on failure, the child's process id otherwise.
* What the operating system decides (does `execvp` find the file, which status
  does `wait` store, which chunks does `read` deliver) is a field of `World`.
* A run of a piece of code by one process is a `Run`: the signals the process
  emitted and how the process left the code.
-/

namespace Disnix

/-! ## Strings and GLib helpers -/

/-- C string, without its terminating NUL. -/
abbrev CStr := List Char

/-- GLib constant `G_MAXINT`. -/
def G_MAXINT : Int := 2147483647

/-- Splitting of a string at the first `k` occurrences of the character `d`
(the scanning loop of `g_strsplit`); the result always has a last token. -/
def splitOnChar (d : Char) : Nat → CStr → List CStr
  | _, [] => [[]]
  | k, c :: s =>
    if c = d ∧ 0 < k then [] :: splitOnChar d (k - 1) s
    else
      match splitOnChar d k s with
      | [] => [[c]]
      | t :: ts => (c :: t) :: ts

/-- GLib `g_strsplit(string, delimiter, max_tokens)` for a one-character
delimiter: the empty string gives the empty vector, `max_tokens < 1` means
`G_MAXINT`, and at most `max_tokens - 1` splits are made, the last token holding
the remainder. -/
def g_strsplit (string : CStr) (delimiter : Char) (max_tokens : Int) : List CStr :=
  if string = [] then []
  else
    let m := if max_tokens < 1 then G_MAXINT else max_tokens
    splitOnChar delimiter (m - 1).toNat string

/-- GLib `g_strconcat(s1, ..., NULL)` on non-NULL strings. -/
def g_strconcat (parts : List CStr) : CStr := parts.flatten

/-- The function `generate_derivations_string` of methods.c: every element preceded by
the separator. -/
def generate_derivations_string (derivation : List CStr) (separator : CStr) : CStr :=
  derivation.foldl (fun old d => g_strconcat [old, separator, d]) []

/-! ## Process environment -/

/-- Process environment: name and value pairs, names unique. -/
abbrev Env := List (CStr × CStr)

/-- POSIX `getenv`. -/
def getenv (env : Env) (name : CStr) : Option CStr :=
  match env with
  | [] => none
  | (n, v) :: rest => if n = name then some v else getenv rest name

/-- POSIX `setenv(name, value, overwrite)`: fails (EINVAL, environment unchanged)
on an empty name or a name containing `=`; an existing variable is changed only
when `overwrite` is set. -/
def setenv (env : Env) (name value : CStr) (overwrite : Bool) : Env :=
  if name = [] ∨ '=' ∈ name then env
  else
    match getenv env name with
    | some _ => if overwrite then env.map (fun p => if p.1 = name then (name, value) else p) else env
    | none => env ++ [(name, value)]

/-- The loop that composes environment variables out of the arguments
(methods.c 779-784 and 847-852, state-management.c 41-46):
`name_value_pair = g_strsplit(arguments[i], "=", 2)` followed by
`setenv(name_value_pair[0], name_value_pair[1], FALSE)`.
The result is `none` when the loop hands a NULL or out-of-bounds pointer to
`setenv` (an argument without `=`), which is undefined behaviour. -/
def setenv_arguments (env : Env) : List CStr → Option Env
  | [] => some env
  | a :: rest =>
    match g_strsplit a '=' 2 with
    | [name, value] => setenv_arguments (setenv env name value false) rest
    | _ => none

/-! ## Signals, processes and the world -/

/-- The three job-id scoped signals of the service (signals.h). -/
inductive Signal
  | finish (pid : Int)
  | success (pid : Int) (lines : List CStr)
  | failure (pid : Int)
  deriving DecidableEq, Repr

/-- Job id a signal is scoped to. -/
def Signal.jobId : Signal → Int
  | .finish pid => pid
  | .success pid _ => pid
  | .failure pid => pid

/-- How a process leaves a piece of code. -/
inductive Outcome
  | returned (value : Bool)
  | exited (code : Nat)
  | exec (file : CStr) (argv : List CStr) (env : Env)
  | aborted
  | crashed
  deriving DecidableEq, Repr

/-- One process executing a piece of code: the signals it emitted, in order,
and how it left the code. -/
structure Run where
  signals : List Signal
  outcome : Outcome
  deriving DecidableEq, Repr

/-- What the operating system decides during one job. -/
structure World where
  /-- initial environment of the process -/
  env : Env
  /-- does `open`, `fopen` or `mkstemp` succeed -/
  openOk : Bool
  /-- name filled in by `mkstemp` -/
  tempfilename : CStr
  /-- does `pipe` succeed -/
  pipeOk : Bool
  /-- value returned by the `fork()` inside the job, in the executing process -/
  fork : Int
  /-- does `execvp` find and start the file -/
  execOk : Bool
  /-- chunks delivered by successive `read` calls that return more than 0 bytes -/
  chunks : List CStr
  /-- lines delivered by successive `fgets` calls -/
  fileLines : List CStr
  /-- status word stored by `wait` -/
  waitStatus : Int
  deriving DecidableEq, Repr

/-- The macro `WEXITSTATUS(status)` of sys/wait.h: `(status & 0xff00) >> 8`. -/
def WEXITSTATUS (status : Int) : Int := (status / 256) % 256

/-- The macro `WTERMSIG(status)` of sys/wait.h: `status & 0x7f`. -/
def WTERMSIG (status : Int) : Int := status % 128

/-- The tail of a child branch: `execvp(file, args); _exit(1);`. -/
def execvp_or_exit (w : World) (file : CStr) (argv : List CStr) (env : Env) : Run :=
  if w.execOk then ⟨[], .exec file argv env⟩ else ⟨[], .exited 1⟩

/-- The common ending `wait(&status); if(WEXITSTATUS(status) == 0) finish else failure`. -/
def wait_finish_or_failure (w : World) (pid : Int) : List Signal :=
  if WEXITSTATUS w.waitStatus = 0 then [.finish pid] else [.failure pid]

/-! ## The lines vector -/

/-- One pointer-sized slot of an allocated `gchar**` block. -/
inductive Slot
  | null
  | str (s : CStr)
  | uninit
  deriving DecidableEq, Repr

/-- GLib `g_strv_length`: number of strings before the first NULL; `none` when
the scan reads an uninitialised slot or leaves the block. -/
def g_strv_length : List Slot → Option Nat
  | [] => none
  | .null :: _ => some 0
  | .str _ :: rest => (g_strv_length rest).map (· + 1)
  | .uninit :: _ => none

/-- The strings of a NULL-terminated vector, as a reader of the vector sees
them: everything before the first NULL. -/
def strv_read : List Slot → Option (List CStr)
  | [] => none
  | .null :: _ => some []
  | .str s :: rest => (strv_read rest).map (s :: ·)
  | .uninit :: _ => none

/-- GLib `g_realloc(block, n * sizeof(gchar*))`: the first `n` slots are kept,
new slots are uninitialised. -/
def g_realloc (block : List Slot) (n : Nat) : List Slot :=
  block.take n ++ List.replicate (n - block.length) .uninit

/-- Store `block[i] = v`; `none` for a store outside the block. -/
def store (block : List Slot) (i : Nat) (v : Slot) : Option (List Slot) :=
  if i < block.length then some (block.set i v) else none

/-- Element `i` of the vector returned by `g_strsplit`, whose slot after the last
token is NULL. -/
def strv_slot (v : List CStr) (i : Nat) : Slot :=
  match v.get? i with
  | some s => .str s
  | none => .null

/-- The loop `for(i = 1; i < additional_lines_length; i++)
lines[lines_length + i] = additional_lines[i];` of update_lines_vector, started at `i`. -/
def store_additional (lines_length : Nat) (additional_lines : List CStr) :
    Nat → Nat → List Slot → Option (List Slot)
  | 0, _, block => some block
  | fuel + 1, i, block =>
    if i < additional_lines.length then
      (store block (lines_length + i) (strv_slot additional_lines i)).bind
        (store_additional lines_length additional_lines fuel (i + 1))
    else some block

/-- The function `update_lines_vector` of methods.c (57-115). `lines = none` is the NULL
pointer; the result is `none` when the code reads or writes memory it must
not. -/
def update_lines_vector (lines : Option (List Slot)) (buf : CStr) : Option (List Slot) :=
  let additional_lines := g_strsplit buf '\n' 0
  let additional_lines_length := additional_lines.length
  let start : Option (List Slot × Nat) :=
    match lines with
    | none => some ([.null], 0)
    | some block => (g_strv_length block).map (fun n => (block, n))
  start.bind fun (block, lines_length) =>
    let branch : Option (List Slot × Nat) :=
      if lines_length = 0 then
        (store (g_realloc block (additional_lines_length + 1)) 0
          (strv_slot additional_lines 0)).map (fun b => (b, lines_length))
      else
        match block.get? (lines_length - 1) with
        | some (.str last) =>
          if 0 < last.length ∧ last.getLast? = some '\n' then
            (store (g_realloc block (lines_length + 1 + additional_lines_length + 1))
              (lines_length + 1 - 1) (strv_slot additional_lines 0)).map
              (fun b => (b, lines_length + 1))
          else
            (store (g_realloc block (lines_length + additional_lines_length + 1))
              (lines_length - 1)
              (.str (g_strconcat (last :: (additional_lines.take 1))))).map
              (fun b => (b, lines_length))
        | _ => none
    branch.bind fun (block, lines_length) =>
      (store_additional lines_length additional_lines additional_lines_length 1 block).bind
        fun block => store block (lines_length + additional_lines_length) .null

/-- The read loop of the jobs that capture output
(`while((line_size = read(...)) > 0) lines = update_lines_vector(lines, line);`). -/
def read_lines : Option (List Slot) → List CStr → Option (Option (List Slot))
  | lines, [] => some lines
  | lines, chunk :: rest =>
    match update_lines_vector lines chunk with
    | none => none
    | some block => read_lines (some block) rest

/-- The lines a `gchar**` argument of the success signal carries. -/
def signal_lines : Option (List Slot) → Option (List CStr)
  | none => some []
  | some block => strv_read block

/-! ## The jobs of methods.c

Every `*_thread_func` is executed by the job process and ends in `_exit(0)`;
the branch taken after the inner `fork()` returned `0` is executed by the
grandchild, which replaces itself by the command or ends in `_exit(1)`. -/

/-- The D-Bus object serving the requests (`DisnixObject`). -/
structure DisnixObject where
  id : Nat
  deriving DecidableEq, Repr

/-- Body of `disnix_import_thread_func` (methods.c 119-166). -/
def disnix_import_thread_func (w : World) (pid : Int) (closure : CStr) : Run :=
  let _ := closure
  if ¬ w.openOk then ⟨[.failure pid], .exited 0⟩
  else if w.fork = 0 then execvp_or_exit w "nix-store".toList ["nix-store".toList, "--import".toList] w.env
  else if w.fork = -1 then ⟨[.failure pid], .exited 0⟩
  else ⟨wait_finish_or_failure w pid, .exited 0⟩

/-- Body of `disnix_export_thread_func` (methods.c 182-254). -/
def disnix_export_thread_func (w : World) (pid : Int) (derivation : List CStr) : Run :=
  if ¬ w.openOk then ⟨[.failure pid], .exited 0⟩
  else if w.fork = 0 then
    execvp_or_exit w "nix-store".toList (["nix-store".toList, "--export".toList] ++ derivation) w.env
  else if w.fork = -1 then ⟨[.failure pid], .exited 0⟩
  else if WEXITSTATUS w.waitStatus = 0 then ⟨[.success pid [w.tempfilename]], .exited 0⟩
  else ⟨[.failure pid], .exited 0⟩

/-- The common shape of the jobs that capture the standard output of
`nix-store` through a pipe (print invalid 270-357, realise 373-456, query
requisites 593-678): they differ in the options passed to `nix-store`. -/
def capture_job (w : World) (pid : Int) (options derivation : List CStr) : Run :=
  if ¬ w.pipeOk then ⟨[.failure pid], .exited 0⟩
  else if w.fork = 0 then
    execvp_or_exit w "nix-store".toList ("nix-store".toList :: options ++ derivation) w.env
  else if w.fork = -1 then ⟨[.failure pid], .exited 0⟩
  else
    match read_lines none w.chunks with
    | none => ⟨[], .crashed⟩
    | some lines =>
      if WEXITSTATUS w.waitStatus = 0 then
        match signal_lines lines with
        | none => ⟨[], .crashed⟩
        | some ls => ⟨[.success pid ls], .exited 0⟩
      else ⟨[.failure pid], .exited 0⟩

/-- Body of `disnix_print_invalid_thread_func` (methods.c 270-357). -/
def disnix_print_invalid_thread_func (w : World) (pid : Int) (derivation : List CStr) : Run :=
  capture_job w pid ["--check-validity".toList, "--print-invalid".toList] derivation

/-- Body of `disnix_realise_thread_func` (methods.c 373-456). -/
def disnix_realise_thread_func (w : World) (pid : Int) (derivation : List CStr) : Run :=
  capture_job w pid ["-r".toList] derivation

/-- Body of `disnix_query_requisites_thread_func` (methods.c 593-678). -/
def disnix_query_requisites_thread_func (w : World) (pid : Int) (derivation : List CStr) : Run :=
  capture_job w pid ["-qR".toList] derivation

/-- Body of `disnix_set_thread_func` (methods.c 472-516); `localstatedir` is the
configure-time constant `LOCALSTATEDIR`. -/
def disnix_set_thread_func (localstatedir : CStr) (w : World) (pid : Int)
    (profile derivation : CStr) : Run :=
  let profile_path := g_strconcat [localstatedir ++ "/nix/profiles/disnix/".toList, profile]
  if w.fork = -1 then ⟨[.failure pid], .exited 0⟩
  else if w.fork = 0 then
    execvp_or_exit w "nix-env".toList
      ["nix-env".toList, "-p".toList, profile_path, "--set".toList, derivation] w.env
  else ⟨wait_finish_or_failure w pid, .exited 0⟩

/-- Body of `disnix_query_installed_thread_func` (methods.c 532-577). -/
def disnix_query_installed_thread_func (w : World) (pid : Int) (profile : CStr) : Run :=
  let _ := profile
  if ¬ w.openOk then ⟨[.failure pid], .exited 0⟩
  else ⟨[.success pid w.fileLines], .exited 0⟩

/-- Body of `disnix_collect_garbage_thread_func` (methods.c 694-741). -/
def disnix_collect_garbage_thread_func (w : World) (pid : Int) (delete_old : Bool) : Run :=
  if w.fork = -1 then ⟨[.failure pid], .exited 0⟩
  else if w.fork = 0 then
    if delete_old then
      execvp_or_exit w "nix-collect-garbage".toList ["nix-collect-garbage".toList] w.env
    else
      execvp_or_exit w "nix-collect-garbage".toList
        ["nix-collect-garbage".toList, "-d".toList] w.env
  else ⟨wait_finish_or_failure w pid, .exited 0⟩

/-- The child branch shared by the activate and deactivate jobs (methods.c
773-788 and 841-856): `cmd = g_strconcat(activation_modules_dir, "/", type, NULL)`,
`args = {cmd, activity, derivation, NULL}`, the environment loop, `execvp`. -/
def activation_child (activation_modules_dir : CStr) (w : World) (activity derivation type : CStr)
    (arguments : List CStr) : Run :=
  let cmd := g_strconcat [activation_modules_dir, "/".toList, type]
  let args := [cmd, activity, derivation]
  match setenv_arguments w.env arguments with
  | none => ⟨[], .crashed⟩
  | some env => execvp_or_exit w cmd args env

/-- Body of `disnix_activate_thread_func` (methods.c 757-809). -/
def disnix_activate_thread_func (activation_modules_dir : CStr) (w : World) (pid : Int)
    (derivation type : CStr) (arguments : List CStr) : Run :=
  if w.fork = 0 then
    activation_child activation_modules_dir w "activate".toList derivation type arguments
  else if w.fork = -1 then ⟨[.failure pid], .exited 0⟩
  else ⟨wait_finish_or_failure w pid, .exited 0⟩

/-- Body of `disnix_deactivate_thread_func` (methods.c 825-877). -/
def disnix_deactivate_thread_func (activation_modules_dir : CStr) (w : World) (pid : Int)
    (derivation type : CStr) (arguments : List CStr) : Run :=
  if w.fork = 0 then
    activation_child activation_modules_dir w "deactivate".toList derivation type arguments
  else if w.fork = -1 then ⟨[.failure pid], .exited 0⟩
  else ⟨wait_finish_or_failure w pid, .exited 0⟩

/-- The shape of every forking method: `g_assert(object != NULL);
if(fork() == 0) thread_func(...); return TRUE;`. `forkRet` is the value the
outer `fork()` returns in the executing process and `job` the run of the thread
function, which never returns. -/
def fork_job (object : Option DisnixObject) (forkRet : Int) (job : Run) : Run :=
  match object with
  | none => ⟨[], .aborted⟩
  | some _ => if forkRet = 0 then job else ⟨[], .returned true⟩

/-- Method `disnix_import` (methods.c 168-178). -/
def disnix_import (object : Option DisnixObject) (forkRet : Int) (w : World) (pid : Int)
    (closure : CStr) : Run :=
  fork_job object forkRet (disnix_import_thread_func w pid closure)

/-- Method `disnix_export` (methods.c 256-266). -/
def disnix_export (object : Option DisnixObject) (forkRet : Int) (w : World) (pid : Int)
    (derivation : List CStr) : Run :=
  fork_job object forkRet (disnix_export_thread_func w pid derivation)

/-- Method `disnix_print_invalid` (methods.c 359-369). -/
def disnix_print_invalid (object : Option DisnixObject) (forkRet : Int) (w : World) (pid : Int)
    (derivation : List CStr) : Run :=
  fork_job object forkRet (disnix_print_invalid_thread_func w pid derivation)

/-- Method `disnix_realise` (methods.c 458-468). -/
def disnix_realise (object : Option DisnixObject) (forkRet : Int) (w : World) (pid : Int)
    (derivation : List CStr) : Run :=
  fork_job object forkRet (disnix_realise_thread_func w pid derivation)

/-- Method `disnix_set` (methods.c 518-528). -/
def disnix_set (localstatedir : CStr) (object : Option DisnixObject) (forkRet : Int) (w : World)
    (pid : Int) (profile derivation : CStr) : Run :=
  fork_job object forkRet (disnix_set_thread_func localstatedir w pid profile derivation)

/-- Method `disnix_query_installed` (methods.c 579-589). -/
def disnix_query_installed (object : Option DisnixObject) (forkRet : Int) (w : World) (pid : Int)
    (profile : CStr) : Run :=
  fork_job object forkRet (disnix_query_installed_thread_func w pid profile)

/-- Method `disnix_query_requisites` (methods.c 680-690). -/
def disnix_query_requisites (object : Option DisnixObject) (forkRet : Int) (w : World) (pid : Int)
    (derivation : List CStr) : Run :=
  fork_job object forkRet (disnix_query_requisites_thread_func w pid derivation)

/-- Method `disnix_collect_garbage` (methods.c 743-753). -/
def disnix_collect_garbage (object : Option DisnixObject) (forkRet : Int) (w : World) (pid : Int)
    (delete_old : Bool) : Run :=
  fork_job object forkRet (disnix_collect_garbage_thread_func w pid delete_old)

/-- Method `disnix_activate` (methods.c 811-821). -/
def disnix_activate (activation_modules_dir : CStr) (object : Option DisnixObject) (forkRet : Int)
    (w : World) (pid : Int) (derivation type : CStr) (arguments : List CStr) : Run :=
  fork_job object forkRet
    (disnix_activate_thread_func activation_modules_dir w pid derivation type arguments)

/-- Method `disnix_deactivate` (methods.c 879-889). -/
def disnix_deactivate (activation_modules_dir : CStr) (object : Option DisnixObject)
    (forkRet : Int) (w : World) (pid : Int) (derivation type : CStr) (arguments : List CStr) :
    Run :=
  fork_job object forkRet
    (disnix_deactivate_thread_func activation_modules_dir w pid derivation type arguments)

/-- Method `disnix_lock` (methods.c 891-894): `return TRUE;`. -/
def disnix_lock (object : Option DisnixObject) (pid : Int) : Run :=
  let _ := object
  let _ := pid
  ⟨[], .returned true⟩

/-- Method `disnix_unlock` (methods.c 896-899): `return TRUE;`. -/
def disnix_unlock (object : Option DisnixObject) (pid : Int) : Run :=
  let _ := object
  let _ := pid
  ⟨[], .returned true⟩

/-- Two's complement wrap of a value into the range of `gint` (32 bits). -/
def wrap_gint (x : Int) : Int := (x + 2147483648) % 4294967296 - 2147483648

/-- What one call of `disnix_get_job_id` produces: the return value, the job id
stored through `pid` and the new value of the static `job_counter`. -/
structure JobIdCall where
  result : Bool
  pid : Int
  job_counter : Int
  deriving DecidableEq, Repr

/-- Method `disnix_get_job_id` (methods.c 903-909) on the static `job_counter`:
`*pid = job_counter; job_counter++; return TRUE;`. -/
def disnix_get_job_id (object : Option DisnixObject) (job_counter : Int) : JobIdCall :=
  let _ := object
  ⟨true, job_counter, wrap_gint (job_counter + 1)⟩

/-- Initial value of the static `job_counter` (methods.c 33). -/
def job_counter_init : Int := 0

/-- Value of `job_counter` after `n` calls of `disnix_get_job_id` on a freshly
started service. -/
def job_counter_after (object : Option DisnixObject) : Nat → Int
  | 0 => job_counter_init
  | n + 1 => (disnix_get_job_id object (job_counter_after object n)).job_counter

/-- Job id handed out by call number `k` (counted from 1) of `disnix_get_job_id` on a
freshly started service. -/
def kth_job_id (object : Option DisnixObject) (k : Nat) : Int :=
  (disnix_get_job_id object (job_counter_after object (k - 1))).pid

/-- Outcome of a `fork()` as the operating system decides it. -/
inductive ForkResult
  | failed
  | forked (child : Nat)
  deriving DecidableEq, Repr

/-- Value `fork()` returns in the calling process: `-1` on failure, else the
(positive) process id of the child. -/
def ForkResult.inParent : ForkResult → Int
  | .failed => -1
  | .forked child => (child : Int) + 1

/-- Every signal caused by one call of a forking method, given as a function of
the values its outer and its inner `fork()` return in the executing process:
the signals of the service process (outer fork returned `-1` or a child id),
then of the job process when the outer fork made one (outer fork returned `0`),
then of the grandchild when the inner fork made one (both returned `0`; no job
emits a signal before its inner fork, so the grandchild starts without any). -/
def call_signals (method : Int → Int → Run) (outer inner : ForkResult) : List Signal :=
  (method outer.inParent inner.inParent).signals ++
  match outer with
  | .failed => []
  | .forked _ =>
    (method 0 inner.inParent).signals ++
    match inner with
    | .failed => []
    | .forked _ => (method 0 0).signals

/-- Method `statemgmt_run_dysnomia_activity` (state-management.c 31-55): `fork`
is the value of `pid`; the child composes the environment and executes
`dysnomia`, the parent returns `pid`. -/
def statemgmt_run_dysnomia_activity (w : World) (type activity component container : CStr)
    (arguments : List CStr) : Run ⊕ Int :=
  if w.fork = 0 then
    let args := ["dysnomia".toList, "--type".toList, type, "--operation".toList, activity,
      "--component".toList, component, "--container".toList, container, "--environment".toList]
    match setenv_arguments w.env arguments with
    | none => .inl ⟨[], .crashed⟩
    | some env => .inl (execvp_or_exit w "dysnomia".toList args env)
  else .inr w.fork

/-- Every signal caused by one call of `disnix_activate`, over all processes the
call gives rise to. -/
def activate_call_signals (activation_modules_dir : CStr) (object : Option DisnixObject)
    (w : World) (pid : Int) (derivation type : CStr) (arguments : List CStr)
    (outer inner : ForkResult) : List Signal :=
  call_signals (fun o i => disnix_activate activation_modules_dir object o
    { w with fork := i } pid derivation type arguments) outer inner

/-- Every signal caused by one call of `disnix_deactivate`, over all processes the
call gives rise to. -/
def deactivate_call_signals (activation_modules_dir : CStr) (object : Option DisnixObject)
    (w : World) (pid : Int) (derivation type : CStr) (arguments : List CStr)
    (outer inner : ForkResult) : List Signal :=
  call_signals (fun o i => disnix_deactivate activation_modules_dir object o
    { w with fork := i } pid derivation type arguments) outer inner

/-- The macro `W_EXITCODE(ret, sig)` of sys/wait.h, `ret << 8 | sig`, for a normal exit:
the status word `wait` stores for a process that exited with code `ret`. -/
def W_EXITCODE (ret : Nat) : Int := ((ret % 256 : Nat) : Int) * 256

/-- Name part of a `key=value` argument: the text before the first `=`. -/
def arg_key (a : CStr) : CStr := a.takeWhile (fun c => c ≠ '=')

/-- Value part of a `key=value` argument: the text after the first `=`. -/
def arg_value (a : CStr) : CStr := (a.dropWhile (fun c => c ≠ '=')).drop 1

/-- A well-formed `key=value` argument: it contains `=` and its key is not empty. -/
def is_key_value (a : CStr) : Prop := '=' ∈ a ∧ arg_key a ≠ []

/-- Value of the first argument of the list whose key is `k` (the reading of
"first occurrence wins" in the specification). -/
def first_occurrence : List CStr → CStr → Option CStr
  | [], _ => none
  | a :: rest, k => if arg_key a = k then some (arg_value a) else first_occurrence rest k

/-- The log entry printed by `disnix_collect_garbage_thread_func` (methods.c 700-703). -/
def collect_garbage_log_entry (delete_old : Bool) : CStr :=
  if delete_old then "Garbage collect and remove old derivations\n".toList
  else "Garbage collect\n".toList

/-- The lines joined with a newline between consecutive entries. -/
def join_lines : List CStr → CStr
  | [] => []
  | [l] => l
  | l :: rest => l ++ '\n' :: join_lines rest

/-- The constant `EXIT_FAILURE` of stdlib.h. -/
def EXIT_FAILURE : Int := 1

/-- What the libraries decide while `start_disnix_service` runs. -/
structure ServiceStart where
  /-- `g_main_loop_new` returned NULL -/
  mainloopNull : Bool
  /-- `dbus_g_bus_get` set `error` -/
  busError : Bool
  /-- `dbus_g_proxy_new_for_name` returned NULL -/
  proxyNull : Bool
  /-- return value of `dbus_g_proxy_call` for `RequestName` -/
  requestNameCall : Bool
  /-- the reply stored in `result` -/
  result : Nat
  /-- `g_object_new` returned NULL -/
  objectNull : Bool
  /-- `g_main_loop_run` returns at some point -/
  mainLoopStops : Bool
  deriving DecidableEq, Repr

/-- Function `start_disnix_service` (disnix-service.c 132-235): the value it returns, `none`
when the main loop keeps running and the function never returns. -/
def start_disnix_service (o : ServiceStart) : Option Int :=
  if o.mainloopNull then some 1
  else if o.busError then some 1
  else if o.proxyNull then some 1
  else if ¬ o.requestNameCall then some 1
  else if o.result ≠ 1 then some 1
  else if o.objectNull then some 1
  else if o.mainLoopStops then some EXIT_FAILURE
  else none

/-- Modelled from the spec: the ActivationMapping of section 3 (the type of the
elements of the `GArray`s handed to `transition`, whose declaration is missing):
identity, type tag, container, owning target, `key=value` arguments and the
identities it depends on. -/
structure ActivationMapping where
  key : CStr
  type : CStr
  container : CStr
  target : CStr
  arguments : List CStr
  depends_on : List CStr
  deriving DecidableEq, Repr

/-- Modelled from the spec: a manifest of section 3, the ordered collection of its
activation mappings (the targets are the ones the mappings name). -/
abbrev Manifest := List ActivationMapping

/-- Identities of the mappings of a manifest. -/
def keys (ms : List ActivationMapping) : List CStr := ms.map (·.key)

/-- First mapping of `ms` with identity `k`. -/
def find_mapping (ms : List ActivationMapping) (k : CStr) : Option ActivationMapping :=
  ms.find? (fun m => m.key = k)

/-- Modelled from the spec: the depth-first visit of the Dependency Graph Orderer
(section 4.1; the orderer's code is missing). `stack` holds the identities
being visited, `done` the order produced so far; a dependency outside `ms` is
excluded from the ordering; `none` reports a dependency cycle. -/
def visit (ms : List ActivationMapping) : Nat → List CStr → List CStr → CStr → Option (List CStr)
  | 0, _, _, _ => none
  | fuel + 1, stack, done, k =>
    if k ∈ done then some done
    else if k ∈ stack then none
    else
      match find_mapping ms k with
      | none => some done
      | some m =>
        (m.depends_on.foldlM (fun d dep => visit ms fuel (k :: stack) d dep) done).map
          (· ++ [k])

/-- Modelled from the spec: the Dependency Graph Orderer of section 4.1 (missing
code), a depth-first topological sort over the mappings in manifest insertion
order; the result is the activation order, `none` on a dependency cycle. -/
def activation_order (ms : List ActivationMapping) : Option (List ActivationMapping) :=
  (ms.foldlM (fun done m => visit ms (ms.length + 1) [] done m.key) []).map
    (fun order => order.filterMap (find_mapping ms))

/-- Modelled from the spec: the TransitionPlan of section 3 (missing code). -/
structure TransitionPlan where
  to_deactivate : List ActivationMapping
  to_activate : List ActivationMapping
  deriving DecidableEq, Repr

/-- Modelled from the spec: derivation of the TransitionPlan (section 3, missing
code): `to_deactivate` are the old mappings whose identity is absent from the
new manifest, in reverse dependency order; `to_activate` the new mappings whose
identity is absent from the old manifest, in forward dependency order; `none`
when one of the dependency graphs has a cycle. -/
def transition_plan (new old : Manifest) : Option TransitionPlan :=
  match activation_order new, activation_order old with
  | some order_new, some order_old =>
    some ⟨order_old.reverse.filter (fun m => m.key ∉ keys new),
          order_new.filter (fun m => m.key ∉ keys old)⟩
  | _, _ => none

/-- Modelled from the spec: what is observable of a transition (sections 4.3 and 6,
missing code): lock requests with their outcome, unlock requests, dispatched
deactivations and activations, their resolutions, and mappings skipped because
a dependency failed. -/
inductive Event
  | lock (target : CStr) (ok : Bool)
  | unlock (target : CStr)
  | deactivate (m : ActivationMapping)
  | deactivated (m : ActivationMapping) (ok : Bool)
  | activate (m : ActivationMapping)
  | activated (m : ActivationMapping) (ok : Bool)
  | skipped (m : ActivationMapping)
  deriving DecidableEq, Repr

/-- Modelled from the spec: the per-mapping entry of the outcome table of section 5
(missing code); a mapping without entry is still pending. -/
inductive MappingStatus
  | inflight
  | succeeded
  | failed
  | skipped
  deriving DecidableEq, Repr

/-- Modelled from the spec: what the remote side and the scheduler decide in one
transition (sections 4.3 and 5, missing code): the outcome of every lock
request, deactivation and activation, which outstanding future resolves next,
and whether recording the new manifest succeeds. -/
structure Remote where
  lockOk : CStr → Bool
  deactivateOk : ActivationMapping → Bool
  activateOk : ActivationMapping → Bool
  resolveNext : Nat → Nat
  bookkeepingOk : Bool

/-- Modelled from the spec: state of the Transition Engine during one phase
(section 5, missing code): the outcome table keyed by mapping identity and the
events so far, oldest first. -/
structure Engine where
  table : List (CStr × MappingStatus)
  trace : List Event
  deriving DecidableEq, Repr

/-- Entry of the outcome table for identity `k`. -/
def status (table : List (CStr × MappingStatus)) (k : CStr) : Option MappingStatus :=
  match table with
  | [] => none
  | (k', s) :: rest => if k' = k then some s else status rest k

/-- Record status `s` for mapping `m` and append event `ev`. -/
def Engine.record (e : Engine) (m : ActivationMapping) (s : MappingStatus) (ev : Event) : Engine :=
  ⟨(m.key, s) :: e.table, e.trace ++ [ev]⟩

/-- Dependencies of `m` that take part in the phase whose plan is `plan`. -/
def phase_dependencies (plan : List ActivationMapping) (m : ActivationMapping) : List CStr :=
  m.depends_on.filter (fun b => b ∈ keys plan)

/-- Mappings of the plan whose future is outstanding. -/
def outstanding (plan : List ActivationMapping) (e : Engine) : List ActivationMapping :=
  plan.filter (fun m => status e.table m.key = some .inflight)

/-- Modelled from the spec: one pass of the ACTIVATING state over the plan (section
4.4, missing code): a pending mapping with a failed or skipped dependency is
skipped, a pending mapping all of whose dependencies have resolved successfully
is dispatched, any other mapping is left as it is. -/
def activation_sweep (plan : List ActivationMapping) : List ActivationMapping → Engine → Engine
  | [], e => e
  | m :: rest, e =>
    let deps := phase_dependencies plan m
    activation_sweep plan rest <|
      if status e.table m.key ≠ none then e
      else if deps.any (fun b => status e.table b = some .failed ∨ status e.table b = some .skipped)
      then e.record m .skipped (.skipped m)
      else if deps.all (fun b => status e.table b = some .succeeded)
      then e.record m .inflight (.activate m)
      else e

/-- Modelled from the spec: the ACTIVATING state of section 4.4 (missing code):
dispatch whatever is ready, await one outstanding future, react, until no
future is outstanding. -/
def activation_phase (r : Remote) (plan : List ActivationMapping) : Nat → Engine → Engine
  | 0, e => e
  | fuel + 1, e =>
    let e1 := activation_sweep plan plan e
    match outstanding plan e1 with
    | [] => e1
    | m0 :: ms =>
      let m := (m0 :: ms).getD (r.resolveNext fuel % (m0 :: ms).length) m0
      activation_phase r plan fuel
        (e1.record m (if r.activateOk m then .succeeded else .failed)
          (.activated m (r.activateOk m)))

/-- Modelled from the spec: one pass of the DEACTIVATING state over the plan (section
4.4, missing code): a pending mapping is dispatched once every mapping of the
plan that depends on it has completed, successfully or not. -/
def deactivation_sweep (plan : List ActivationMapping) : List ActivationMapping → Engine → Engine
  | [], e => e
  | m :: rest, e =>
    let dependents := plan.filter (fun a => m.key ∈ a.depends_on)
    deactivation_sweep plan rest <|
      if status e.table m.key ≠ none then e
      else if dependents.all (fun a =>
        status e.table a.key = some .succeeded ∨ status e.table a.key = some .failed)
      then e.record m .inflight (.deactivate m)
      else e

/-- Modelled from the spec: the DEACTIVATING state of section 4.4 (missing code). -/
def deactivation_phase (r : Remote) (plan : List ActivationMapping) : Nat → Engine → Engine
  | 0, e => e
  | fuel + 1, e =>
    let e1 := deactivation_sweep plan plan e
    match outstanding plan e1 with
    | [] => e1
    | m0 :: ms =>
      let m := (m0 :: ms).getD (r.resolveNext fuel % (m0 :: ms).length) m0
      deactivation_phase r plan fuel
        (e1.record m (if r.deactivateOk m then .succeeded else .failed)
          (.deactivated m (r.deactivateOk m)))

/-- Result of `transition`: the `gboolean` it returns and the events it caused. -/
structure TransitionRun where
  result : Bool
  trace : List Event
  deriving DecidableEq, Repr

/-- Modelled from the spec: the function `transition` declared in transition.h (its body
is missing), the DEACTIVATING and ACTIVATING states of section 4.4: all
deactivations are resolved before the first activation is dispatched, and the
phase succeeds when no activation failed and none was skipped. On a dependency
cycle nothing is attempted. -/
def transition (r : Remote) (new_activation_mappings old_activation_mappings : Manifest) :
    TransitionRun :=
  match transition_plan new_activation_mappings old_activation_mappings with
  | none => ⟨false, []⟩
  | some plan =>
    let d := deactivation_phase r plan.to_deactivate (plan.to_deactivate.length + 1) ⟨[], []⟩
    let a := activation_phase r plan.to_activate (plan.to_activate.length + 1) ⟨[], d.trace⟩
    ⟨plan.to_activate.all (fun m => status a.table m.key = some .succeeded), a.trace⟩

/-- Modelled from the spec: the LockSet of section 3 (missing code): the distinct
targets of both manifests, in ascending order of target identity, which is the
acquisition order of section 4.2. -/
def lock_set (new old : Manifest) : List CStr :=
  ((old ++ new).map (·.target)).dedup.insertionSort (fun a b => a ≤ b)

/-- Modelled from the spec: state of the Lock Coordinator of section 4.2 (missing
code): the targets whose lock is held and the events so far. -/
structure LockState where
  held : List CStr
  trace : List Event
  deriving DecidableEq, Repr

/-- Modelled from the spec: `release` of the Lock Coordinator (section 4.2, missing
code): one unlock request for every lock held. -/
def release (s : LockState) : LockState :=
  ⟨[], s.trace ++ s.held.map Event.unlock⟩

/-- Modelled from the spec: `acquire` of the Lock Coordinator (section 4.2, missing
code): the targets are locked one after the other; when a request fails, the
locks obtained so far are released and the failure is reported. -/
def acquire (r : Remote) : List CStr → LockState → Bool × LockState
  | [], s => (true, s)
  | t :: rest, s =>
    if r.lockOk t then acquire r rest ⟨s.held ++ [t], s.trace ++ [.lock t true]⟩
    else (false, release ⟨s.held, s.trace ++ [.lock t false]⟩)

/-- Exit status of `activate_system` for a dependency cycle. -/
def EXIT_CYCLE : Int := 4

/-- Exit status of `activate_system` when a lock request failed. -/
def EXIT_LOCK_FAILURE : Int := 3

/-- Exit status of `activate_system` when recording the new manifest failed. -/
def EXIT_BOOKKEEPING_FAILURE : Int := 2

/-- Exit status of `activate_system` for a deactivation/activation failure: a
deactivation or an activation failed, or an activation was skipped. -/
def EXIT_TRANSITION_FAILURE : Int := 1

/-- The event is the resolution of a deactivation with a failure. -/
def is_failed_deactivation : Event → Bool
  | .deactivated _ ok => !ok
  | _ => false

/-- Result of `activate_system`: its exit status, the events it caused and the
locks still held when it returns. -/
structure SystemRun where
  exit_code : Int
  trace : List Event
  held : List CStr
  deriving DecidableEq, Repr

/-- Modelled from the spec: the function `activate_system` declared in activate.h (its
body is missing), the Transition Driver of section 4.5 on the two loaded
manifests: a dependency cycle aborts before any remote call, then the locks are
acquired, the transition is run, the locks are released, and on success the new
manifest is recorded. Full success (sections 4.5 and 7) requires that the
transition phase succeeded and that no deactivation resolved to a failure; the
recorded per-mapping outcomes are the events of the transition. -/
def activate_system (r : Remote) (new_manifest old_manifest : Manifest) : SystemRun :=
  match transition_plan new_manifest old_manifest with
  | none => ⟨EXIT_CYCLE, [], []⟩
  | some _ =>
    match acquire r (lock_set new_manifest old_manifest) ⟨[], []⟩ with
    | (false, s) => ⟨EXIT_LOCK_FAILURE, s.trace, s.held⟩
    | (true, s) =>
      let t := transition r new_manifest old_manifest
      let u := release ⟨s.held, s.trace ++ t.trace⟩
      ⟨if t.result && !(t.trace.any is_failed_deactivation)
        then (if r.bookkeepingOk then 0 else EXIT_BOOKKEEPING_FAILURE)
        else EXIT_TRANSITION_FAILURE, u.trace, u.held⟩

/-- The trace `tr2` continues the trace `tr1` by events that all satisfy `P`. -/
def GrowsBy (P : Event → Prop) (tr1 tr2 : List Event) : Prop :=
  ∃ evs, tr2 = tr1 ++ evs ∧ ∀ ev ∈ evs, P ev

/-- The event is a dispatched deactivation or its resolution, of a mapping of `plan`. -/
def DeactivationOf (plan : List ActivationMapping) (ev : Event) : Prop :=
  ∃ m ∈ plan, ev = .deactivate m ∨ ∃ ok, ev = .deactivated m ok

/-- The event is a dispatched activation, its resolution or a skip, of a mapping of
`plan`. -/
def ActivationOf (plan : List ActivationMapping) (ev : Event) : Prop :=
  ∃ m ∈ plan, ev = .activate m ∨ ev = .skipped m ∨ ∃ ok, ev = .activated m ok

/-- The event is neither a lock nor an unlock request. -/
def NotLocking (ev : Event) : Prop :=
  (∀ t ok, ev ≠ .lock t ok) ∧ (∀ t, ev ≠ .unlock t)

/-- Mappings slated for activation by the plan of a transition (none when the
dependency graph has a cycle). -/
def to_activate (new old : Manifest) : List ActivationMapping :=
  match transition_plan new old with
  | some plan => plan.to_activate
  | none => []

/-- Mappings slated for deactivation by the plan of a transition (none when the
dependency graph has a cycle). -/
def to_deactivate (new old : Manifest) : List ActivationMapping :=
  match transition_plan new old with
  | some plan => plan.to_deactivate
  | none => []

/-- In the trace, every dispatched activation comes after the successful resolution
of the activation of each of its dependencies that belongs to `plan`. -/
def ActivatedAfterDependencies (plan : List ActivationMapping) (tr : List Event) : Prop :=
  ∀ (i : Nat) (m : ActivationMapping), tr[i]? = some (.activate m) →
    ∀ b ∈ m.depends_on, b ∈ keys plan →
      ∃ mb : ActivationMapping, mb.key = b ∧ Event.activated mb true ∈ tr.take i

/-- Every identity the outcome table records as succeeded has a successful
resolution in the trace. -/
def TableSound (e : Engine) : Prop :=
  ∀ k, status e.table k = some .succeeded →
    ∃ mb : ActivationMapping, mb.key = k ∧ Event.activated mb true ∈ e.trace

/-- A remote side on which every request succeeds and the oldest outstanding
future resolves first. -/
def remote_all_ok : Remote := ⟨fun _ => true, fun _ => true, fun _ => true, fun _ => 0, true⟩

/-- A mapping of type `process` in container `c` without arguments. -/
def example_mapping (key target : String) (depends_on : List String) : ActivationMapping :=
  ⟨key.toList, "process".toList, "c".toList, target.toList, [], depends_on.map String.toList⟩

/-- Old manifest of the scenario of section 8: webapp (depends on db) and db. -/
def scenario_old : Manifest :=
  [example_mapping "webapp" "t1" ["db"], example_mapping "db" "t2" []]

/-- New manifest of the scenario of section 8: webapp-v2 (depends on db) and db. -/
def scenario_new : Manifest :=
  [example_mapping "webapp-v2" "t1" ["db"], example_mapping "db" "t2" []]

/-- The chain of section 8: A depends on B, B depends on C. -/
def scenario_chain : Manifest :=
  [example_mapping "A" "t1" ["B"], example_mapping "B" "t2" ["C"], example_mapping "C" "t1" []]

/-- Modelled from the spec: the deactivation order of the Dependency Graph Orderer
(section 4.1, missing code): the reverse of the activation order. -/
def deactivation_order (ms : List ActivationMapping) : Option (List ActivationMapping) :=
  (activation_order ms).map List.reverse

/-- The mapping with identity `a` depends on identity `b`, directly or through
other mappings of `ms` (the dependency relation of section 3, transitively). -/
inductive DependsOn (ms : List ActivationMapping) : CStr → CStr → Prop
  | edge (m : ActivationMapping) (b : CStr) : m ∈ ms → b ∈ m.depends_on → DependsOn ms m.key b
  | step (a : CStr) (m : ActivationMapping) (c : CStr) :
      DependsOn ms a m.key → m ∈ ms → c ∈ m.depends_on → DependsOn ms a c

/-- The dependency relation of the manifest has no cycle (the manifest invariant
of section 3). -/
def Acyclic (ms : List ActivationMapping) : Prop := ∀ k, ¬ DependsOn ms k k

/-- In the list `l` the element `x` stands before the element `y`. -/
def Precedes {α : Type} (l : List α) (x y : α) : Prop :=
  ∃ pre mid post, l = pre ++ x :: (mid ++ y :: post)

/-- Every element of the list satisfies `P` with respect to the elements before it. -/
def EachAfter {α : Type} (P : List α → α → Prop) (l : List α) : Prop :=
  ∀ (i : Nat) (x : α), l[i]? = some x → P (l.take i) x

/-- Every dependency of the mapping with identity `k` that is a mapping of `ms`
occurs in `pre`. -/
def DependenciesIn (ms : List ActivationMapping) (pre : List CStr) (k : CStr) : Prop :=
  ∀ m, find_mapping ms k = some m → ∀ b ∈ m.depends_on, b ∈ keys ms → b ∈ pre

/-- A ranking of the identities of the chain A, B, C along its dependencies. -/
def chain_rank (k : CStr) : Nat :=
  if k = "A".toList then 2 else if k = "B".toList then 1 else 0

/-- The event is the dispatch of the activation of the mapping with identity `k`. -/
def is_dispatch (k : CStr) : Event → Bool
  | .activate m => decide (m.key = k)
  | _ => false

/-- The event is the resolution, with outcome `ok`, of the activation of the mapping
with identity `k`. -/
def is_resolution (k : CStr) (ok : Bool) : Event → Bool
  | .activated m o => decide (m.key = k) && decide (o = ok)
  | _ => false

/-- The event records that the mapping with identity `k` is skipped. -/
def is_skip (k : CStr) : Event → Bool
  | .skipped m => decide (m.key = k)
  | _ => false

/-- What a trace tells about the activation of identity `k`: whether it was
dispatched, resolved successfully, resolved with a failure, skipped. -/
def facts (tr : List Event) (k : CStr) : Bool × Bool × Bool × Bool :=
  (tr.any (is_dispatch k), tr.any (is_resolution k true), tr.any (is_resolution k false),
    tr.any (is_skip k))

/-- What the trace must tell about an identity whose entry in the outcome table of
the activation phase is the given one. -/
def expected_facts : Option MappingStatus → Bool × Bool × Bool × Bool
  | none => (false, false, false, false)
  | some .inflight => (true, false, false, false)
  | some .succeeded => (true, true, false, false)
  | some .failed => (true, false, true, false)
  | some .skipped => (false, false, false, true)

/-- The outcome table of the activation phase agrees with the trace on every
identity. -/
def TableMatches (e : Engine) : Prop :=
  ∀ k, facts e.trace k = expected_facts (status e.table k)

/-- The identities of the plan are distinct and every mapping of the plan comes
after the mappings of the plan it depends on. -/
def PlanSorted (p : List ActivationMapping) : Prop :=
  (keys p).Nodup ∧
    EachAfter (fun pre m => ∀ b ∈ m.depends_on, b ∈ keys p → b ∈ keys pre) p

/-- Every skip in the trace has a dependency in the plan whose activation failed or
was skipped. -/
def SkipJustified (p : List ActivationMapping) (tr : List Event) : Prop :=
  ∀ m, Event.skipped m ∈ tr →
    ∃ b ∈ m.depends_on, b ∈ keys p ∧
      ∃ mb : ActivationMapping, mb.key = b ∧
        (Event.activated mb false ∈ tr ∨ Event.skipped mb ∈ tr)

/-- The activation of the mapping is neither resolved nor skipped yet. -/
def unresolved (e : Engine) (m : ActivationMapping) : Bool :=
  decide (status e.table m.key = none) || decide (status e.table m.key = some .inflight)

/-- Every mapping of `pre` that is still pending has a dependency among the
identities of `pre` that is pending or in flight. -/
def PendingBlocked (p pre : List ActivationMapping) (e : Engine) : Prop :=
  ∀ m ∈ pre, status e.table m.key = none →
    ∃ b ∈ phase_dependencies p m, b ∈ keys pre ∧
      (status e.table b = none ∨ status e.table b = some .inflight)

/-- A remote side on which the activation of B fails and everything else succeeds. -/
def remote_b_fails : Remote :=
  ⟨fun _ => true, fun _ => true, fun m => decide (m.key ≠ "B".toList), fun _ => 0, true⟩

/-- A manifest with a dependency cycle: A depends on B and B depends on A. -/
def scenario_cycle : Manifest :=
  [example_mapping "A" "t1" ["B"], example_mapping "B" "t2" ["A"]]

/-- A remote side on which the deactivation of webapp fails and everything else
succeeds. -/
def remote_deactivation_fails : Remote :=
  ⟨fun _ => true, fun m => decide (m.key ≠ "webapp".toList), fun _ => true, fun _ => 0, true⟩

/-- A remote side on which the lock request of target t2 fails and everything else
succeeds. -/
def remote_lock_fails : Remote :=
  ⟨fun t => decide (t ≠ "t2".toList), fun _ => true, fun _ => true, fun _ => 0, true⟩

/-- A remote side on which recording the new manifest fails and everything else
succeeds. -/
def remote_bookkeeping_fails : Remote :=
  ⟨fun _ => true, fun _ => true, fun _ => true, fun _ => 0, false⟩

/-- The mappings of a manifest that are found under their identity: for every
identity the first mapping that carries it, which is the one the orderer and
`find_mapping` work with. When the identities of the manifest are distinct these
are all its mappings. -/
def found_mappings (ms : List ActivationMapping) : List ActivationMapping :=
  ms.filter (fun m => find_mapping ms m.key = some m)

/-- The manifest has no dependency cycle: the dependency relation of the mappings
found under their identity is acyclic. -/
def CycleFree (ms : List ActivationMapping) : Prop := Acyclic (found_mappings ms)

theorem wexitstatus_exitcode (c : Nat) : WEXITSTATUS (W_EXITCODE c) = ((c % 256 : Nat) : Int) := by
  unfold WEXITSTATUS W_EXITCODE
  omega

/-- Claim C1, at the input where it fails: when the `fork()` of `disnix_activate` or
`disnix_deactivate` itself fails, no process runs the thread function and the call
causes no signal at all for the job id, whatever the inner fork and the wait
status would have been. -/
theorem activate_fork_failure_emits_nothing (activation_modules_dir : CStr)
    (object : Option DisnixObject) (w : World) (pid : Int) (derivation type : CStr)
    (arguments : List CStr) (inner : ForkResult) :
    activate_call_signals activation_modules_dir object w pid derivation type arguments
        .failed inner = [] ∧
    deactivate_call_signals activation_modules_dir object w pid derivation type arguments
        .failed inner = [] := by
  cases object <;>
    simp [activate_call_signals, deactivate_call_signals, call_signals, disnix_activate,
      disnix_deactivate, fork_job, ForkResult.inParent]

/-- When the outer fork succeeds and the job process does not misuse `setenv`,
one call of `disnix_activate` causes exactly one signal, `finish` or `failure`, for
its job id. -/
theorem activate_forked_emits_one (activation_modules_dir : CStr) (obj : DisnixObject)
    (w : World) (pid : Int) (derivation type : CStr) (arguments : List CStr)
    (child : Nat) (inner : ForkResult) :
    activate_call_signals activation_modules_dir (some obj) w pid derivation type arguments
        (.forked child) inner = [.finish pid] ∨
    activate_call_signals activation_modules_dir (some obj) w pid derivation type arguments
        (.forked child) inner = [.failure pid] := by
  have hpos : ∀ n : Nat, ¬ ((n : Int) + 1 = 0) := fun n => by omega
  have hneg : ∀ n : Nat, ¬ ((n : Int) + 1 = -1) := fun n => by omega
  cases inner with
  | failed =>
    right
    simp [activate_call_signals, call_signals, disnix_activate, fork_job, ForkResult.inParent,
      disnix_activate_thread_func, hpos]
  | forked c =>
    by_cases hs : WEXITSTATUS w.waitStatus = 0
    · left
      simp only [activate_call_signals, call_signals, disnix_activate, fork_job,
        ForkResult.inParent, disnix_activate_thread_func, activation_child, execvp_or_exit,
        wait_finish_or_failure, hpos, hneg, hs, if_true, if_false]
      cases setenv_arguments w.env arguments <;> cases w.execOk <;> simp
    · right
      simp only [activate_call_signals, call_signals, disnix_activate, fork_job,
        ForkResult.inParent, disnix_activate_thread_func, activation_child, execvp_or_exit,
        wait_finish_or_failure, hpos, hneg, hs, if_true, if_false]
      cases setenv_arguments w.env arguments <;> cases w.execOk <;> simp

/-- Claim C2: in the job process of an activate or deactivate job (the inner `fork()`
returned a child process id), the job emits exactly `finish` when the exit code
in the wait status is 0 and exactly `failure` when it is not; for a module that
exited with code `c` (below 256) that is `finish` for `c = 0` and `failure`
otherwise. -/
theorem activation_exit_code_decides_signal (activation_modules_dir : CStr) (w : World)
    (pid : Int) (derivation type : CStr) (arguments : List CStr)
    (hparent : w.fork ≠ 0 ∧ w.fork ≠ -1) :
    (WEXITSTATUS w.waitStatus = 0 →
      (disnix_activate_thread_func activation_modules_dir w pid derivation type
          arguments).signals = [.finish pid] ∧
      (disnix_deactivate_thread_func activation_modules_dir w pid derivation type
          arguments).signals = [.finish pid]) ∧
    (WEXITSTATUS w.waitStatus ≠ 0 →
      (disnix_activate_thread_func activation_modules_dir w pid derivation type
          arguments).signals = [.failure pid] ∧
      (disnix_deactivate_thread_func activation_modules_dir w pid derivation type
          arguments).signals = [.failure pid]) ∧
    (∀ c : Nat, c < 256 → w.waitStatus = W_EXITCODE c →
      (disnix_activate_thread_func activation_modules_dir w pid derivation type
          arguments).signals = (if c = 0 then [.finish pid] else [.failure pid]) ∧
      (disnix_deactivate_thread_func activation_modules_dir w pid derivation type
          arguments).signals = (if c = 0 then [.finish pid] else [.failure pid])) := by
  obtain ⟨h0, h1⟩ := hparent
  refine ⟨fun hs => ?_, fun hs => ?_, fun c hc hw => ?_⟩
  · simp [disnix_activate_thread_func, disnix_deactivate_thread_func, wait_finish_or_failure,
      h0, h1, hs]
  · simp [disnix_activate_thread_func, disnix_deactivate_thread_func, wait_finish_or_failure,
      h0, h1, hs]
  · have hx : WEXITSTATUS w.waitStatus = (c : Int) := by
      rw [hw, wexitstatus_exitcode, Nat.mod_eq_of_lt hc]
    have hc0 : ((c : Int) = 0) ↔ c = 0 := by omega
    simp [disnix_activate_thread_func, disnix_deactivate_thread_func, wait_finish_or_failure,
      h0, h1, hx, hc0]

/-- A module that exits with code 3 makes the activate job emit `failure`. -/
theorem activation_exit_code_decides_signal_witness :
    (disnix_activate_thread_func "/modules".toList
        ⟨[], true, [], true, 41, true, [], [], W_EXITCODE 3⟩ 7 "/nix/store/x".toList
        "process".toList []).signals = [.failure 7] :=
  ((activation_exit_code_decides_signal "/modules".toList
      ⟨[], true, [], true, 41, true, [], [], W_EXITCODE 3⟩ 7 "/nix/store/x".toList
      "process".toList [] (by decide)).2.1 (by decide)).1

/-! ### The environment of the activation child -/

theorem splitOnChar_zero (d : Char) (s : CStr) : splitOnChar d 0 s = [s] := by
  induction s with
  | nil => rfl
  | cons c s ih => simp [splitOnChar, ih]

theorem splitOnChar_one (s : CStr) (h : '=' ∈ s) :
    splitOnChar '=' 1 s = [arg_key s, arg_value s] := by
  induction s with
  | nil => simp at h
  | cons c s ih =>
    by_cases hc : c = '='
    · subst hc
      simp [splitOnChar, splitOnChar_zero, arg_key, arg_value, List.takeWhile, List.dropWhile]
    · have hs : '=' ∈ s := by
        rcases List.mem_cons.mp h with h1 | h1
        · exact absurd h1.symm hc
        · exact h1
      simp [splitOnChar, hc, ih hs, arg_key, arg_value, List.takeWhile, List.dropWhile]

theorem g_strsplit_key_value (a : CStr) (h : '=' ∈ a) :
    g_strsplit a '=' 2 = [arg_key a, arg_value a] := by
  have hne : a ≠ [] := by
    intro h0
    simp [h0] at h
  have h2 : ((2 : Int) - 1).toNat = 1 := by decide
  simp only [g_strsplit, hne, if_false]
  rw [if_neg (by decide), h2]
  exact splitOnChar_one a h

theorem arg_key_no_eq (a : CStr) : '=' ∉ arg_key a := by
  intro h
  have := List.mem_takeWhile_imp h
  simp at this

theorem getenv_append (env : Env) (n v k : CStr) :
    getenv (env ++ [(n, v)]) k =
      match getenv env k with
      | some x => some x
      | none => if n = k then some v else none := by
  induction env with
  | nil => simp [getenv]
  | cons p rest ih =>
    obtain ⟨n', v'⟩ := p
    by_cases hk : n' = k
    · simp [getenv, hk]
    · simp [getenv, hk, ih]

theorem getenv_setenv_keep (env : Env) (n v k : CStr) (hn : n ≠ []) (hq : '=' ∉ n) :
    getenv (setenv env n v false) k =
      match getenv env k with
      | some x => some x
      | none => if n = k then some v else none := by
  unfold setenv
  rw [if_neg (by simp [hn, hq])]
  cases hg : getenv env n with
  | none => simp only [getenv_append]
  | some x =>
    simp only [Bool.false_eq_true, if_false]
    cases hk : getenv env k with
    | some y => rfl
    | none =>
      have hnk : n ≠ k := by
        intro h
        rw [h, hk] at hg
        cases hg
      simp [hnk]

theorem setenv_arguments_spec (arguments : List CStr) :
    ∀ env : Env, (∀ a ∈ arguments, is_key_value a) →
      ∃ env', setenv_arguments env arguments = some env' ∧
        ∀ k, getenv env' k =
          match getenv env k with
          | some x => some x
          | none => first_occurrence arguments k := by
  induction arguments with
  | nil =>
    intro env _
    refine ⟨env, rfl, fun k => ?_⟩
    cases getenv env k <;> rfl
  | cons a rest ih =>
    intro env hall
    have ha : is_key_value a := hall a (List.mem_cons_self _ _)
    obtain ⟨env', he, hget⟩ := ih (setenv env (arg_key a) (arg_value a) false)
      (fun b hb => hall b (List.mem_cons_of_mem _ hb))
    refine ⟨env', ?_, fun k => ?_⟩
    · simp only [setenv_arguments, g_strsplit_key_value a ha.1]
      exact he
    · rw [hget k, getenv_setenv_keep env _ _ k ha.2 (arg_key_no_eq a)]
      cases getenv env k with
      | some x => rfl
      | none =>
        by_cases hk : arg_key a = k
        · simp [first_occurrence, hk]
        · simp [first_occurrence, hk]

/-- Claim C3: for every list of well-formed `key=value` arguments and every initial
environment, the activation child (and the child of statemgmt_run_dysnomia_activity,
which runs the same loop) reaches `execvp` with an environment in which every
variable set initially keeps its initial value and every other name holds the
value of its first occurrence in the list (unset when it does not occur). -/
theorem activation_environment_first_occurrence (activation_modules_dir : CStr) (w : World)
    (pid : Int) (derivation type activity component container : CStr) (arguments : List CStr)
    (hargs : ∀ a ∈ arguments, is_key_value a) (hchild : w.fork = 0) (hexec : w.execOk = true) :
    ∃ env' : Env,
      (disnix_activate_thread_func activation_modules_dir w pid derivation type
          arguments).outcome =
        .exec (activation_modules_dir ++ "/".toList ++ type)
          [activation_modules_dir ++ "/".toList ++ type, "activate".toList, derivation] env' ∧
      (disnix_deactivate_thread_func activation_modules_dir w pid derivation type
          arguments).outcome =
        .exec (activation_modules_dir ++ "/".toList ++ type)
          [activation_modules_dir ++ "/".toList ++ type, "deactivate".toList, derivation] env' ∧
      (∃ argv, statemgmt_run_dysnomia_activity w type activity component container arguments =
        .inl ⟨[], .exec "dysnomia".toList argv env'⟩) ∧
      (∀ k v, getenv w.env k = some v → getenv env' k = some v) ∧
      (∀ k, getenv w.env k = none → getenv env' k = first_occurrence arguments k) := by
  obtain ⟨env', he, hget⟩ := setenv_arguments_spec arguments w.env hargs
  refine ⟨env', ?_, ?_, ?_, ?_, ?_⟩
  · simp [disnix_activate_thread_func, activation_child, execvp_or_exit, hchild, hexec, he,
      g_strconcat]
  · simp [disnix_deactivate_thread_func, activation_child, execvp_or_exit, hchild, hexec, he,
      g_strconcat]
  · simp [statemgmt_run_dysnomia_activity, execvp_or_exit, hchild, hexec, he]
  · intro k v hk
    rw [hget k, hk]
  · intro k hk
    rw [hget k, hk]

/-- With `PATH` set initially and the arguments `PATH=/tmp`, `port=80`, `port=81` the
module sees the initial `PATH` and `port=80`. -/
theorem activation_environment_first_occurrence_witness :
    ∃ env' : Env,
      (disnix_activate_thread_func "/modules".toList
          ⟨[("PATH".toList, "/bin".toList)], true, [], true, 0, true, [], [], 0⟩ 7
          "/nix/store/x".toList "process".toList
          ["PATH=/tmp".toList, "port=80".toList, "port=81".toList]).outcome =
        .exec ("/modules".toList ++ "/".toList ++ "process".toList)
          ["/modules".toList ++ "/".toList ++ "process".toList, "activate".toList,
            "/nix/store/x".toList] env' ∧
      getenv env' "PATH".toList = some "/bin".toList ∧
      getenv env' "port".toList = some "80".toList := by
  obtain ⟨env', h1, -, -, h4, h5⟩ := activation_environment_first_occurrence "/modules".toList
    ⟨[("PATH".toList, "/bin".toList)], true, [], true, 0, true, [], [], 0⟩ 7
    "/nix/store/x".toList "process".toList "activate".toList "x".toList "c".toList
    ["PATH=/tmp".toList, "port=80".toList, "port=81".toList]
    (by
      intro a ha
      simp only [List.mem_cons, List.mem_singleton, List.not_mem_nil, or_false] at ha
      rcases ha with h | h | h <;> subst h <;> exact ⟨by decide, by decide⟩)
    rfl rfl
  exact ⟨env', h1, h4 _ _ (by decide), (h5 _ (by decide)).trans (by decide)⟩

/-! ### The command line of the activation module -/

/-- Claim C4: in the child of the activate job every `execvp` that happens executes
`d ++ "/" ++ t` with argument vector `[d ++ "/" ++ t, "activate", r]`, in the child
of the deactivate job with `[d ++ "/" ++ t, "deactivate", r]`, and the child does
reach that `execvp` whenever the environment loop is defined and the module can
be executed; the two vectors differ in their second element only. -/
theorem activation_module_argv (d t r : CStr) (arguments : List CStr) (w : World) (pid : Int)
    (hchild : w.fork = 0) :
    (∀ file argv env, (disnix_activate_thread_func d w pid r t arguments).outcome =
        .exec file argv env →
      file = d ++ "/".toList ++ t ∧ argv = [d ++ "/".toList ++ t, "activate".toList, r]) ∧
    (∀ file argv env, (disnix_deactivate_thread_func d w pid r t arguments).outcome =
        .exec file argv env →
      file = d ++ "/".toList ++ t ∧ argv = [d ++ "/".toList ++ t, "deactivate".toList, r]) ∧
    (∀ env, setenv_arguments w.env arguments = some env → w.execOk = true →
      (disnix_activate_thread_func d w pid r t arguments).outcome =
        .exec (d ++ "/".toList ++ t) [d ++ "/".toList ++ t, "activate".toList, r] env ∧
      (disnix_deactivate_thread_func d w pid r t arguments).outcome =
        .exec (d ++ "/".toList ++ t) [d ++ "/".toList ++ t, "deactivate".toList, r] env) := by
  refine ⟨?_, ?_, ?_⟩
  · intro file argv env h
    simp only [disnix_activate_thread_func, activation_child, execvp_or_exit, hchild, if_true,
      g_strconcat] at h
    cases he : setenv_arguments w.env arguments with
    | none => simp [he] at h
    | some e =>
      cases hx : w.execOk with
      | false => simp [he, hx] at h
      | true =>
        simp only [he, hx, if_true, Outcome.exec.injEq] at h
        obtain ⟨h1, h2, -⟩ := h
        subst h1 h2
        simp
  · intro file argv env h
    simp only [disnix_deactivate_thread_func, activation_child, execvp_or_exit, hchild, if_true,
      g_strconcat] at h
    cases he : setenv_arguments w.env arguments with
    | none => simp [he] at h
    | some e =>
      cases hx : w.execOk with
      | false => simp [he, hx] at h
      | true =>
        simp only [he, hx, if_true, Outcome.exec.injEq] at h
        obtain ⟨h1, h2, -⟩ := h
        subst h1 h2
        simp
  · intro env he hx
    simp [disnix_activate_thread_func, disnix_deactivate_thread_func, activation_child,
      execvp_or_exit, hchild, he, hx, g_strconcat]

/-- The activate job for type `process` executes `/modules/process activate /nix/store/x`. -/
theorem activation_module_argv_witness :
    (disnix_activate_thread_func "/modules".toList
        ⟨[], true, [], true, 0, true, [], [], 0⟩ 7 "/nix/store/x".toList "process".toList
        ["port=80".toList]).outcome =
      .exec ("/modules".toList ++ "/".toList ++ "process".toList)
        ["/modules".toList ++ "/".toList ++ "process".toList, "activate".toList,
          "/nix/store/x".toList] [("port".toList, "80".toList)] :=
  ((activation_module_argv "/modules".toList "process".toList "/nix/store/x".toList
      ["port=80".toList] ⟨[], true, [], true, 0, true, [], [], 0⟩ 7 rfl).2.2
      [("port".toList, "80".toList)] (by decide) rfl).1

/-! ### Job identifiers -/

theorem wrap_gint_of_range (x : Int) (h0 : -2147483648 ≤ x) (h1 : x ≤ 2147483647) :
    wrap_gint x = x := by
  unfold wrap_gint
  omega

theorem job_counter_after_eq (object : Option DisnixObject) (n : Nat) (h : n ≤ 2147483647) :
    job_counter_after object n = (n : Int) := by
  induction n with
  | zero => rfl
  | succ n ih =>
    have hn : job_counter_after object n = (n : Int) := ih (by omega)
    simp only [job_counter_after, disnix_get_job_id, hn]
    rw [wrap_gint_of_range _ (by omega) (by omega)]
    push_cast
    rfl

theorem kth_job_id_eq (object : Option DisnixObject) (k : Nat) (h1 : 1 ≤ k)
    (h : k ≤ 2147483647) : kth_job_id object k = (k : Int) - 1 := by
  simp only [kth_job_id, disnix_get_job_id]
  rw [job_counter_after_eq object (k - 1) (by omega)]
  omega

/-- Claim C5: on a freshly started service the first call of disnix_get_job_id hands
out job id 0; for every `k` from 1 up to the largest `gint` the `k`-th call
returns TRUE, hands out `k - 1` and leaves `job_counter` at `k`; and of two
calls within that range the later one hands out the strictly larger id. -/
theorem job_ids_fresh_and_increasing (object : Option DisnixObject) (k : Nat) (hk1 : 1 ≤ k)
    (hk : k ≤ 2147483647) :
    kth_job_id object 1 = 0 ∧
    (disnix_get_job_id object (job_counter_after object (k - 1))).result = true ∧
    kth_job_id object k = (k : Int) - 1 ∧
    job_counter_after object k = (k : Int) ∧
    (∀ i : Nat, 1 ≤ i → i < k → kth_job_id object i < kth_job_id object k) := by
  refine ⟨?_, rfl, kth_job_id_eq object k hk1 hk, job_counter_after_eq object k hk, ?_⟩
  · rw [kth_job_id_eq object 1 (by omega) (by omega)]
    rfl
  · intro i hi hik
    rw [kth_job_id_eq object i hi (by omega), kth_job_id_eq object k hk1 hk]
    omega

/-- The third call hands out job id 2, after the second call handed out a smaller one. -/
theorem job_ids_fresh_and_increasing_witness :
    kth_job_id none 3 = 2 ∧ job_counter_after none 3 = 3 ∧ kth_job_id none 2 < kth_job_id none 3 :=
  have h := job_ids_fresh_and_increasing none 3 (by decide) (by decide)
  ⟨h.2.2.1, h.2.2.2.1, h.2.2.2.2 2 (by decide) (by decide)⟩

/-! ### Lock and unlock -/

/-- A call of the lock method or of the unlock method with job id 7 does not result
in exactly one `finish` or `failure` signal for job 7; it emits no signal. -/
theorem lock_emits_no_signal_example :
    ¬ (∃ sig : Signal, (disnix_lock (some ⟨0⟩) 7).signals = [sig] ∧
        (sig = .finish 7 ∨ sig = .failure 7)) ∧
    ¬ (∃ sig : Signal, (disnix_unlock (some ⟨0⟩) 7).signals = [sig] ∧
        (sig = .finish 7 ∨ sig = .failure 7)) := by
  constructor <;>
  · rintro ⟨sig, h, -⟩
    simp [disnix_lock, disnix_unlock] at h

/-- Claim C6, at the inputs where it fails: for every job id, a call of the lock
method or of the unlock method returns TRUE at once and emits no signal at all,
neither `finish` nor `failure`, since no job is forked and `lock_manager` and
`unlock_manager` are never invoked. -/
theorem lock_unlock_return_true_without_signal (object : Option DisnixObject) (pid : Int) :
    disnix_lock object pid = ⟨[], .returned true⟩ ∧
    disnix_unlock object pid = ⟨[], .returned true⟩ :=
  ⟨rfl, rfl⟩

/-! ### Output lines -/

/-- Claim C7, at an input where it fails: for the chunks `"a"` and `"b\nc"` the
lines vector built by update_lines_vector reads as the single line `"ab"`, and the
print-invalid job hands exactly that to the success signal, while splitting the
concatenation `"ab\nc"` at newlines gives the two lines `"ab"` and `"c"`: the
line `"c"` is stored behind the terminating NULL and lost. -/
theorem update_lines_vector_loses_line :
    read_lines none ["a".toList, "b\nc".toList] =
      some (some [.str "ab".toList, .null, .str "c".toList, .null]) ∧
    (disnix_print_invalid_thread_func
        ⟨[], true, [], true, 41, true, ["a".toList, "b\nc".toList], [], 0⟩ 7 []).signals =
      [.success 7 ["ab".toList]] ∧
    g_strsplit ("a".toList ++ "b\nc".toList) '\n' 0 = ["ab".toList, "c".toList] := by
  refine ⟨by decide, by decide, by decide⟩

/-! ### Return value of the methods -/

/-- Claim C8: in the service process, whether the `fork()` of the method failed or
made a job process, each of the thirteen methods returns TRUE (and emits
nothing itself), for every input with a non-NULL object; and in no process
does a method return FALSE. -/
theorem methods_return_true (localstatedir activation_modules_dir : CStr) (obj : DisnixObject)
    (anyObject : Option DisnixObject) (job_counter : Int) (outer : ForkResult) (w : World)
    (pid : Int) (closure profile derivation type : CStr) (derivations arguments : List CStr)
    (delete_old : Bool) :
    disnix_import (some obj) outer.inParent w pid closure = ⟨[], .returned true⟩ ∧
    disnix_export (some obj) outer.inParent w pid derivations = ⟨[], .returned true⟩ ∧
    disnix_print_invalid (some obj) outer.inParent w pid derivations = ⟨[], .returned true⟩ ∧
    disnix_realise (some obj) outer.inParent w pid derivations = ⟨[], .returned true⟩ ∧
    disnix_set localstatedir (some obj) outer.inParent w pid profile derivation =
      ⟨[], .returned true⟩ ∧
    disnix_query_installed (some obj) outer.inParent w pid profile = ⟨[], .returned true⟩ ∧
    disnix_query_requisites (some obj) outer.inParent w pid derivations =
      ⟨[], .returned true⟩ ∧
    disnix_collect_garbage (some obj) outer.inParent w pid delete_old = ⟨[], .returned true⟩ ∧
    disnix_activate activation_modules_dir (some obj) outer.inParent w pid derivation type
      arguments = ⟨[], .returned true⟩ ∧
    disnix_deactivate activation_modules_dir (some obj) outer.inParent w pid derivation type
      arguments = ⟨[], .returned true⟩ ∧
    disnix_lock anyObject pid = ⟨[], .returned true⟩ ∧
    disnix_unlock anyObject pid = ⟨[], .returned true⟩ ∧
    (disnix_get_job_id anyObject job_counter).result = true := by
  have h : ¬ (outer.inParent = 0) := by
    cases outer with
    | failed => decide
    | forked c =>
      simp only [ForkResult.inParent]
      omega
  simp [disnix_import, disnix_export, disnix_print_invalid, disnix_realise, disnix_set,
    disnix_query_installed, disnix_query_requisites, disnix_collect_garbage, disnix_activate,
    disnix_deactivate, disnix_lock, disnix_unlock, disnix_get_job_id, fork_job, h]

/-! ## Properties of the transition -/

theorem growsBy_refl (P : Event → Prop) (tr : List Event) : GrowsBy P tr tr :=
  ⟨[], by simp, by simp⟩

theorem growsBy_trans {P : Event → Prop} {a b c : List Event} (h1 : GrowsBy P a b)
    (h2 : GrowsBy P b c) : GrowsBy P a c := by
  obtain ⟨e1, rfl, p1⟩ := h1
  obtain ⟨e2, rfl, p2⟩ := h2
  refine ⟨e1 ++ e2, by simp, ?_⟩
  intro ev hev
  rcases List.mem_append.mp hev with h | h
  · exact p1 ev h
  · exact p2 ev h

theorem growsBy_step {P : Event → Prop} (tr : List Event) (ev : Event) (h : P ev) :
    GrowsBy P tr (tr ++ [ev]) :=
  ⟨[ev], rfl, by simpa using h⟩

theorem growsBy_mono {P Q : Event → Prop} {a b : List Event} (h : GrowsBy P a b)
    (hpq : ∀ ev, P ev → Q ev) : GrowsBy Q a b := by
  obtain ⟨evs, rfl, p⟩ := h
  exact ⟨evs, rfl, fun ev hev => hpq ev (p ev hev)⟩

theorem getD_mem_cons (m0 : ActivationMapping) (ms : List ActivationMapping) (i : Nat) :
    (m0 :: ms).getD i m0 ∈ m0 :: ms := by
  rw [List.getD_eq_getElem?_getD]
  cases h : (m0 :: ms)[i]? with
  | none => simp
  | some x =>
    obtain ⟨hi, hx⟩ := List.getElem?_eq_some.mp h
    simp only [Option.getD_some]
    exact hx ▸ List.getElem_mem hi

theorem outstanding_subset (plan : List ActivationMapping) (e : Engine) (m : ActivationMapping)
    (h : m ∈ outstanding plan e) : m ∈ plan :=
  (List.mem_filter.mp h).1

theorem deactivation_sweep_grows (plan : List ActivationMapping) :
    ∀ (rest : List ActivationMapping) (e : Engine), (∀ m ∈ rest, m ∈ plan) →
      GrowsBy (DeactivationOf plan) e.trace (deactivation_sweep plan rest e).trace := by
  intro rest
  induction rest with
  | nil => intro e _; exact growsBy_refl _ _
  | cons m rest ih =>
    intro e hsub
    have hm : m ∈ plan := hsub m (List.mem_cons_self _ _)
    have hrest : ∀ x ∈ rest, x ∈ plan := fun x hx => hsub x (List.mem_cons_of_mem _ hx)
    simp only [deactivation_sweep]
    refine growsBy_trans ?_ (ih _ hrest)
    split_ifs
    · exact growsBy_refl _ _
    · exact growsBy_step _ _ ⟨m, hm, Or.inl rfl⟩
    · exact growsBy_refl _ _

theorem deactivation_phase_grows (r : Remote) (plan : List ActivationMapping) :
    ∀ (fuel : Nat) (e : Engine),
      GrowsBy (DeactivationOf plan) e.trace (deactivation_phase r plan fuel e).trace := by
  intro fuel
  induction fuel with
  | zero => intro e; exact growsBy_refl _ _
  | succ fuel ih =>
    intro e
    have hs := deactivation_sweep_grows plan plan e (fun m hm => hm)
    simp only [deactivation_phase]
    split
    · exact hs
    · rename_i m0 ms hout
      refine growsBy_trans hs (growsBy_trans ?_ (ih _))
      refine growsBy_step _ _ ⟨_, ?_, Or.inr ⟨_, rfl⟩⟩
      refine outstanding_subset plan (deactivation_sweep plan plan e) _ ?_
      rw [hout]
      exact getD_mem_cons m0 ms _

theorem activation_sweep_grows (plan : List ActivationMapping) :
    ∀ (rest : List ActivationMapping) (e : Engine), (∀ m ∈ rest, m ∈ plan) →
      GrowsBy (ActivationOf plan) e.trace (activation_sweep plan rest e).trace := by
  intro rest
  induction rest with
  | nil => intro e _; exact growsBy_refl _ _
  | cons m rest ih =>
    intro e hsub
    have hm : m ∈ plan := hsub m (List.mem_cons_self _ _)
    have hrest : ∀ x ∈ rest, x ∈ plan := fun x hx => hsub x (List.mem_cons_of_mem _ hx)
    simp only [activation_sweep]
    refine growsBy_trans ?_ (ih _ hrest)
    split_ifs
    · exact growsBy_refl _ _
    · exact growsBy_step _ _ ⟨m, hm, Or.inr (Or.inl rfl)⟩
    · exact growsBy_step _ _ ⟨m, hm, Or.inl rfl⟩
    · exact growsBy_refl _ _

theorem activation_phase_grows (r : Remote) (plan : List ActivationMapping) :
    ∀ (fuel : Nat) (e : Engine),
      GrowsBy (ActivationOf plan) e.trace (activation_phase r plan fuel e).trace := by
  intro fuel
  induction fuel with
  | zero => intro e; exact growsBy_refl _ _
  | succ fuel ih =>
    intro e
    have hs := activation_sweep_grows plan plan e (fun m hm => hm)
    simp only [activation_phase]
    split
    · exact hs
    · rename_i m0 ms hout
      refine growsBy_trans hs (growsBy_trans ?_ (ih _))
      refine growsBy_step _ _ ⟨_, ?_, Or.inr (Or.inr ⟨_, rfl⟩)⟩
      refine outstanding_subset plan (activation_sweep plan plan e) _ ?_
      rw [hout]
      exact getD_mem_cons m0 ms _

theorem deactivationOf_notLocking {plan : List ActivationMapping} {ev : Event}
    (h : DeactivationOf plan ev) : NotLocking ev := by
  obtain ⟨m, -, h | ⟨ok, h⟩⟩ := h <;> subst h <;> constructor <;> intros <;> simp

theorem activationOf_notLocking {plan : List ActivationMapping} {ev : Event}
    (h : ActivationOf plan ev) : NotLocking ev := by
  obtain ⟨m, -, h | h | ⟨ok, h⟩⟩ := h <;> subst h <;> constructor <;> intros <;> simp

theorem transition_not_locking (r : Remote) (new old : Manifest) :
    ∀ ev ∈ (transition r new old).trace, NotLocking ev := by
  unfold transition
  split
  · simp
  · rename_i plan _
    have hd := growsBy_mono (deactivation_phase_grows r plan.to_deactivate
      (plan.to_deactivate.length + 1) ⟨[], []⟩) (fun _ h => deactivationOf_notLocking h)
    have ha := growsBy_mono (activation_phase_grows r plan.to_activate
      (plan.to_activate.length + 1)
      ⟨[], (deactivation_phase r plan.to_deactivate (plan.to_deactivate.length + 1)
        ⟨[], []⟩).trace⟩) (fun _ h => activationOf_notLocking h)
    obtain ⟨evs, hevs, p⟩ := growsBy_trans hd ha
    intro ev hev
    simp only at hev hevs
    rw [hevs] at hev
    exact p ev (by simpa using hev)

theorem status_cons (k1 : CStr) (s : MappingStatus) (table : List (CStr × MappingStatus))
    (k : CStr) : status ((k1, s) :: table) k = if k1 = k then some s else status table k :=
  rfl

theorem afterDependencies_append (plan : List ActivationMapping) (tr : List Event) (ev : Event)
    (h : ActivatedAfterDependencies plan tr)
    (hev : ∀ m, ev = .activate m → ∀ b ∈ m.depends_on, b ∈ keys plan →
      ∃ mb : ActivationMapping, mb.key = b ∧ Event.activated mb true ∈ tr) :
    ActivatedAfterDependencies plan (tr ++ [ev]) := by
  intro i m hi b hb hbp
  by_cases hlt : i < tr.length
  · rw [List.getElem?_append_left hlt] at hi
    rw [List.take_append_of_le_length (Nat.le_of_lt hlt)]
    exact h i m hi b hb hbp
  · have hlen : i < (tr ++ [ev]).length := by
      by_contra hcon
      rw [List.getElem?_eq_none (Nat.le_of_not_lt hcon)] at hi
      cases hi
    have hi_eq : i = tr.length := by
      simp only [List.length_append, List.length_singleton] at hlen
      omega
    subst hi_eq
    have hget : (tr ++ [ev])[tr.length]? = some ev := by simp
    rw [hget] at hi
    have hevm : ev = .activate m := Option.some.inj hi
    have htake : (tr ++ [ev]).take tr.length = tr := by simp
    rw [htake]
    exact hev m hevm b hb hbp

theorem afterDependencies_grows (plan : List ActivationMapping) (evs : List Event) :
    ∀ tr : List Event, ActivatedAfterDependencies plan tr → (∀ ev ∈ evs, ∀ m, ev ≠ .activate m) →
      ActivatedAfterDependencies plan (tr ++ evs) := by
  induction evs with
  | nil => intro tr h _; simpa using h
  | cons ev rest ih =>
    intro tr h hne
    have h1 := afterDependencies_append plan tr ev h
      (fun m hm => absurd hm (hne ev (List.mem_cons_self _ _) m))
    have h2 := ih (tr ++ [ev]) h1 (fun x hx => hne x (List.mem_cons_of_mem _ hx))
    simpa using h2

theorem tableSound_record (e : Engine) (m : ActivationMapping) (s : MappingStatus) (ev : Event)
    (h : TableSound e) (hs : s = .succeeded → ev = .activated m true) :
    TableSound (e.record m s ev) := by
  intro k hk
  simp only [Engine.record, status_cons] at hk
  by_cases hmk : m.key = k
  · rw [if_pos hmk] at hk
    have hs' : s = .succeeded := Option.some.inj hk
    refine ⟨m, hmk, ?_⟩
    simp [Engine.record, hs hs']
  · rw [if_neg hmk] at hk
    obtain ⟨mb, hkey, hmem⟩ := h k hk
    exact ⟨mb, hkey, by simp [Engine.record, hmem]⟩

theorem activation_sweep_invariant (plan : List ActivationMapping) :
    ∀ (rest : List ActivationMapping) (e : Engine),
      TableSound e → ActivatedAfterDependencies plan e.trace →
      TableSound (activation_sweep plan rest e) ∧
        ActivatedAfterDependencies plan (activation_sweep plan rest e).trace := by
  intro rest
  induction rest with
  | nil => intro e h1 h2; exact ⟨h1, h2⟩
  | cons m rest ih =>
    intro e h1 h2
    simp only [activation_sweep]
    apply ih
    · split_ifs
      · exact h1
      · exact tableSound_record e m _ _ h1 (fun h => by cases h)
      · exact tableSound_record e m _ _ h1 (fun h => by cases h)
      · exact h1
    · split_ifs with hpending hfailed hready
      · exact h2
      · exact afterDependencies_append plan e.trace _ h2 (fun m1 h => by cases h)
      · refine afterDependencies_append plan e.trace _ h2 (fun m1 hm1 b hb hbp => ?_)
        have hmm : m = m1 := by
          injection hm1
        subst hmm
        have hall := List.all_eq_true.mp hready b
          (by simp [phase_dependencies, hb, hbp])
        exact h1 b (by simpa using hall)
      · exact h2

theorem activation_phase_invariant (r : Remote) (plan : List ActivationMapping) :
    ∀ (fuel : Nat) (e : Engine),
      TableSound e → ActivatedAfterDependencies plan e.trace →
      TableSound (activation_phase r plan fuel e) ∧
        ActivatedAfterDependencies plan (activation_phase r plan fuel e).trace := by
  intro fuel
  induction fuel with
  | zero => intro e h1 h2; exact ⟨h1, h2⟩
  | succ fuel ih =>
    intro e h1 h2
    obtain ⟨g1, g2⟩ := activation_sweep_invariant plan plan e h1 h2
    simp only [activation_phase]
    split
    · exact ⟨g1, g2⟩
    · apply ih
      · refine tableSound_record _ _ _ _ g1 (fun h => ?_)
        split_ifs at h with hok
        · rw [hok]
      · exact afterDependencies_append plan _ _ g2 (fun m1 h => by cases h)

/-! ### The orderer keeps every mapping -/

theorem foldlM_option_mono {α : Type} (f : List CStr → α → Option (List CStr))
    (l : List α) (hf : ∀ a ∈ l, ∀ d res, f d a = some res → ∀ x ∈ d, x ∈ res) :
    ∀ d res, l.foldlM f d = some res → ∀ x ∈ d, x ∈ res := by
  induction l with
  | nil =>
    intro d res h x hx
    simp only [List.foldlM, pure, Option.some.injEq] at h
    exact h ▸ hx
  | cons a rest ih =>
    intro d res h x hx
    simp only [List.foldlM, bind, Option.bind] at h
    cases hfa : f d a with
    | none => simp [hfa] at h
    | some d1 =>
      simp only [hfa] at h
      exact ih (fun a1 ha1 => hf a1 (List.mem_cons_of_mem _ ha1)) d1 res h x
        (hf a (List.mem_cons_self _ _) d d1 hfa x hx)

theorem visit_mono (ms : List ActivationMapping) :
    ∀ (fuel : Nat) (stack done : List CStr) (k : CStr) (res : List CStr),
      visit ms fuel stack done k = some res → ∀ x ∈ done, x ∈ res := by
  intro fuel
  induction fuel with
  | zero => intro stack done k res h; simp [visit] at h
  | succ fuel ih =>
    intro stack done k res h x hx
    simp only [visit] at h
    split_ifs at h with h1 h2
    · exact (Option.some.inj h) ▸ hx
    · cases hfind : find_mapping ms k with
      | none =>
        simp only [hfind] at h
        exact (Option.some.inj h) ▸ hx
      | some m =>
        simp only [hfind, Option.map_eq_some'] at h
        obtain ⟨d1, hd1, hres⟩ := h
        rw [← hres]
        refine List.mem_append_left _ ?_
        exact foldlM_option_mono _ m.depends_on
          (fun a _ d res1 hv => ih (k :: stack) d a res1 hv) done d1 hd1 x hx

theorem visit_adds (ms : List ActivationMapping) (fuel : Nat) (stack done : List CStr) (k : CStr)
    (res : List CStr) (h : visit ms fuel stack done k = some res) (m : ActivationMapping)
    (hm : find_mapping ms k = some m) : k ∈ res := by
  cases fuel with
  | zero => simp [visit] at h
  | succ fuel =>
    simp only [visit] at h
    split_ifs at h with h1 h2
    · exact (Option.some.inj h) ▸ h1
    · simp only [hm, Option.map_eq_some'] at h
      obtain ⟨d1, -, hres⟩ := h
      rw [← hres]
      simp

theorem find_mapping_of_mem (ms : List ActivationMapping) (m : ActivationMapping) (h : m ∈ ms) :
    ∃ m1, find_mapping ms m.key = some m1 := by
  cases hf : find_mapping ms m.key with
  | some m1 => exact ⟨m1, rfl⟩
  | none =>
    have := List.find?_eq_none.mp hf m h
    simp at this

theorem find_mapping_some (ms : List ActivationMapping) (k : CStr) (m : ActivationMapping)
    (h : find_mapping ms k = some m) : m ∈ ms ∧ m.key = k := by
  refine ⟨List.mem_of_find?_eq_some h, ?_⟩
  have := List.find?_some h
  simpa using this

theorem order_fold_complete (ms : List ActivationMapping) :
    ∀ (l : List ActivationMapping) (d res : List CStr), (∀ m ∈ l, m ∈ ms) →
      l.foldlM (fun done m => visit ms (ms.length + 1) [] done m.key) d = some res →
      (∀ x ∈ d, x ∈ res) ∧ ∀ m ∈ l, m.key ∈ res := by
  intro l
  induction l with
  | nil =>
    intro d res _ h
    simp only [List.foldlM, pure, Option.some.injEq] at h
    subst h
    exact ⟨fun x hx => hx, by simp⟩
  | cons a rest ih =>
    intro d res hsub h
    simp only [List.foldlM, bind, Option.bind] at h
    cases hv : visit ms (ms.length + 1) [] d a.key with
    | none => simp [hv] at h
    | some d1 =>
      simp only [hv] at h
      obtain ⟨g1, g2⟩ := ih d1 res (fun m hm => hsub m (List.mem_cons_of_mem _ hm)) h
      obtain ⟨a1, ha1⟩ := find_mapping_of_mem ms a (hsub a (List.mem_cons_self _ _))
      have hak : a.key ∈ d1 := visit_adds ms _ [] d a.key d1 hv a1 ha1
      refine ⟨fun x hx => g1 x (visit_mono ms _ [] d a.key d1 hv x hx), ?_⟩
      intro m hm
      rcases List.mem_cons.mp hm with h0 | h0
      · rw [h0]
        exact g1 _ hak
      · exact g2 m h0

theorem activation_order_complete (ms order : List ActivationMapping)
    (h : activation_order ms = some order) :
    (∀ m ∈ ms, m.key ∈ keys order) ∧ ∀ m ∈ order, m ∈ ms := by
  simp only [activation_order, Option.map_eq_some'] at h
  obtain ⟨ks, hks, hord⟩ := h
  obtain ⟨-, hall⟩ := order_fold_complete ms ms [] ks (fun m hm => hm) hks
  subst hord
  constructor
  · intro m hm
    obtain ⟨m1, hm1⟩ := find_mapping_of_mem ms m hm
    have hkey := (find_mapping_some ms m.key m1 hm1).2
    simp only [keys, List.mem_map, List.mem_filterMap]
    exact ⟨m1, ⟨m.key, hall m hm, hm1⟩, hkey⟩
  · intro m hm
    obtain ⟨k, -, hk⟩ := List.mem_filterMap.mp hm
    exact (find_mapping_some ms k m hk).1

theorem transition_trace_shape (r : Remote) (new old : Manifest) (plan : TransitionPlan)
    (h : transition_plan new old = some plan) :
    ∃ devs aevs, (transition r new old).trace = devs ++ aevs ∧
      (∀ ev ∈ devs, DeactivationOf plan.to_deactivate ev) ∧
      (∀ ev ∈ aevs, ActivationOf plan.to_activate ev) ∧
      ActivatedAfterDependencies plan.to_activate (transition r new old).trace := by
  obtain ⟨devs, hdevs, pd⟩ := deactivation_phase_grows r plan.to_deactivate
    (plan.to_deactivate.length + 1) ⟨[], []⟩
  obtain ⟨aevs, haevs, pa⟩ := activation_phase_grows r plan.to_activate
    (plan.to_activate.length + 1)
    ⟨[], (deactivation_phase r plan.to_deactivate (plan.to_deactivate.length + 1) ⟨[], []⟩).trace⟩
  simp only [List.nil_append] at hdevs
  have hinit : ActivatedAfterDependencies plan.to_activate
      (deactivation_phase r plan.to_deactivate (plan.to_deactivate.length + 1) ⟨[], []⟩).trace := by
    rw [hdevs]
    have h0 : ActivatedAfterDependencies plan.to_activate [] := by
      intro i m hi
      simp at hi
    have := afterDependencies_grows plan.to_activate devs [] h0 (fun ev hev m hm => by
      obtain ⟨m1, -, h1 | ⟨ok, h1⟩⟩ := pd ev hev <;> rw [h1] at hm <;> cases hm)
    simpa using this
  have hsound : TableSound ⟨[], (deactivation_phase r plan.to_deactivate
      (plan.to_deactivate.length + 1) ⟨[], []⟩).trace⟩ := by
    intro k hk
    simp [status] at hk
  have hinv := (activation_phase_invariant r plan.to_activate (plan.to_activate.length + 1)
    _ hsound hinit).2
  have htr : (transition r new old).trace = (activation_phase r plan.to_activate
      (plan.to_activate.length + 1) ⟨[], (deactivation_phase r plan.to_deactivate
        (plan.to_deactivate.length + 1) ⟨[], []⟩).trace⟩).trace := by
    simp only [transition, h]
  refine ⟨devs, aevs, ?_, pd, pa, ?_⟩
  · rw [htr, haevs, hdevs]
  · rw [htr]
    exact hinv

/-- Claim C14, at the inputs where it fails: with `delete_old` TRUE the job logs
"Garbage collect and remove old derivations" and its child executes
nix-collect-garbage without `-d`; with `delete_old` FALSE it logs "Garbage collect"
and its child executes nix-collect-garbage with `-d`. -/
theorem collect_garbage_option_inverted (w : World) (pid : Int) :
    collect_garbage_log_entry true = "Garbage collect and remove old derivations\n".toList ∧
    (disnix_collect_garbage_thread_func { w with fork := 0, execOk := true } pid true).outcome =
      .exec "nix-collect-garbage".toList ["nix-collect-garbage".toList] w.env ∧
    collect_garbage_log_entry false = "Garbage collect\n".toList ∧
    (disnix_collect_garbage_thread_func { w with fork := 0, execOk := true } pid false).outcome =
      .exec "nix-collect-garbage".toList ["nix-collect-garbage".toList, "-d".toList] w.env := by
  refine ⟨rfl, ?_, rfl, ?_⟩ <;>
    simp [disnix_collect_garbage_thread_func, execvp_or_exit]

/-! ### Decomposition of an argument -/

theorem arg_key_value_concat (a : CStr) (h : '=' ∈ a) : arg_key a ++ '=' :: arg_value a = a := by
  induction a with
  | nil => simp at h
  | cons c s ih =>
    by_cases hc : c = '='
    · subst hc
      simp [arg_key, arg_value, List.takeWhile, List.dropWhile]
    · have hs : '=' ∈ s := by
        rcases List.mem_cons.mp h with h1 | h1
        · exact absurd h1.symm hc
        · exact h1
      have := ih hs
      simp only [arg_key, arg_value] at this
      simp only [arg_key, arg_value, List.takeWhile, List.dropWhile, hc, ne_eq, not_false_eq_true,
        decide_True, List.cons_append]
      rw [this]

theorem getenv_setenv_argument (env : Env) (a k : CStr) :
    getenv (setenv env (arg_key a) (arg_value a) false) k =
      match getenv env k with
      | some x => some x
      | none => if arg_key a = k ∧ k ≠ [] then some (arg_value a) else none := by
  by_cases hne : arg_key a = []
  · have hsame : setenv env (arg_key a) (arg_value a) false = env := by
      simp [setenv, hne]
    rw [hsame]
    cases hg : getenv env k with
    | some x => rfl
    | none =>
      have : ¬ (arg_key a = k ∧ k ≠ []) := fun h => h.2 (h.1 ▸ hne)
      simp [this]
  · rw [getenv_setenv_keep env _ _ k hne (arg_key_no_eq a)]
    cases hg : getenv env k with
    | some x => rfl
    | none =>
      by_cases hk : arg_key a = k
      · have hk2 : k ≠ [] := hk ▸ hne
        simp [hk, hk2]
      · simp [hk]

/-- With `PATH=/bin` in the environment the argument `PATH=/tmp` does not set `PATH`
to `/tmp` (the child executes with the environment unchanged, `PATH` is still
`/bin`), and the argument `=v`, whose name is empty, sets no variable at all. -/
theorem argument_does_not_overwrite_example :
    arg_key "PATH=/tmp".toList = "PATH".toList ∧
    arg_value "PATH=/tmp".toList = "/tmp".toList ∧
    (disnix_activate_thread_func "/modules".toList
        ⟨[("PATH".toList, "/bin".toList)], true, [], true, 0, true, [], [], 0⟩ 7
        "/nix/store/x".toList "process".toList ["PATH=/tmp".toList]).outcome =
      .exec "/modules/process".toList
        ["/modules/process".toList, "activate".toList, "/nix/store/x".toList]
        [("PATH".toList, "/bin".toList)] ∧
    getenv [("PATH".toList, "/bin".toList)] "PATH".toList ≠ some "/tmp".toList ∧
    arg_key "=v".toList = [] ∧
    (disnix_activate_thread_func "/modules".toList
        ⟨[], true, [], true, 0, true, [], [], 0⟩ 7
        "/nix/store/x".toList "process".toList ["=v".toList]).outcome =
      .exec "/modules/process".toList
        ["/modules/process".toList, "activate".toList, "/nix/store/x".toList] [] := by
  refine ⟨by decide, by decide, by decide, by decide, by decide, by decide⟩

theorem setenv_arguments_append (pre rest : List CStr) :
    ∀ env : Env, setenv_arguments env (pre ++ rest) =
      (setenv_arguments env pre).bind (fun e => setenv_arguments e rest) := by
  induction pre with
  | nil => intro env; rfl
  | cons a pre ih =>
    intro env
    simp only [List.cons_append, setenv_arguments]
    split
    · exact ih _
    · rfl

theorem setenv_arguments_total (arguments : List CStr) :
    ∀ env : Env, (∀ a ∈ arguments, '=' ∈ a) →
      ∃ env1, setenv_arguments env arguments = some env1 ∧
        ∀ k v, getenv env k = some v → getenv env1 k = some v := by
  induction arguments with
  | nil => intro env _; exact ⟨env, rfl, fun _ _ h => h⟩
  | cons a rest ih =>
    intro env hall
    obtain ⟨env1, h1, h2⟩ := ih (setenv env (arg_key a) (arg_value a) false)
      (fun b hb => hall b (List.mem_cons_of_mem _ hb))
    refine ⟨env1, ?_, fun k v hk => h2 k v ?_⟩
    · simp only [setenv_arguments, g_strsplit_key_value a (hall a (List.mem_cons_self _ _))]
      exact h1
    · rw [getenv_setenv_argument, hk]

/-- Claim C16 as amended: for every argument that contains `=`, standing anywhere in
an argument list whose elements all contain `=`, the split made by the
activation child and by statemgmt_run_dysnomia_activity yields as name the text
before the first `=` (which contains no `=`) and as value the whole remainder
after it, the two joined by `=` giving back the argument. The loop reaches the
argument with the environment left by the arguments before it and calls setenv
without overwriting: after the call every variable that was set keeps its old
value, the named variable holds the value if it was unset and its name is not
empty, and every other variable is unset as before. The children of the
activate job, of the deactivate job and of statemgmt_run_dysnomia_activity then
execute with one and the same environment, which the arguments after it leave;
there every variable that was set when the loop reached the argument still has
its old value, and the named variable holds the value if it was unset then and
its name is not empty. -/
theorem argument_split_at_first_equals (activation_modules_dir : CStr) (w : World) (pid : Int)
    (derivation type activity component container : CStr) (pre post : List CStr) (a : CStr)
    (hall : ∀ x ∈ pre ++ a :: post, '=' ∈ x) (hchild : w.fork = 0) (hexec : w.execOk = true) :
    g_strsplit a '=' 2 = [arg_key a, arg_value a] ∧
    arg_key a ++ '=' :: arg_value a = a ∧
    '=' ∉ arg_key a ∧
    ∃ before env : Env,
      setenv_arguments w.env pre = some before ∧
      setenv_arguments (setenv before (arg_key a) (arg_value a) false) post = some env ∧
      (∃ file argv, (disnix_activate_thread_func activation_modules_dir w pid derivation type
          (pre ++ a :: post)).outcome = .exec file argv env) ∧
      (∃ file argv, (disnix_deactivate_thread_func activation_modules_dir w pid derivation type
          (pre ++ a :: post)).outcome = .exec file argv env) ∧
      (∃ file argv, statemgmt_run_dysnomia_activity w type activity component container
          (pre ++ a :: post) = .inl ⟨[], .exec file argv env⟩) ∧
      (∀ k, getenv (setenv before (arg_key a) (arg_value a) false) k =
        match getenv before k with
        | some x => some x
        | none => if arg_key a = k ∧ k ≠ [] then some (arg_value a) else none) ∧
      (∀ k v, getenv before k = some v → getenv env k = some v) ∧
      (arg_key a ≠ [] → getenv before (arg_key a) = none →
        getenv env (arg_key a) = some (arg_value a)) ∧
      (post = [] → ∀ k, getenv before k = none → (k ≠ arg_key a ∨ k = []) →
        getenv env k = none) := by
  have ha : '=' ∈ a := hall a (by simp)
  have hsplit := g_strsplit_key_value a ha
  obtain ⟨before, hbefore, -⟩ := setenv_arguments_total pre w.env
    (fun x hx => hall x (List.mem_append_left _ hx))
  obtain ⟨env, henv, hkeep⟩ := setenv_arguments_total post
    (setenv before (arg_key a) (arg_value a) false)
    (fun x hx => hall x (List.mem_append_right _ (List.mem_cons_of_mem _ hx)))
  have hrun : setenv_arguments w.env (pre ++ a :: post) = some env := by
    rw [setenv_arguments_append, hbefore]
    simp only [Option.some_bind, setenv_arguments, hsplit]
    exact henv
  refine ⟨hsplit, arg_key_value_concat a ha, arg_key_no_eq a, before, env, hbefore, henv,
    ?_, ?_, ?_, getenv_setenv_argument before a, ?_, ?_, ?_⟩
  · simp [disnix_activate_thread_func, activation_child, execvp_or_exit, hchild, hexec, hrun]
  · simp [disnix_deactivate_thread_func, activation_child, execvp_or_exit, hchild, hexec, hrun]
  · simp [statemgmt_run_dysnomia_activity, execvp_or_exit, hchild, hexec, hrun]
  · intro k v hk
    refine hkeep k v ?_
    rw [getenv_setenv_argument, hk]
  · intro hne hunset
    refine hkeep _ _ ?_
    rw [getenv_setenv_argument, hunset]
    simp [hne]
  · intro hpost k hk hother
    subst hpost
    simp only [setenv_arguments, Option.some.injEq] at henv
    rw [← henv, getenv_setenv_argument, hk]
    have : ¬ (arg_key a = k ∧ k ≠ []) := by
      rintro ⟨h1, h2⟩
      rcases hother with h3 | h3
      · exact h3 h1.symm
      · exact h2 h3
    simp [this]

/-- The argument `url=http://h/?a=b`, standing between `a=1` and `url=zzz`, is split
into `url` and `http://h/?a=b`, and in an empty environment the child executes
with `url` set to that value. -/
theorem argument_split_at_first_equals_witness :
    g_strsplit "url=http://h/?a=b".toList '=' 2 = ["url".toList, "http://h/?a=b".toList] ∧
    ∃ env : Env,
      (∃ file argv, (disnix_activate_thread_func "/modules".toList
          ⟨[], true, [], true, 0, true, [], [], 0⟩ 7 "/nix/store/x".toList "process".toList
          ["a=1".toList, "url=http://h/?a=b".toList, "url=zzz".toList]).outcome =
            .exec file argv env) ∧
      getenv env "url".toList = some "http://h/?a=b".toList := by
  obtain ⟨h1, -, -, before, env, hb, -, h4, -, -, -, -, h8, -⟩ := argument_split_at_first_equals
    "/modules".toList ⟨[], true, [], true, 0, true, [], [], 0⟩ 7 "/nix/store/x".toList
    "process".toList "activate".toList "x".toList "c".toList ["a=1".toList] ["url=zzz".toList]
    "url=http://h/?a=b".toList (by decide) rfl rfl
  have hbefore : before = [("a".toList, "1".toList)] := by
    have hd : setenv_arguments ([] : Env) ["a=1".toList] = some [("a".toList, "1".toList)] := by
      decide
    exact (Option.some.inj (hb.symm.trans hd))
  subst hbefore
  exact ⟨h1.trans (by decide), env, h4, (h8 (by decide) (by decide)).trans (by decide)⟩

/-! ### Cleaning snapshots -/

/-- Claim C19: start_disnix_service never returns 0: when creating the main loop,
connecting to the bus, creating the proxy, the RequestName call, the reply
(other than 1) or creating the object fails it returns 1; otherwise it returns
only if the main loop stops, and then it returns `EXIT_FAILURE`. -/
theorem start_disnix_service_never_zero (o : ServiceStart) :
    start_disnix_service o ≠ some 0 ∧
    ((o.mainloopNull = true ∨ o.busError = true ∨ o.proxyNull = true ∨
        o.requestNameCall = false ∨ o.result ≠ 1 ∨ o.objectNull = true) →
      start_disnix_service o = some 1) ∧
    (¬ (o.mainloopNull = true ∨ o.busError = true ∨ o.proxyNull = true ∨
        o.requestNameCall = false ∨ o.result ≠ 1 ∨ o.objectNull = true) →
      start_disnix_service o = if o.mainLoopStops then some EXIT_FAILURE else none) ∧
    EXIT_FAILURE ≠ 0 := by
  obtain ⟨a, b, c, d, e, f, g⟩ := o
  refine ⟨?_, ?_, ?_, by decide⟩
  · cases a <;> cases b <;> cases c <;> cases d <;> cases f <;> cases g <;>
      by_cases he : e = 1 <;> simp [start_disnix_service, EXIT_FAILURE, he]
  · cases a <;> cases b <;> cases c <;> cases d <;> cases f <;>
      by_cases he : e = 1 <;> simp [start_disnix_service, he]
  · cases a <;> cases b <;> cases c <;> cases d <;> cases f <;>
      by_cases he : e = 1 <;> simp [start_disnix_service, he]

/-! ### Termination by a signal -/

/-- Claim C20: in the job process of an activate or deactivate job the choice between
`finish` and `failure` depends only on bits 8-15 of the wait status: two
statuses with the same `WEXITSTATUS` give the same signals, every status whose
bits 8-15 are zero gives `finish`, and that includes every status that is just
a signal number between 1 and 127 (termination of the module by that signal),
whose low 7 bits are not zero. -/
theorem finish_decided_by_exit_status_bits (activation_modules_dir : CStr) (w : World)
    (pid : Int) (derivation type : CStr) (arguments : List CStr)
    (hparent : w.fork ≠ 0 ∧ w.fork ≠ -1) :
    (∀ status : Int, WEXITSTATUS status = WEXITSTATUS w.waitStatus →
      (disnix_activate_thread_func activation_modules_dir { w with waitStatus := status } pid
          derivation type arguments).signals =
        (disnix_activate_thread_func activation_modules_dir w pid derivation type
          arguments).signals ∧
      (disnix_deactivate_thread_func activation_modules_dir { w with waitStatus := status } pid
          derivation type arguments).signals =
        (disnix_deactivate_thread_func activation_modules_dir w pid derivation type
          arguments).signals) ∧
    (WEXITSTATUS w.waitStatus = 0 →
      (disnix_activate_thread_func activation_modules_dir w pid derivation type
          arguments).signals = [.finish pid] ∧
      (disnix_deactivate_thread_func activation_modules_dir w pid derivation type
          arguments).signals = [.finish pid]) ∧
    (∀ signo : Int, 1 ≤ signo → signo ≤ 127 → w.waitStatus = signo →
      WTERMSIG w.waitStatus ≠ 0 ∧
      (disnix_activate_thread_func activation_modules_dir w pid derivation type
          arguments).signals = [.finish pid] ∧
      (disnix_deactivate_thread_func activation_modules_dir w pid derivation type
          arguments).signals = [.finish pid]) := by
  obtain ⟨h0, h1⟩ := hparent
  refine ⟨fun status hs => ?_, fun hs => ?_, fun signo hlo hhi hw => ?_⟩
  · simp [disnix_activate_thread_func, disnix_deactivate_thread_func, wait_finish_or_failure,
      h0, h1, hs]
  · simp [disnix_activate_thread_func, disnix_deactivate_thread_func, wait_finish_or_failure,
      h0, h1, hs]
  · have hx : WEXITSTATUS w.waitStatus = 0 := by
      rw [hw]
      unfold WEXITSTATUS
      omega
    have ht : WTERMSIG w.waitStatus ≠ 0 := by
      rw [hw]
      unfold WTERMSIG
      omega
    refine ⟨ht, ?_⟩
    simp [disnix_activate_thread_func, disnix_deactivate_thread_func, wait_finish_or_failure,
      h0, h1, hx]

/-- A module killed by signal 9 (wait status 9) makes the activate job emit `finish`. -/
theorem finish_decided_by_exit_status_bits_witness :
    WTERMSIG 9 ≠ 0 ∧
    (disnix_activate_thread_func "/modules".toList
        ⟨[], true, [], true, 41, true, [], [], 9⟩ 7 "/nix/store/x".toList
        "process".toList []).signals = [.finish 7] :=
  have h := (finish_decided_by_exit_status_bits "/modules".toList
      ⟨[], true, [], true, 41, true, [], [], 9⟩ 7 "/nix/store/x".toList
      "process".toList [] (by decide)).2.2 9 (by decide) (by decide) rfl
  ⟨h.1, h.2.1⟩

/-! ### The first buffer -/

theorem splitOnChar_ne_nil (d : Char) (k : Nat) (s : CStr) : splitOnChar d k s ≠ [] := by
  induction s generalizing k with
  | nil => simp [splitOnChar]
  | cons c s ih =>
    simp only [splitOnChar]
    split_ifs
    · simp
    · split <;> simp

theorem join_lines_cons_cons (l t : CStr) (ts : List CStr) :
    join_lines (l :: t :: ts) = l ++ '\n' :: join_lines (t :: ts) := rfl

theorem splitOnChar_newline (s : CStr) :
    ∀ k : Nat, s.count '\n' ≤ k →
      (splitOnChar '\n' k s).length = s.count '\n' + 1 ∧
      join_lines (splitOnChar '\n' k s) = s := by
  induction s with
  | nil => intro k _; simp [splitOnChar, join_lines]
  | cons c s ih =>
    intro k hk
    by_cases hc : c = '\n'
    · subst hc
      have hk1 : 0 < k := by
        simp only [List.count_cons_self] at hk
        omega
      have hk2 : s.count '\n' ≤ k - 1 := by
        simp only [List.count_cons_self] at hk
        omega
      obtain ⟨h1, h2⟩ := ih (k - 1) hk2
      simp only [splitOnChar, hk1, and_self, if_true, List.length_cons, h1,
        List.count_cons_self, true_and]
      cases hsp : splitOnChar '\n' (k - 1) s with
      | nil => exact absurd hsp (splitOnChar_ne_nil _ _ _)
      | cons t ts =>
        rw [hsp] at h2
        rw [join_lines_cons_cons, h2]
        simp
    · have hk2 : s.count '\n' ≤ k := by
        rw [List.count_cons_of_ne (Ne.symm hc)] at hk
        exact hk
      obtain ⟨h1, h2⟩ := ih k hk2
      simp only [splitOnChar, hc, false_and, if_false]
      cases hsp : splitOnChar '\n' k s with
      | nil => exact absurd hsp (splitOnChar_ne_nil _ _ _)
      | cons t ts =>
        rw [hsp] at h1 h2
        rw [List.count_cons_of_ne (Ne.symm hc)]
        refine ⟨by simpa using h1, ?_⟩
        cases ts with
        | nil =>
          simp only [join_lines] at h2 ⊢
          rw [h2]
        | cons t2 ts2 =>
          rw [join_lines_cons_cons] at h2 ⊢
          simp only [List.cons_append, h2]

theorem strv_read_map_str (v : List CStr) (rest : List Slot) :
    strv_read (v.map .str ++ .null :: rest) = some v := by
  induction v with
  | nil => rfl
  | cons a v ih => simp [strv_read, ih]

theorem store_at_length (pre rest : List Slot) (x v : Slot) :
    store (pre ++ x :: rest) pre.length v = some (pre ++ v :: rest) := by
  have hset : (pre ++ x :: rest).set pre.length v = pre ++ v :: rest := by
    induction pre with
    | nil => rfl
    | cons a pre ih => simp [List.set, ih]
  simp [store, hset]

theorem strv_slot_of_lt (v : List CStr) (i : Nat) (h : i < v.length) :
    strv_slot v i = .str (v[i]) := by
  simp [strv_slot, List.get?_eq_getElem?, List.getElem?_eq_getElem h]

theorem store_additional_fills (v : List CStr) :
    ∀ (fuel i : Nat), i ≤ v.length → v.length - i ≤ fuel →
      store_additional 0 v fuel i
          ((v.take i).map .str ++ List.replicate (v.length - i + 1) .uninit) =
        some (v.map .str ++ [.uninit]) := by
  intro fuel
  induction fuel with
  | zero =>
    intro i hi hf
    have hieq : i = v.length := by omega
    subst hieq
    simp [store_additional]
  | succ fuel ih =>
    intro i hi hf
    by_cases hlt : i < v.length
    · have hlen : ((v.take i).map Slot.str).length = i := by simp [Nat.min_eq_left hi]
      have hrep : List.replicate (v.length - i + 1) Slot.uninit =
          .uninit :: List.replicate (v.length - (i + 1) + 1) .uninit := by
        have : v.length - i + 1 = (v.length - (i + 1) + 1) + 1 := by omega
        rw [this, List.replicate_succ]
      have hstore := store_at_length ((v.take i).map Slot.str)
        (List.replicate (v.length - (i + 1) + 1) .uninit) .uninit (.str (v[i]))
      rw [hlen] at hstore
      have htake : (v.take (i + 1)).map Slot.str = (v.take i).map Slot.str ++ [.str (v[i])] := by
        have h0 : v.take (i + 1) = v.take i ++ [v[i]] := by
          rw [List.take_succ, List.getElem?_eq_getElem hlt]
          rfl
        rw [h0, List.map_append]
        rfl
      simp only [store_additional, hlt, if_true, Nat.zero_add, strv_slot_of_lt v i hlt, hrep,
        hstore, Option.some_bind]
      have := ih (i + 1) hlt (by omega)
      rw [htake] at this
      simpa using this
    · have hieq : i = v.length := by omega
      subst hieq
      simp [store_additional]

theorem update_lines_vector_first (buf : CStr) (hbuf : g_strsplit buf '\n' 0 ≠ []) :
    update_lines_vector none buf = some ((g_strsplit buf '\n' 0).map .str ++ [.null]) := by
  generalize hv : g_strsplit buf '\n' 0 = v at hbuf
  cases v with
  | nil => exact absurd rfl hbuf
  | cons a rest =>
    have hfill := store_additional_fills (a :: rest) (a :: rest).length 1 (by simp) (by simp)
    have hfinal := store_at_length ((a :: rest).map Slot.str) [] .uninit .null
    simp only [List.length_map] at hfinal
    have hrealloc : g_realloc [Slot.null] ((a :: rest).length + 1) =
        .null :: List.replicate (a :: rest).length .uninit := by
      simp [g_realloc, List.take]
    have hfirst : store (.null :: List.replicate (a :: rest).length .uninit) 0 (.str a) =
        some (.str a :: List.replicate (a :: rest).length .uninit) := by
      simp [store]
    have hblock : ((a :: rest).take 1).map Slot.str ++
        List.replicate ((a :: rest).length - 1 + 1) .uninit =
        .str a :: List.replicate (a :: rest).length .uninit := by
      simp
    rw [hblock] at hfill
    have hslot : strv_slot (a :: rest) 0 = .str a := rfl
    simp only [update_lines_vector, hv, Option.some_bind, if_true, hrealloc, hslot, hfirst,
      Option.map_some', hfill, Nat.zero_add, hfinal]

/-- Claim C15: for every non-empty buffer (shorter than `G_MAXINT` characters)
update_lines_vector(NULL, buf) returns the vector of the tokens of
`g_strsplit(buf, "\n", 0)` followed directly by NULL; read up to the NULL it has
one entry more than buf has newlines, and its entries joined by newlines give
back buf. -/
theorem update_lines_vector_from_null (buf : CStr) (hne : buf ≠ [])
    (hlen : buf.length < 2147483647) :
    update_lines_vector none buf = some ((g_strsplit buf '\n' 0).map .str ++ [.null]) ∧
    (update_lines_vector none buf).bind strv_read = some (g_strsplit buf '\n' 0) ∧
    (g_strsplit buf '\n' 0).length = buf.count '\n' + 1 ∧
    join_lines (g_strsplit buf '\n' 0) = buf := by
  have hsplit : g_strsplit buf '\n' 0 = splitOnChar '\n' 2147483646 buf := by
    simp only [g_strsplit, hne, if_false]
    rfl
  have hcount : buf.count '\n' ≤ 2147483646 := by
    have := List.count_le_length '\n' buf
    omega
  obtain ⟨h1, h2⟩ := splitOnChar_newline buf 2147483646 hcount
  have hnn : g_strsplit buf '\n' 0 ≠ [] := by
    rw [hsplit]
    exact splitOnChar_ne_nil _ _ _
  have hfirst := update_lines_vector_first buf hnn
  refine ⟨hfirst, ?_, ?_, ?_⟩
  · rw [hfirst]
    exact strv_read_map_str _ _
  · rw [hsplit]
    exact h1
  · rw [hsplit]
    exact h2

/-- The buffer `"a\nb\n"` gives the three entries `"a"`, `"b"` and the empty line. -/
theorem update_lines_vector_from_null_witness :
    (update_lines_vector none "a\nb\n".toList).bind strv_read =
      some ["a".toList, "b".toList, []] :=
  ((update_lines_vector_from_null "a\nb\n".toList (by decide) (by decide)).2.1).trans
    (by decide)

/-! ### The layout after a last line that ends with a newline -/

theorem eachAfter_nil {α : Type} (P : List α → α → Prop) : EachAfter P [] := by
  intro i x h
  simp at h

theorem eachAfter_append {α : Type} (P : List α → α → Prop) (l : List α) (x : α)
    (h : EachAfter P l) (hx : P l x) : EachAfter P (l ++ [x]) := by
  intro i y hi
  by_cases hlt : i < l.length
  · rw [List.getElem?_append_left hlt] at hi
    rw [List.take_append_of_le_length (Nat.le_of_lt hlt)]
    exact h i y hi
  · have hlen : i < (l ++ [x]).length := by
      by_contra hcon
      rw [List.getElem?_eq_none (Nat.le_of_not_lt hcon)] at hi
      cases hi
    have hi_eq : i = l.length := by
      simp only [List.length_append, List.length_singleton] at hlen
      omega
    subst hi_eq
    have hget : (l ++ [x])[l.length]? = some x := by simp
    rw [hget] at hi
    have hxy : x = y := Option.some.inj hi
    have htake : (l ++ [x]).take l.length = l := by simp
    rw [htake, ← hxy]
    exact hx

theorem eachAfter_precedes {α : Type} (P : List α → α → Prop) (l : List α) (h : EachAfter P l)
    (x : α) (hx : x ∈ l) : ∃ pre post, l = pre ++ x :: post ∧ P pre x := by
  obtain ⟨i, hi, hget⟩ := List.getElem_of_mem hx
  have hsome : l[i]? = some x := by rw [List.getElem?_eq_getElem hi, hget]
  refine ⟨l.take i, l.drop (i + 1), ?_, h i x hsome⟩
  have h1 : l.drop i = x :: l.drop (i + 1) := by
    rw [List.drop_eq_getElem_cons hi, hget]
  have h2 := List.take_append_drop i l
  rw [h1] at h2
  exact h2.symm

theorem foldlM_option_invariant {α : Type} (f : List CStr → α → Option (List CStr))
    (Inv : List CStr → Prop) (l : List α)
    (hf : ∀ a ∈ l, ∀ d res, f d a = some res → Inv d → Inv res) :
    ∀ d res, l.foldlM f d = some res → Inv d → Inv res := by
  induction l with
  | nil =>
    intro d res h hd
    simp only [List.foldlM, pure, Option.some.injEq] at h
    exact h ▸ hd
  | cons a rest ih =>
    intro d res h hd
    simp only [List.foldlM, bind, Option.bind] at h
    cases hfa : f d a with
    | none => simp [hfa] at h
    | some d1 =>
      simp only [hfa] at h
      exact ih (fun a1 ha1 => hf a1 (List.mem_cons_of_mem _ ha1)) d1 res h
        (hf a (List.mem_cons_self _ _) d d1 hfa hd)

theorem foldlM_option_total {α : Type} (f : List CStr → α → Option (List CStr)) (l : List α)
    (hf : ∀ a ∈ l, ∀ d, ∃ res, f d a = some res) :
    ∀ d, ∃ res, l.foldlM f d = some res := by
  induction l with
  | nil => intro d; exact ⟨d, rfl⟩
  | cons a rest ih =>
    intro d
    obtain ⟨d1, hd1⟩ := hf a (List.mem_cons_self _ _) d
    obtain ⟨res, hres⟩ := ih (fun a1 ha1 => hf a1 (List.mem_cons_of_mem _ ha1)) d1
    refine ⟨res, ?_⟩
    simp only [List.foldlM, bind, Option.bind, hd1]
    exact hres

theorem find_mapping_of_key_mem (ms : List ActivationMapping) (k : CStr) (h : k ∈ keys ms) :
    ∃ m, find_mapping ms k = some m := by
  obtain ⟨m, hm, hk⟩ := List.mem_map.mp h
  obtain ⟨m1, hm1⟩ := find_mapping_of_mem ms m hm
  exact ⟨m1, hk ▸ hm1⟩

theorem visit_fold_mem (ms : List ActivationMapping) (fuel : Nat) (stack : List CStr) :
    ∀ (l : List CStr) (d res : List CStr),
      l.foldlM (fun d dep => visit ms fuel stack d dep) d = some res →
      (∀ x ∈ d, x ∈ res) ∧ ∀ b ∈ l, b ∈ keys ms → b ∈ res := by
  intro l
  induction l with
  | nil =>
    intro d res h
    simp only [List.foldlM, pure, Option.some.injEq] at h
    subst h
    exact ⟨fun x hx => hx, by simp⟩
  | cons a rest ih =>
    intro d res h
    simp only [List.foldlM, bind, Option.bind] at h
    cases hv : visit ms fuel stack d a with
    | none => simp [hv] at h
    | some d1 =>
      simp only [hv] at h
      obtain ⟨g1, g2⟩ := ih d1 res h
      refine ⟨fun x hx => g1 x (visit_mono ms fuel stack d a d1 hv x hx), ?_⟩
      intro b hb hbk
      rcases List.mem_cons.mp hb with h0 | h0
      · obtain ⟨m, hm⟩ := find_mapping_of_key_mem ms b hbk
        rw [h0] at hm
        rw [h0]
        exact g1 _ (visit_adds ms fuel stack d a d1 hv m hm)
      · exact g2 b h0 hbk

theorem visit_avoids_stack (ms : List ActivationMapping) :
    ∀ (fuel : Nat) (stack done : List CStr) (k : CStr) (res : List CStr),
      visit ms fuel stack done k = some res → ∀ x ∈ stack, x ∉ done → x ∉ res := by
  intro fuel
  induction fuel with
  | zero => intro stack done k res h; simp [visit] at h
  | succ fuel ih =>
    intro stack done k res h x hx hxd
    simp only [visit] at h
    split_ifs at h with h1 h2
    · exact (Option.some.inj h) ▸ hxd
    · cases hfind : find_mapping ms k with
      | none =>
        simp only [hfind] at h
        exact (Option.some.inj h) ▸ hxd
      | some m =>
        simp only [hfind, Option.map_eq_some'] at h
        obtain ⟨d1, hd1, hres⟩ := h
        have hinner : x ∉ d1 :=
          foldlM_option_invariant _ (fun d => x ∉ d) m.depends_on
            (fun a _ d res1 hv hd => ih (k :: stack) d a res1 hv x (List.mem_cons_of_mem _ hx) hd)
            done d1 hd1 hxd
        rw [← hres]
        intro hmem
        rcases List.mem_append.mp hmem with h3 | h3
        · exact hinner h3
        · have hxk : x = k := by simpa using h3
          exact h2 (hxk ▸ hx)

theorem visit_invariant (ms : List ActivationMapping) :
    ∀ (fuel : Nat) (stack done : List CStr) (k : CStr) (res : List CStr),
      visit ms fuel stack done k = some res →
      (done.Nodup ∧ EachAfter (DependenciesIn ms) done ∧ ∀ x ∈ done, x ∈ keys ms) →
      (res.Nodup ∧ EachAfter (DependenciesIn ms) res ∧ ∀ x ∈ res, x ∈ keys ms) := by
  intro fuel
  induction fuel with
  | zero => intro stack done k res h; simp [visit] at h
  | succ fuel ih =>
    intro stack done k res h hdone
    simp only [visit] at h
    split_ifs at h with h1 h2
    · exact (Option.some.inj h) ▸ hdone
    · cases hfind : find_mapping ms k with
      | none =>
        simp only [hfind] at h
        exact (Option.some.inj h) ▸ hdone
      | some m =>
        simp only [hfind, Option.map_eq_some'] at h
        obtain ⟨d1, hd1, hres⟩ := h
        obtain ⟨n1, t1, k1⟩ := foldlM_option_invariant _
          (fun d => d.Nodup ∧ EachAfter (DependenciesIn ms) d ∧ ∀ x ∈ d, x ∈ keys ms)
          m.depends_on (fun a _ d res1 hv hd => ih (k :: stack) d a res1 hv hd) done d1 hd1 hdone
        have hk_notin : k ∉ d1 :=
          foldlM_option_invariant _ (fun d => k ∉ d) m.depends_on
            (fun a _ d res1 hv hd =>
              visit_avoids_stack ms fuel (k :: stack) d a res1 hv k (List.mem_cons_self _ _) hd)
            done d1 hd1 h1
        have hkey : k ∈ keys ms := by
          obtain ⟨hm1, hm2⟩ := find_mapping_some ms k m hfind
          exact List.mem_map.mpr ⟨m, hm1, hm2⟩
        rw [← hres]
        refine ⟨?_, ?_, ?_⟩
        · exact List.Nodup.append n1 (List.nodup_singleton k)
            (by
              intro y hy1 hy2
              have : y = k := by simpa using hy2
              exact hk_notin (this ▸ hy1))
        · refine eachAfter_append _ d1 k t1 ?_
          intro m1 hm1 b hb hbk
          have hmm : m = m1 := Option.some.inj (hfind.symm.trans hm1)
          subst hmm
          exact (visit_fold_mem ms fuel (k :: stack) m.depends_on done d1 hd1).2 b hb hbk
        · intro x hx
          rcases List.mem_append.mp hx with h3 | h3
          · exact k1 x h3
          · have hxk : x = k := by simpa using h3
            exact hxk ▸ hkey

theorem dependsOn_rank (ms : List ActivationMapping) (rank : CStr → Nat)
    (h : ∀ m ∈ ms, ∀ b ∈ m.depends_on, b ∈ keys ms → rank b < rank m.key) (a b : CStr)
    (hab : DependsOn ms a b) : a ∈ keys ms ∧ (b ∈ keys ms → rank b < rank a) := by
  induction hab with
  | edge m b hm hb => exact ⟨List.mem_map.mpr ⟨m, hm, rfl⟩, h m hm b hb⟩
  | step a m c _ hm hc ih =>
    refine ⟨ih.1, fun hck => ?_⟩
    have h1 := ih.2 (List.mem_map.mpr ⟨m, hm, rfl⟩)
    have h2 := h m hm c hc hck
    omega

theorem acyclic_of_rank (ms : List ActivationMapping) (rank : CStr → Nat)
    (h : ∀ m ∈ ms, ∀ b ∈ m.depends_on, b ∈ keys ms → rank b < rank m.key) : Acyclic ms := by
  intro k hk
  obtain ⟨h1, h2⟩ := dependsOn_rank ms rank h k k hk
  exact absurd (h2 h1) (Nat.lt_irrefl _)

theorem visit_total (ms : List ActivationMapping) (hacyclic : Acyclic ms) :
    ∀ (fuel : Nat) (stack done : List CStr) (k : CStr),
      stack.Nodup → (∀ x ∈ stack, x ∈ keys ms) → ms.length + 1 ≤ fuel + stack.length →
      (∀ x ∈ stack, DependsOn ms x k) → ∃ res, visit ms fuel stack done k = some res := by
  intro fuel
  induction fuel with
  | zero =>
    intro stack done k hnodup hsub hfuel _
    have hle : stack.length ≤ (keys ms).length :=
      (List.subperm_of_subset hnodup hsub).length_le
    simp only [keys, List.length_map] at hle
    omega
  | succ fuel ih =>
    intro stack done k hnodup hsub hfuel hpath
    simp only [visit]
    split_ifs with h1 h2
    · exact ⟨done, rfl⟩
    · exact absurd (hpath k h2) (hacyclic k)
    · cases hfind : find_mapping ms k with
      | none => exact ⟨done, rfl⟩
      | some m =>
        obtain ⟨hm1, hm2⟩ := find_mapping_some ms k m hfind
        have hkey : k ∈ keys ms := List.mem_map.mpr ⟨m, hm1, hm2⟩
        have hstep : ∀ b ∈ m.depends_on, ∀ d, ∃ res, visit ms fuel (k :: stack) d b = some res := by
          intro b hb d
          refine ih (k :: stack) d b (List.nodup_cons.mpr ⟨h2, hnodup⟩) ?_ ?_ ?_
          · intro x hx
            rcases List.mem_cons.mp hx with h3 | h3
            · exact h3 ▸ hkey
            · exact hsub x h3
          · simp only [List.length_cons]
            omega
          · intro x hx
            rcases List.mem_cons.mp hx with h3 | h3
            · rw [h3, ← hm2]
              exact DependsOn.edge m b hm1 hb
            · have hxk := hpath x h3
              rw [← hm2] at hxk
              exact DependsOn.step x m b hxk hm1 hb
        obtain ⟨d1, hd1⟩ := foldlM_option_total _ m.depends_on hstep done
        exact ⟨d1 ++ [k], by simp [hd1]⟩

theorem keys_filterMap_find (ms : List ActivationMapping) (ks : List CStr)
    (h : ∀ k ∈ ks, k ∈ keys ms) : keys (ks.filterMap (find_mapping ms)) = ks := by
  induction ks with
  | nil => rfl
  | cons k rest ih =>
    obtain ⟨m, hm⟩ := find_mapping_of_key_mem ms k (h k (List.mem_cons_self _ _))
    have hk := (find_mapping_some ms k m hm).2
    have hrest := ih (fun x hx => h x (List.mem_cons_of_mem _ hx))
    simp only [keys] at hrest ⊢
    simp [List.filterMap_cons, hm, hk, hrest]

theorem activation_order_keys (ms order : List ActivationMapping)
    (h : activation_order ms = some order) :
    (keys order).Nodup ∧ EachAfter (DependenciesIn ms) (keys order) ∧
      (∀ m ∈ order, find_mapping ms m.key = some m) := by
  simp only [activation_order, Option.map_eq_some'] at h
  obtain ⟨ks, hks, hord⟩ := h
  obtain ⟨n1, t1, k1⟩ := foldlM_option_invariant _
    (fun d => d.Nodup ∧ EachAfter (DependenciesIn ms) d ∧ ∀ x ∈ d, x ∈ keys ms) ms
    (fun a _ d res hv hd => visit_invariant ms _ [] d a.key res hv hd) [] ks hks
    ⟨List.nodup_nil, eachAfter_nil _, by simp⟩
  have hkeys := keys_filterMap_find ms ks k1
  rw [hord] at hkeys
  rw [hkeys]
  refine ⟨n1, t1, ?_⟩
  intro m hm
  rw [← hord] at hm
  obtain ⟨k, -, hk⟩ := List.mem_filterMap.mp hm
  have := (find_mapping_some ms k m hk).2
  rw [this]
  exact hk

theorem activation_order_total (ms : List ActivationMapping) (hacyclic : Acyclic ms) :
    ∃ order, activation_order ms = some order := by
  obtain ⟨ks, hks⟩ := foldlM_option_total
    (fun done (m : ActivationMapping) => visit ms (ms.length + 1) [] done m.key) ms
    (fun a _ d => visit_total ms hacyclic (ms.length + 1) [] d a.key List.nodup_nil (by simp)
      (by simp) (by simp)) []
  exact ⟨ks.filterMap (find_mapping ms), by simp [activation_order, hks]⟩

theorem find_mapping_self (ms : List ActivationMapping) (hkeys : (keys ms).Nodup)
    (m : ActivationMapping) (hm : m ∈ ms) : find_mapping ms m.key = some m := by
  obtain ⟨m1, hm1⟩ := find_mapping_of_mem ms m hm
  obtain ⟨h1, h2⟩ := find_mapping_some ms m.key m1 hm1
  have := List.inj_on_of_nodup_map hkeys h1 hm h2
  rw [hm1, this]

theorem precedes_reverse {α : Type} (l : List α) (x y : α) (h : Precedes l x y) :
    Precedes l.reverse y x := by
  obtain ⟨pre, mid, post, rfl⟩ := h
  exact ⟨post.reverse, mid.reverse, pre.reverse, by simp⟩

theorem mem_keys_split (l : List ActivationMapping) (k : CStr) (h : k ∈ keys l) :
    ∃ pre m post, l = pre ++ m :: post ∧ m.key = k := by
  obtain ⟨m, hm, hk⟩ := List.mem_map.mp h
  obtain ⟨pre, post, hl⟩ := List.append_of_mem hm
  exact ⟨pre, m, post, hl, hk⟩

theorem keys_split (l : List ActivationMapping) (ks1 ks2 : List CStr) (k : CStr)
    (h : keys l = ks1 ++ k :: ks2) :
    ∃ pre m post, l = pre ++ m :: post ∧ keys pre = ks1 ∧ m.key = k ∧ keys post = ks2 := by
  simp only [keys] at h
  obtain ⟨pre, rest, hl, hpre, hrest⟩ := List.map_eq_append_iff.mp h
  cases rest with
  | nil => simp at hrest
  | cons m post =>
    simp only [List.map_cons, List.cons.injEq] at hrest
    exact ⟨pre, m, post, hl, hpre, hrest.1, hrest.2⟩

/-- Claim C11: for every manifest whose dependency relation is acyclic (and whose
mappings have distinct identities) the Orderer returns an order that is a
permutation of the manifest's mappings, the deactivation order being its
reverse, and for every dependency edge "A depends on B" between mappings of the
manifest, B stands before A in the activation order and A stands before B in
the deactivation order. -/
theorem orderer_respects_dependencies (ms : List ActivationMapping) (hacyclic : Acyclic ms)
    (hkeys : (keys ms).Nodup) :
    ∃ order, activation_order ms = some order ∧
      deactivation_order ms = some order.reverse ∧
      order.Perm ms ∧
      ∀ A ∈ ms, ∀ B ∈ ms, B.key ∈ A.depends_on →
        Precedes order B A ∧ Precedes order.reverse A B := by
  obtain ⟨order, horder⟩ := activation_order_total ms hacyclic
  obtain ⟨hcomplete, hsub⟩ := activation_order_complete ms order horder
  obtain ⟨hnodup, htopo, -⟩ := activation_order_keys ms order horder
  have hinj : ∀ m1 ∈ order, ∀ m2 ∈ ms, m1.key = m2.key → m1 = m2 := fun m1 h1 m2 h2 hk =>
    List.inj_on_of_nodup_map hkeys (hsub m1 h1) h2 hk
  have hprec : ∀ A ∈ ms, ∀ B ∈ ms, B.key ∈ A.depends_on → Precedes order B A := by
    intro A hA B hB hdep
    obtain ⟨ks1, ks2, hsplit, hdeps⟩ := eachAfter_precedes _ (keys order) htopo A.key
      (hcomplete A hA)
    have hBpre : B.key ∈ ks1 :=
      hdeps A (find_mapping_self ms hkeys A hA) B.key hdep (List.mem_map.mpr ⟨B, hB, rfl⟩)
    obtain ⟨pre, mA, post, hl, hpre, hmA, -⟩ := keys_split order ks1 ks2 A.key hsplit
    have hmA_eq : mA = A := hinj mA (by rw [hl]; simp) A hA hmA
    rw [← hpre] at hBpre
    obtain ⟨p1, mB, p2, hp, hmB⟩ := mem_keys_split pre B.key hBpre
    have hmB_eq : mB = B := hinj mB (by rw [hl, hp]; simp) B hB hmB
    refine ⟨p1, p2, post, ?_⟩
    rw [hl, hp, hmA_eq, hmB_eq]
    simp
  refine ⟨order, horder, by simp [deactivation_order, horder], ?_, ?_⟩
  · refine (List.perm_ext_iff_of_nodup (List.Nodup.of_map _ hnodup)
      (List.Nodup.of_map _ hkeys)).mpr (fun m => ⟨hsub m, fun hm => ?_⟩)
    obtain ⟨m1, hm1, hk⟩ := List.mem_map.mp (hcomplete m hm)
    exact (hinj m1 hm1 m hm hk) ▸ hm1
  · intro A hA B hB hdep
    exact ⟨hprec A hA B hB hdep, precedes_reverse _ _ _ (hprec A hA B hB hdep)⟩

/-- For the chain A, B, C of section 8 the activation order is C, B, A, so B stands
before A, and A stands before B in the deactivation order. -/
theorem orderer_respects_dependencies_witness :
    ∃ order, activation_order scenario_chain = some order ∧
      Precedes order (example_mapping "B" "t2" ["C"]) (example_mapping "A" "t1" ["B"]) ∧
      Precedes order.reverse (example_mapping "A" "t1" ["B"]) (example_mapping "B" "t2" ["C"]) := by
  obtain ⟨order, h1, -, -, h4⟩ := orderer_respects_dependencies scenario_chain
    (acyclic_of_rank scenario_chain chain_rank (by decide)) (by decide)
  exact ⟨order, h1, h4 (example_mapping "A" "t1" ["B"]) (by decide)
    (example_mapping "B" "t2" ["C"]) (by decide) (by decide)⟩

/-! ## Completion of the activation phase -/

theorem facts_append (tr : List Event) (ev : Event) (k : CStr) :
    facts (tr ++ [ev]) k =
      ((facts tr k).1 || is_dispatch k ev, (facts tr k).2.1 || is_resolution k true ev,
        (facts tr k).2.2.1 || is_resolution k false ev, (facts tr k).2.2.2 || is_skip k ev) := by
  simp [facts, List.any_append]

theorem facts_dispatched (tr : List Event) (k : CStr) :
    (facts tr k).1 = true ↔ ∃ m : ActivationMapping, m.key = k ∧ Event.activate m ∈ tr := by
  simp only [facts, List.any_eq_true]
  constructor
  · rintro ⟨ev, hev, h⟩
    cases ev <;> simp [is_dispatch] at h
    exact ⟨_, h, hev⟩
  · rintro ⟨m, hk, hm⟩
    exact ⟨_, hm, by simp [is_dispatch, hk]⟩

theorem facts_resolved_ok (tr : List Event) (k : CStr) :
    (facts tr k).2.1 = true ↔
      ∃ m : ActivationMapping, m.key = k ∧ Event.activated m true ∈ tr := by
  simp only [facts, List.any_eq_true]
  constructor
  · rintro ⟨ev, hev, h⟩
    cases ev <;> simp [is_resolution] at h
    obtain ⟨h1, h2⟩ := h
    subst h2
    exact ⟨_, h1, hev⟩
  · rintro ⟨m, hk, hm⟩
    exact ⟨_, hm, by simp [is_resolution, hk]⟩

theorem facts_resolved_failed (tr : List Event) (k : CStr) :
    (facts tr k).2.2.1 = true ↔
      ∃ m : ActivationMapping, m.key = k ∧ Event.activated m false ∈ tr := by
  simp only [facts, List.any_eq_true]
  constructor
  · rintro ⟨ev, hev, h⟩
    cases ev <;> simp [is_resolution] at h
    obtain ⟨h1, h2⟩ := h
    subst h2
    exact ⟨_, h1, hev⟩
  · rintro ⟨m, hk, hm⟩
    exact ⟨_, hm, by simp [is_resolution, hk]⟩

theorem facts_skipped (tr : List Event) (k : CStr) :
    (facts tr k).2.2.2 = true ↔ ∃ m : ActivationMapping, m.key = k ∧ Event.skipped m ∈ tr := by
  simp only [facts, List.any_eq_true]
  constructor
  · rintro ⟨ev, hev, h⟩
    cases ev <;> simp [is_skip] at h
    exact ⟨_, h, hev⟩
  · rintro ⟨m, hk, hm⟩
    exact ⟨_, hm, by simp [is_skip, hk]⟩

theorem tableMatches_dispatch (e : Engine) (m : ActivationMapping) (h : TableMatches e)
    (hpending : status e.table m.key = none) :
    TableMatches (e.record m .inflight (.activate m)) := by
  intro k
  have hk := h k
  simp only [Engine.record, facts_append, status_cons]
  by_cases hmk : m.key = k
  · subst hmk
    rw [hpending] at hk
    simp [hk, expected_facts, is_dispatch, is_resolution, is_skip]
  · simp [hmk, hk, is_dispatch, is_resolution, is_skip]

theorem tableMatches_skip (e : Engine) (m : ActivationMapping) (h : TableMatches e)
    (hpending : status e.table m.key = none) :
    TableMatches (e.record m .skipped (.skipped m)) := by
  intro k
  have hk := h k
  simp only [Engine.record, facts_append, status_cons]
  by_cases hmk : m.key = k
  · subst hmk
    rw [hpending] at hk
    simp [hk, expected_facts, is_dispatch, is_resolution, is_skip]
  · simp [hmk, hk, is_dispatch, is_resolution, is_skip]

theorem tableMatches_resolve (e : Engine) (m : ActivationMapping) (ok : Bool)
    (h : TableMatches e) (hinflight : status e.table m.key = some .inflight) :
    TableMatches (e.record m (if ok then .succeeded else .failed) (.activated m ok)) := by
  intro k
  have hk := h k
  simp only [Engine.record, facts_append, status_cons]
  by_cases hmk : m.key = k
  · subst hmk
    rw [hinflight] at hk
    cases ok <;> simp [hk, expected_facts, is_dispatch, is_resolution, is_skip]
  · simp [hmk, hk, is_dispatch, is_resolution, is_skip]

theorem planSorted_split (p pre rest : List ActivationMapping) (m : ActivationMapping)
    (hs : PlanSorted p) (hp : p = pre ++ m :: rest) :
    (∀ b ∈ m.depends_on, b ∈ keys p → b ∈ keys pre) ∧ m.key ∉ keys pre ∧ m.key ∉ keys rest := by
  obtain ⟨hnodup, hafter⟩ := hs
  have hget : p[pre.length]? = some m := by
    rw [hp, List.getElem?_append_right (Nat.le_refl _)]
    simp
  have htake : p.take pre.length = pre := by rw [hp]; simp
  have h1 := hafter pre.length m hget
  rw [htake] at h1
  have hk : keys p = keys pre ++ m.key :: keys rest := by rw [hp]; simp [keys]
  rw [hk, List.nodup_middle, List.nodup_cons] at hnodup
  refine ⟨h1, fun h => hnodup.1 (List.mem_append_left _ h),
    fun h => hnodup.1 (List.mem_append_right _ h)⟩

theorem pending_or_inflight (s : Option MappingStatus) (h1 : s ≠ some .succeeded)
    (h2 : s ≠ some .failed) (h3 : s ≠ some .skipped) : s = none ∨ s = some .inflight := by
  cases s with
  | none => exact Or.inl rfl
  | some v => cases v <;> simp_all

theorem pendingBlocked_extend (p pre : List ActivationMapping) (m : ActivationMapping)
    (e e1 : Engine) (h : PendingBlocked p pre e)
    (hsame : ∀ k, k ≠ m.key → status e1.table k = status e.table k)
    (hnotin : m.key ∉ keys pre)
    (hm : status e1.table m.key = none →
      ∃ b ∈ phase_dependencies p m, b ∈ keys pre ∧
        (status e1.table b = none ∨ status e1.table b = some .inflight)) :
    PendingBlocked p (pre ++ [m]) e1 := by
  intro m1 hm1 hpend
  rcases List.mem_append.mp hm1 with h1 | h1
  · have hne : m1.key ≠ m.key := fun hk =>
      hnotin (hk ▸ List.mem_map.mpr ⟨m1, h1, rfl⟩)
    rw [hsame _ hne] at hpend
    obtain ⟨b, hb, hbpre, hst⟩ := h m1 h1 hpend
    have hbne : b ≠ m.key := fun hk => hnotin (hk ▸ hbpre)
    refine ⟨b, hb, ?_, ?_⟩
    · simp only [keys, List.map_append, List.mem_append]
      exact Or.inl hbpre
    · rw [hsame _ hbne]
      exact hst
  · have hmm : m1 = m := by simpa using h1
    subst hmm
    obtain ⟨b, hb, hbpre, hst⟩ := hm hpend
    refine ⟨b, hb, ?_, hst⟩
    simp only [keys, List.map_append, List.mem_append]
    exact Or.inl hbpre

theorem status_record_other (e : Engine) (m : ActivationMapping) (s : MappingStatus) (ev : Event)
    (k : CStr) (h : k ≠ m.key) : status (e.record m s ev).table k = status e.table k := by
  simp only [Engine.record, status_cons]
  rw [if_neg (fun hk => h hk.symm)]

theorem status_record_self (e : Engine) (m : ActivationMapping) (s : MappingStatus) (ev : Event) :
    status (e.record m s ev).table m.key = some s := by
  simp [Engine.record, status_cons]

theorem skipJustified_append (p : List ActivationMapping) (tr : List Event) (ev : Event)
    (h : SkipJustified p tr)
    (hev : ∀ m, ev = .skipped m → ∃ b ∈ m.depends_on, b ∈ keys p ∧
      ∃ mb : ActivationMapping, mb.key = b ∧
        (Event.activated mb false ∈ tr ∨ Event.skipped mb ∈ tr)) :
    SkipJustified p (tr ++ [ev]) := by
  intro m hm
  have hold : (∃ b ∈ m.depends_on, b ∈ keys p ∧ ∃ mb : ActivationMapping, mb.key = b ∧
      (Event.activated mb false ∈ tr ∨ Event.skipped mb ∈ tr)) := by
    rcases List.mem_append.mp hm with h1 | h1
    · exact h m h1
    · exact hev m (List.mem_singleton.mp h1).symm
  obtain ⟨b, hb, hbp, mb, hk, hmem⟩ := hold
  refine ⟨b, hb, hbp, mb, hk, ?_⟩
  rcases hmem with h2 | h2
  · exact Or.inl (List.mem_append_left _ h2)
  · exact Or.inr (List.mem_append_left _ h2)

theorem activation_sweep_spec (p : List ActivationMapping) (hs : PlanSorted p) :
    ∀ (rest pre : List ActivationMapping) (e : Engine), p = pre ++ rest →
      TableMatches e → SkipJustified p e.trace → PendingBlocked p pre e →
      TableMatches (activation_sweep p rest e) ∧
      SkipJustified p (activation_sweep p rest e).trace ∧
      PendingBlocked p p (activation_sweep p rest e) ∧
      (∀ k, status e.table k ≠ none →
        status (activation_sweep p rest e).table k = status e.table k) := by
  intro rest
  induction rest with
  | nil =>
    intro pre e hp h1 h2 h3
    simp only [List.append_nil] at hp
    subst hp
    exact ⟨h1, h2, h3, fun k _ => rfl⟩
  | cons m rest ih =>
    intro pre e hp h1 h2 h3
    obtain ⟨hdeps, hnotin, -⟩ := planSorted_split p pre rest m hs hp
    have hp2 : p = (pre ++ [m]) ++ rest := by rw [hp]; simp
    simp only [activation_sweep]
    by_cases hpending : status e.table m.key = none
    · rw [if_neg (by simpa using hpending)]
      by_cases hfailed : (phase_dependencies p m).any
          (fun b => status e.table b = some .failed ∨ status e.table b = some .skipped) = true
      · rw [if_pos hfailed]
        obtain ⟨b, hb, hbst⟩ := List.any_eq_true.mp hfailed
        have hbdep : b ∈ m.depends_on ∧ b ∈ keys p := by
          simpa [phase_dependencies] using hb
        have hjust : ∃ mb : ActivationMapping, mb.key = b ∧
            (Event.activated mb false ∈ e.trace ∨ Event.skipped mb ∈ e.trace) := by
          have hfb := h1 b
          rcases (by simpa using hbst : status e.table b = some .failed ∨
              status e.table b = some .skipped) with hf | hf
          · rw [hf] at hfb
            obtain ⟨mb, hk, hmem⟩ := (facts_resolved_failed e.trace b).mp
              (by rw [hfb]; rfl)
            exact ⟨mb, hk, Or.inl hmem⟩
          · rw [hf] at hfb
            obtain ⟨mb, hk, hmem⟩ := (facts_skipped e.trace b).mp (by rw [hfb]; rfl)
            exact ⟨mb, hk, Or.inr hmem⟩
        obtain ⟨g1, g2, g3, g4⟩ := ih (pre ++ [m]) (e.record m .skipped (.skipped m)) hp2
          (tableMatches_skip e m h1 hpending)
          (skipJustified_append p e.trace _ h2 (fun m1 hm1 => by
            injection hm1 with hm1
            subst hm1
            exact ⟨b, hbdep.1, hbdep.2, hjust⟩))
          (pendingBlocked_extend p pre m e _ h3
            (fun k hk => status_record_other e m _ _ k hk) hnotin
            (fun hnone => by rw [status_record_self] at hnone; cases hnone))
        refine ⟨g1, g2, g3, fun k hk => ?_⟩
        have hkm : k ≠ m.key := fun h => hk (h ▸ hpending)
        rw [g4 k (by rw [status_record_other e m _ _ k hkm]; exact hk),
          status_record_other e m _ _ k hkm]
      · rw [if_neg hfailed]
        by_cases hready : (phase_dependencies p m).all
            (fun b => status e.table b = some .succeeded) = true
        · rw [if_pos hready]
          obtain ⟨g1, g2, g3, g4⟩ := ih (pre ++ [m]) (e.record m .inflight (.activate m)) hp2
            (tableMatches_dispatch e m h1 hpending)
            (skipJustified_append p e.trace _ h2 (fun m1 hm1 => by cases hm1))
            (pendingBlocked_extend p pre m e _ h3
              (fun k hk => status_record_other e m _ _ k hk) hnotin
              (fun hnone => by rw [status_record_self] at hnone; cases hnone))
          refine ⟨g1, g2, g3, fun k hk => ?_⟩
          have hkm : k ≠ m.key := fun h => hk (h ▸ hpending)
          rw [g4 k (by rw [status_record_other e m _ _ k hkm]; exact hk),
            status_record_other e m _ _ k hkm]
        · rw [if_neg hready]
          refine ih (pre ++ [m]) e hp2 h1 h2
            (pendingBlocked_extend p pre m e e h3 (fun k _ => rfl) hnotin (fun _ => ?_))
          have hex : ∃ b ∈ phase_dependencies p m, status e.table b ≠ some .succeeded := by
            by_contra hcon
            apply hready
            rw [List.all_eq_true]
            intro b hb
            by_contra hb2
            exact hcon ⟨b, hb, by simpa using hb2⟩
          obtain ⟨b, hb, hbs⟩ := hex
          have hbdep : b ∈ m.depends_on ∧ b ∈ keys p := by
            simpa [phase_dependencies] using hb
          have hnf : ¬ (status e.table b = some .failed ∨ status e.table b = some .skipped) := by
            intro hcon
            apply hfailed
            rw [List.any_eq_true]
            exact ⟨b, hb, by simpa using hcon⟩
          exact ⟨b, hb, hdeps b hbdep.1 hbdep.2,
            pending_or_inflight _ hbs (fun h => hnf (Or.inl h)) (fun h => hnf (Or.inr h))⟩
    · rw [if_pos (by simpa using hpending)]
      exact ih (pre ++ [m]) e hp2 h1 h2
        (pendingBlocked_extend p pre m e e h3 (fun k _ => rfl) hnotin
          (fun hnone => absurd hnone hpending))

theorem countP_lt_of_imp {α : Type} (q1 q2 : α → Bool) (l : List α)
    (himp : ∀ x ∈ l, q1 x = true → q2 x = true)
    (hex : ∃ x ∈ l, q2 x = true ∧ q1 x = false) : l.countP q1 < l.countP q2 := by
  induction l with
  | nil =>
    obtain ⟨x, hx, -⟩ := hex
    simp at hx
  | cons a rest ih =>
    have hle : rest.countP q1 ≤ rest.countP q2 :=
      List.countP_mono_left (fun x hx => himp x (List.mem_cons_of_mem _ hx))
    obtain ⟨x, hx, hx2, hx1⟩ := hex
    rcases List.mem_cons.mp hx with h0 | h0
    · subst h0
      simp only [List.countP_cons, hx1, hx2, if_true]
      simp only [Bool.false_eq_true, if_false]
      omega
    · have hlt := ih (fun y hy => himp y (List.mem_cons_of_mem _ hy)) ⟨x, h0, hx2, hx1⟩
      have ha := himp a (List.mem_cons_self _ _)
      simp only [List.countP_cons]
      cases hq1 : q1 a with
      | true =>
        simp only [ha hq1, if_true]
        omega
      | false =>
        cases hq2 : q2 a with
        | true =>
          simp only [Bool.false_eq_true, if_true, if_false]
          omega
        | false =>
          simp only [Bool.false_eq_true, if_false]
          omega

theorem no_pending_after_sweep (p : List ActivationMapping) (hs : PlanSorted p) (e : Engine)
    (hblocked : PendingBlocked p p e) (hout : outstanding p e = []) :
    ∀ m ∈ p, unresolved e m = false := by
  have hinflight : ∀ m ∈ p, status e.table m.key ≠ some .inflight := by
    intro m hm hst
    have : m ∈ outstanding p e := List.mem_filter.mpr ⟨hm, by simpa using hst⟩
    rw [hout] at this
    simp at this
  have hprefix : ∀ (pre rest : List ActivationMapping), p = pre ++ rest →
      ∀ m ∈ pre, status e.table m.key ≠ none := by
    intro pre
    induction pre using List.reverseRecOn with
    | nil => intro rest _ m hm; simp at hm
    | append_singleton pre1 m1 ih =>
      intro rest hp m hm hnone
      have hp1 : p = pre1 ++ m1 :: rest := by rw [hp]; simp
      rcases List.mem_append.mp hm with h0 | h0
      · exact ih (m1 :: rest) hp1 m h0 hnone
      · have hmm : m = m1 := by simpa using h0
        subst hmm
        have hmp : m ∈ p := by rw [hp1]; simp
        obtain ⟨b, hb, -, hst⟩ := hblocked m hmp hnone
        have hbdep : b ∈ m.depends_on ∧ b ∈ keys p := by
          simpa [phase_dependencies] using hb
        have hbpre := (planSorted_split p pre1 rest m hs hp1).1 b hbdep.1 hbdep.2
        obtain ⟨mb, hmb, hk⟩ := List.mem_map.mp hbpre
        rcases hst with h1 | h1
        · exact ih (m :: rest) hp1 mb hmb (hk ▸ h1)
        · exact hinflight mb (by rw [hp1]; exact List.mem_append_left _ hmb) (hk ▸ h1)
  intro m hm
  have h1 := hprefix p [] (by simp) m hm
  have h2 := hinflight m hm
  simp [unresolved, h1, h2]

theorem activation_phase_complete (r : Remote) (p : List ActivationMapping)
    (hs : PlanSorted p) :
    ∀ (fuel : Nat) (e : Engine), p.countP (unresolved e) < fuel →
      TableMatches e → SkipJustified p e.trace →
      (∀ m ∈ p, unresolved (activation_phase r p fuel e) m = false) ∧
      TableMatches (activation_phase r p fuel e) ∧
      SkipJustified p (activation_phase r p fuel e).trace := by
  intro fuel
  induction fuel with
  | zero => intro e h; omega
  | succ fuel ih =>
    intro e hfuel h1 h2
    obtain ⟨g1, g2, g3, g4⟩ := activation_sweep_spec p hs p [] e (by simp) h1 h2
      (fun m hm => by simp at hm)
    have hmono : p.countP (unresolved (activation_sweep p p e)) ≤ p.countP (unresolved e) := by
      apply List.countP_mono_left
      intro m _ hm
      by_cases hnone : status e.table m.key = none
      · simp [unresolved, hnone]
      · rw [unresolved, g4 m.key hnone] at hm
        exact hm
    simp only [activation_phase]
    split
    · rename_i hout
      exact ⟨no_pending_after_sweep p hs _ g3 hout, g1, g2⟩
    · rename_i m0 ms hout
      have hmem : (m0 :: ms).getD (r.resolveNext fuel % (m0 :: ms).length) m0 ∈
          outstanding p (activation_sweep p p e) := by
        rw [hout]
        exact getD_mem_cons m0 ms _
      generalize (m0 :: ms).getD (r.resolveNext fuel % (m0 :: ms).length) m0 = m at hmem
      obtain ⟨hmp, hmst⟩ := List.mem_filter.mp hmem
      have hinflight : status (activation_sweep p p e).table m.key = some .inflight := by
        simpa using hmst
      apply ih
      · have hlt : p.countP (unresolved ((activation_sweep p p e).record m
            (if r.activateOk m then .succeeded else .failed) (.activated m (r.activateOk m)))) <
            p.countP (unresolved (activation_sweep p p e)) := by
          apply countP_lt_of_imp
          · intro x _ hx
            by_cases hxm : x.key = m.key
            · rw [unresolved, hxm, status_record_self] at hx
              cases hok : r.activateOk m <;> simp [hok] at hx
            · rw [unresolved, status_record_other _ m _ _ x.key hxm] at hx
              exact hx
          · refine ⟨m, hmp, by simp [unresolved, hinflight], ?_⟩
            rw [unresolved, status_record_self]
            cases hok : r.activateOk m <;> simp
        omega
      · exact tableMatches_resolve _ m (r.activateOk m) g1 hinflight
      · exact skipJustified_append p _ _ g2 (fun m1 hm1 => by cases hm1)

/-! ### The plan is sorted -/

theorem eachAfter_of_append {α : Type} (P : List α → α → Prop) (l l2 : List α)
    (h : EachAfter P (l ++ l2)) : EachAfter P l := by
  intro i x hi
  have hlt : i < l.length := by
    by_contra hcon
    rw [List.getElem?_eq_none (Nat.le_of_not_lt hcon)] at hi
    cases hi
  have h1 := h i x (by rw [List.getElem?_append_left hlt]; exact hi)
  rw [List.take_append_of_le_length (Nat.le_of_lt hlt)] at h1
  exact h1

theorem eachAfter_last {α : Type} (P : List α → α → Prop) (l : List α) (x : α)
    (h : EachAfter P (l ++ [x])) : P l x := by
  have h1 := h l.length x (by simp)
  simpa using h1

theorem sorted_filter (ms : List ActivationMapping) (q : CStr → Bool) :
    ∀ order : List ActivationMapping, EachAfter (DependenciesIn ms) (keys order) →
      (∀ m ∈ order, find_mapping ms m.key = some m) →
      EachAfter (fun pre m => ∀ b ∈ m.depends_on, q b = true → b ∈ keys ms → b ∈ keys pre)
        (order.filter (fun m => q m.key)) := by
  intro order
  induction order using List.reverseRecOn with
  | nil => intro _ _; exact eachAfter_nil _
  | append_singleton order1 m ih =>
    intro hafter hfind
    have hk : keys (order1 ++ [m]) = keys order1 ++ [m.key] := by simp [keys]
    rw [hk] at hafter
    have ih1 := ih (eachAfter_of_append _ _ _ hafter)
      (fun x hx => hfind x (List.mem_append_left _ hx))
    have hlast := eachAfter_last _ _ _ hafter
    rw [List.filter_append]
    by_cases hq : q m.key = true
    · have hf : List.filter (fun m => q m.key) [m] = [m] := by simp [List.filter, hq]
      rw [hf]
      refine eachAfter_append _ _ m ih1 ?_
      intro b hb hqb hbk
      have hbin := hlast m (hfind m (by simp)) b hb hbk
      obtain ⟨mb, hmb, hkb⟩ := List.mem_map.mp hbin
      exact List.mem_map.mpr ⟨mb, List.mem_filter.mpr ⟨hmb, by rw [hkb]; exact hqb⟩, hkb⟩
    · have hf : List.filter (fun m => q m.key) [m] = [] := by simp [List.filter, hq]
      rw [hf, List.append_nil]
      exact ih1

theorem eachAfter_mono {α : Type} (P Q : List α → α → Prop) (l : List α)
    (h : EachAfter P l) (hpq : ∀ pre x, x ∈ l → P pre x → Q pre x) : EachAfter Q l := by
  intro i x hi
  have hmem : x ∈ l := by
    obtain ⟨hlt, hx⟩ := List.getElem?_eq_some.mp hi
    exact hx ▸ List.getElem_mem hlt
  exact hpq _ x hmem (h i x hi)

theorem to_activate_sorted (new old : Manifest) (plan : TransitionPlan)
    (h : transition_plan new old = some plan) : PlanSorted plan.to_activate := by
  unfold transition_plan at h
  split at h
  · rename_i order_new order_old hn ho
    obtain ⟨hnodup, hafter, hfind⟩ := activation_order_keys new order_new hn
    obtain ⟨-, hsub⟩ := activation_order_complete new order_new hn
    have hp := Option.some.inj h
    subst hp
    have hfilter : order_new.filter (fun m => decide (m.key ∉ keys old)) =
        order_new.filter (fun m => (fun k => decide (k ∉ keys old)) m.key) := rfl
    constructor
    · exact List.Nodup.sublist (List.Sublist.map _ (List.filter_sublist _)) hnodup
    · simp only
      rw [hfilter]
      refine eachAfter_mono _ _ _ (sorted_filter new (fun k => decide (k ∉ keys old)) order_new
        hafter hfind) ?_
      intro pre x _ hP b hb hbk
      obtain ⟨mb, hmb, hkb⟩ := List.mem_map.mp hbk
      obtain ⟨h1, h2⟩ := List.mem_filter.mp hmb
      refine hP b hb ?_ (List.mem_map.mpr ⟨mb, hsub mb h1, hkb⟩)
      rw [← hkb]
      exact h2
  · cases h

/-! ### The final state of a transition -/

theorem facts_of_deactivations (pd : List ActivationMapping) (tr : List Event)
    (h : ∀ ev ∈ tr, DeactivationOf pd ev) (k : CStr) :
    facts tr k = (false, false, false, false) := by
  have hnone : ∀ (f : Event → Bool), (∀ m, f (.deactivate m) = false) →
      (∀ m ok, f (.deactivated m ok) = false) → tr.any f = false := by
    intro f h1 h2
    rw [List.any_eq_false]
    intro ev hev
    obtain ⟨m, -, h3 | ⟨ok, h3⟩⟩ := h ev hev
    · rw [h3, h1]
      simp
    · rw [h3, h2]
      simp
  simp only [facts]
  rw [hnone _ (fun _ => rfl) (fun _ _ => rfl), hnone _ (fun _ => rfl) (fun _ _ => rfl),
    hnone _ (fun _ => rfl) (fun _ _ => rfl), hnone _ (fun _ => rfl) (fun _ _ => rfl)]

theorem transition_final (r : Remote) (new old : Manifest) (plan : TransitionPlan)
    (h : transition_plan new old = some plan) :
    ∃ E : Engine, (transition r new old).trace = E.trace ∧
      (transition r new old).result =
        plan.to_activate.all (fun m => status E.table m.key = some .succeeded) ∧
      (∀ m ∈ plan.to_activate, unresolved E m = false) ∧ TableMatches E ∧
      SkipJustified plan.to_activate E.trace := by
  obtain ⟨devs, hdevs, pd⟩ := deactivation_phase_grows r plan.to_deactivate
    (plan.to_deactivate.length + 1) ⟨[], []⟩
  simp only [List.nil_append] at hdevs
  have hm0 : TableMatches ⟨[], (deactivation_phase r plan.to_deactivate
      (plan.to_deactivate.length + 1) ⟨[], []⟩).trace⟩ := by
    intro k
    simp only [hdevs]
    rw [facts_of_deactivations plan.to_deactivate devs pd k]
    rfl
  have hs0 : SkipJustified plan.to_activate (deactivation_phase r plan.to_deactivate
      (plan.to_deactivate.length + 1) ⟨[], []⟩).trace := by
    intro m hm
    rw [hdevs] at hm
    obtain ⟨m1, -, h1 | ⟨ok, h1⟩⟩ := pd _ hm <;> cases h1
  have hfuel : plan.to_activate.countP (unresolved ⟨[], (deactivation_phase r plan.to_deactivate
      (plan.to_deactivate.length + 1) ⟨[], []⟩).trace⟩) < plan.to_activate.length + 1 :=
    Nat.lt_succ_of_le (List.countP_le_length _)
  obtain ⟨g1, g2, g3⟩ := activation_phase_complete r plan.to_activate
    (to_activate_sorted new old plan h) _ _ hfuel hm0 hs0
  refine ⟨_, ?_, ?_, g1, g2, g3⟩
  · simp only [transition, h]
  · simp only [transition, h]

theorem transition_activation_events (r : Remote) (new old : Manifest) (plan : TransitionPlan)
    (h : transition_plan new old = some plan) :
    (∀ m, Event.activate m ∈ (transition r new old).trace → m ∈ plan.to_activate) ∧
    (∀ m ok, Event.activated m ok ∈ (transition r new old).trace → m ∈ plan.to_activate) ∧
    (∀ m, Event.skipped m ∈ (transition r new old).trace → m ∈ plan.to_activate) := by
  obtain ⟨devs, aevs, htr, pd, pa, -⟩ := transition_trace_shape r new old plan h
  have hkey : ∀ ev ∈ (transition r new old).trace,
      (∀ m1 ∈ plan.to_deactivate, ev ≠ .deactivate m1 ∧ ∀ ok, ev ≠ .deactivated m1 ok) →
      ActivationOf plan.to_activate ev := by
    intro ev hev hnot
    rw [htr] at hev
    rcases List.mem_append.mp hev with h1 | h1
    · obtain ⟨m1, hm1, h2 | ⟨ok, h2⟩⟩ := pd ev h1
      · exact absurd h2 (hnot m1 hm1).1
      · exact absurd h2 ((hnot m1 hm1).2 ok)
    · exact pa ev h1
  refine ⟨fun m hm => ?_, fun m ok hm => ?_, fun m hm => ?_⟩
  · obtain ⟨m1, hm1, h1 | h1 | ⟨ok1, h1⟩⟩ := hkey _ hm (fun _ _ => ⟨by simp, by simp⟩)
    · injection h1 with h1
      exact h1 ▸ hm1
    · cases h1
    · cases h1
  · obtain ⟨m1, hm1, h1 | h1 | ⟨ok1, h1⟩⟩ := hkey _ hm (fun _ _ => ⟨by simp, by simp⟩)
    · cases h1
    · cases h1
    · injection h1 with h1 h2
      exact h1 ▸ hm1
  · obtain ⟨m1, hm1, h1 | h1 | ⟨ok1, h1⟩⟩ := hkey _ hm (fun _ _ => ⟨by simp, by simp⟩)
    · cases h1
    · injection h1 with h1
      exact h1 ▸ hm1
    · cases h1

theorem resolved_status (s : Option MappingStatus)
    (h : (decide (s = none) || decide (s = some .inflight)) = false) :
    s = some .succeeded ∨ s = some .failed ∨ s = some .skipped := by
  cases s with
  | none => simp at h
  | some v => cases v <;> simp at h ⊢

theorem transition_plan_of_acyclic (new old : Manifest) (hnew : Acyclic new)
    (hold : Acyclic old) : ∃ plan, transition_plan new old = some plan := by
  obtain ⟨o1, h1⟩ := activation_order_total new hnew
  obtain ⟨o2, h2⟩ := activation_order_total old hold
  simp only [transition_plan, h1, h2]
  exact ⟨_, rfl⟩

theorem acquire_ok_iff (r : Remote) :
    ∀ (ts : List CStr) (s : LockState),
      (acquire r ts s).1 = true ↔ ∀ t ∈ ts, r.lockOk t = true := by
  intro ts
  induction ts with
  | nil => intro s; simp [acquire]
  | cons a rest ih =>
    intro s
    by_cases hok : r.lockOk a = true
    · simp only [acquire, hok, if_true, ih, List.mem_cons, forall_eq_or_imp, true_and]
    · simp only [acquire, hok, Bool.false_eq_true, if_false, List.mem_cons, forall_eq_or_imp,
        false_and]

theorem skip_propagation_general (r : Remote) (new old : Manifest) (plan : TransitionPlan)
    (h : transition_plan new old = some plan) (m : ActivationMapping)
    (hm : m ∈ plan.to_activate) :
    (Event.skipped m ∈ (transition r new old).trace ↔
      ∃ b ∈ m.depends_on, ∃ mb ∈ plan.to_activate, mb.key = b ∧
        (Event.activated mb false ∈ (transition r new old).trace ∨
          Event.skipped mb ∈ (transition r new old).trace)) ∧
    (Event.activate m ∈ (transition r new old).trace ↔
      Event.skipped m ∉ (transition r new old).trace) := by
  obtain ⟨E, htr, -, hcomplete, hmatch, hjust⟩ := transition_final r new old plan h
  obtain ⟨hev1, hev2, hev3⟩ := transition_activation_events r new old plan h
  obtain ⟨-, -, -, -, -, hord⟩ := transition_trace_shape r new old plan h
  have hsorted := to_activate_sorted new old plan h
  have hinj : ∀ m1 ∈ plan.to_activate, m1.key = m.key → m1 = m := fun m1 h1 hk =>
    List.inj_on_of_nodup_map hsorted.1 h1 hm hk
  rw [htr] at hev1 hev2 hev3 hord
  rw [htr]
  have hres := resolved_status _ (hcomplete m hm)
  have hfm := hmatch m.key
  -- a dispatched mapping has no failed or skipped dependency
  have hdisp : Event.activate m ∈ E.trace → ∀ b ∈ m.depends_on, ∀ mb ∈ plan.to_activate,
      mb.key = b → ¬ (Event.activated mb false ∈ E.trace ∨ Event.skipped mb ∈ E.trace) := by
    intro hact b hb mb hmb hk hbad
    obtain ⟨i, hi, hget⟩ := List.getElem_of_mem hact
    have hsome : E.trace[i]? = some (.activate m) := by
      rw [List.getElem?_eq_getElem hi, hget]
    obtain ⟨mb1, hk1, hmem1⟩ := hord i m hsome b hb (List.mem_map.mpr ⟨mb, hmb, hk⟩)
    have hok : (facts E.trace b).2.1 = true :=
      (facts_resolved_ok E.trace b).mpr ⟨mb1, hk1, List.mem_of_mem_take hmem1⟩
    have hfb := hmatch b
    rcases hbad with h1 | h1
    · have hf : (facts E.trace b).2.2.1 = true :=
        (facts_resolved_failed E.trace b).mpr ⟨mb, hk, h1⟩
      rw [hfb] at hok hf
      cases hst : status E.table b with
      | none => simp [hst, expected_facts] at hok
      | some v => cases v <;> simp [hst, expected_facts] at hok hf
    · have hf : (facts E.trace b).2.2.2 = true :=
        (facts_skipped E.trace b).mpr ⟨mb, hk, h1⟩
      rw [hfb] at hok hf
      cases hst : status E.table b with
      | none => simp [hst, expected_facts] at hok
      | some v => cases v <;> simp [hst, expected_facts] at hok hf
  have hskip_of_status : status E.table m.key = some .skipped → Event.skipped m ∈ E.trace := by
    intro hst
    rw [hst] at hfm
    obtain ⟨m1, hk1, hmem1⟩ := (facts_skipped E.trace m.key).mp (by rw [hfm]; rfl)
    exact (hinj m1 (hev3 m1 hmem1) hk1) ▸ hmem1
  have hact_of_status : status E.table m.key = some .succeeded ∨
      status E.table m.key = some .failed → Event.activate m ∈ E.trace := by
    intro hst
    have h1 : (facts E.trace m.key).1 = true := by
      rcases hst with hst | hst <;> rw [hfm, hst] <;> rfl
    obtain ⟨m1, hk1, hmem1⟩ := (facts_dispatched E.trace m.key).mp h1
    exact (hinj m1 (hev1 m1 hmem1) hk1) ▸ hmem1
  have hexcl : Event.activate m ∈ E.trace → Event.skipped m ∉ E.trace := by
    intro hact hsk
    have h1 : (facts E.trace m.key).1 = true :=
      (facts_dispatched E.trace m.key).mpr ⟨m, rfl, hact⟩
    have h2 : (facts E.trace m.key).2.2.2 = true :=
      (facts_skipped E.trace m.key).mpr ⟨m, rfl, hsk⟩
    rw [hfm] at h1 h2
    cases hst : status E.table m.key with
    | none => simp [hst, expected_facts] at h1
    | some v => cases v <;> simp [hst, expected_facts] at h1 h2
  refine ⟨⟨fun hsk => ?_, fun hdep => ?_⟩, ⟨hexcl, fun hnsk => ?_⟩⟩
  · obtain ⟨b, hb, -, mb, hk, hmem⟩ := hjust m hsk
    have hmbp : mb ∈ plan.to_activate := by
      rcases hmem with h1 | h1
      · exact hev2 mb false h1
      · exact hev3 mb h1
    exact ⟨b, hb, mb, hmbp, hk, hmem⟩
  · obtain ⟨b, hb, mb, hmb, hk, hbad⟩ := hdep
    rcases hres with h1 | h1 | h1
    · exact absurd hbad (hdisp (hact_of_status (Or.inl h1)) b hb mb hmb hk)
    · exact absurd hbad (hdisp (hact_of_status (Or.inr h1)) b hb mb hmb hk)
    · exact hskip_of_status h1
  · rcases hres with h1 | h1 | h1
    · exact hact_of_status (Or.inl h1)
    · exact hact_of_status (Or.inr h1)
    · exact absurd (hskip_of_status h1) hnsk

/-! ### Failure propagation and the overall result -/

theorem to_activate_eq (new old : Manifest) (plan : TransitionPlan)
    (h : transition_plan new old = some plan) : to_activate new old = plan.to_activate := by
  simp only [to_activate, h]

/-- Claim C12: in every run of the transition, a mapping slated for activation is
skipped exactly when one of its dependencies slated for activation failed or
was skipped, and it is dispatched exactly when it is not skipped (so a mapping
none of whose dependencies failed or was skipped is dispatched); in particular,
for the chain A depends on B depends on C, all three slated for activation, in
every run in which the activation of B fails, A is recorded as skipped,
activate(A) is never dispatched, and C is dispatched. -/
theorem skip_propagation (r : Remote) (new_activation_mappings old_activation_mappings : Manifest)
    (m : ActivationMapping)
    (hm : m ∈ to_activate new_activation_mappings old_activation_mappings) :
    (Event.skipped m ∈ (transition r new_activation_mappings old_activation_mappings).trace ↔
      ∃ b ∈ m.depends_on,
        ∃ mb : ActivationMapping, mb.key = b ∧
          (Event.activated mb false ∈
              (transition r new_activation_mappings old_activation_mappings).trace ∨
            Event.skipped mb ∈
              (transition r new_activation_mappings old_activation_mappings).trace)) ∧
    (Event.activate m ∈ (transition r new_activation_mappings old_activation_mappings).trace ↔
      Event.skipped m ∉ (transition r new_activation_mappings old_activation_mappings).trace) ∧
    (to_activate scenario_chain [] =
        [example_mapping "C" "t1" [], example_mapping "B" "t2" ["C"],
          example_mapping "A" "t1" ["B"]] ∧
      (Event.activated (example_mapping "B" "t2" ["C"]) false ∈
          (transition r scenario_chain []).trace →
        Event.skipped (example_mapping "A" "t1" ["B"]) ∈ (transition r scenario_chain []).trace ∧
        Event.activate (example_mapping "A" "t1" ["B"]) ∉ (transition r scenario_chain []).trace ∧
        Event.activate (example_mapping "C" "t1" []) ∈ (transition r scenario_chain []).trace)) := by
  refine ⟨?_, ?_, ?_⟩
  · cases hplan : transition_plan new_activation_mappings old_activation_mappings with
    | none => simp [to_activate, hplan] at hm
    | some plan =>
      rw [to_activate_eq _ _ plan hplan] at hm
      obtain ⟨-, hev2, hev3⟩ := transition_activation_events r _ _ plan hplan
      have hgen := (skip_propagation_general r _ _ plan hplan m hm).1
      constructor
      · intro hsk
        obtain ⟨b, hb, mb, -, hk, hbad⟩ := hgen.mp hsk
        exact ⟨b, hb, mb, hk, hbad⟩
      · rintro ⟨b, hb, mb, hk, hbad⟩
        refine hgen.mpr ⟨b, hb, mb, ?_, hk, hbad⟩
        rcases hbad with h1 | h1
        · exact hev2 mb false h1
        · exact hev3 mb h1
  · cases hplan : transition_plan new_activation_mappings old_activation_mappings with
    | none => simp [to_activate, hplan] at hm
    | some plan =>
      rw [to_activate_eq _ _ plan hplan] at hm
      exact (skip_propagation_general r _ _ plan hplan m hm).2
  · have hplan : transition_plan scenario_chain [] =
        some ⟨[], [example_mapping "C" "t1" [], example_mapping "B" "t2" ["C"],
          example_mapping "A" "t1" ["B"]]⟩ := by decide
    refine ⟨by simp only [to_activate, hplan], fun hfail => ?_⟩
    have hA := skip_propagation_general r scenario_chain [] _ hplan
      (example_mapping "A" "t1" ["B"]) (by simp)
    have hC := skip_propagation_general r scenario_chain [] _ hplan
      (example_mapping "C" "t1" []) (by simp)
    have hskipA : Event.skipped (example_mapping "A" "t1" ["B"]) ∈
        (transition r scenario_chain []).trace :=
      hA.1.mpr ⟨"B".toList, by decide, example_mapping "B" "t2" ["C"], by simp, rfl,
        Or.inl hfail⟩
    refine ⟨hskipA, fun hact => hA.2.mp hact hskipA, hC.2.mpr ?_⟩
    intro hskC
    obtain ⟨b, hb, -⟩ := hC.1.mp hskC
    simp [example_mapping] at hb

/-- On the chain A, B, C with the activation of B failing, A is recorded as skipped
and never dispatched. -/
theorem skip_propagation_witness :
    Event.activated (example_mapping "B" "t2" ["C"]) false ∈
        (transition remote_b_fails scenario_chain []).trace ∧
    Event.skipped (example_mapping "A" "t1" ["B"]) ∈
        (transition remote_b_fails scenario_chain []).trace ∧
    Event.activate (example_mapping "A" "t1" ["B"]) ∉
        (transition remote_b_fails scenario_chain []).trace :=
  have h := skip_propagation remote_b_fails scenario_chain [] (example_mapping "A" "t1" ["B"])
    (by decide)
  ⟨by decide, h.1.mpr ⟨"B".toList, by decide, example_mapping "B" "t2" ["C"], rfl,
    Or.inl (by decide)⟩, fun hact => h.2.1.mp hact (by decide)⟩

/-! ### Dependency cycles and the exit status -/

theorem length_takeWhile_ne_lt (b : CStr) (post : List CStr) :
    ∀ pre : List CStr, b ∈ pre →
      ((pre ++ post).takeWhile (fun x => decide (x ≠ b))).length < pre.length := by
  intro pre
  induction pre with
  | nil => intro h; simp at h
  | cons a pre ih =>
    intro h
    by_cases hab : a = b
    · simp [List.takeWhile_cons, hab]
    · have hb : b ∈ pre := by
        rcases List.mem_cons.mp h with h1 | h1
        · exact absurd h1.symm hab
        · exact h1
      have := ih hb
      simp only [List.cons_append, List.takeWhile_cons, ne_eq, hab, not_false_eq_true,
        decide_True, if_true, List.length_cons]
      simp only [ne_eq] at this
      omega

theorem takeWhile_ne_of_not_mem (k : CStr) (post : List CStr) :
    ∀ pre : List CStr, k ∉ pre →
      (pre ++ k :: post).takeWhile (fun x => decide (x ≠ k)) = pre := by
  intro pre
  induction pre with
  | nil => intro _; simp [List.takeWhile_cons]
  | cons a pre ih =>
    intro h
    have hak : a ≠ k := fun hh => h (hh ▸ List.mem_cons_self _ _)
    have := ih (fun hh => h (List.mem_cons_of_mem _ hh))
    simp only [ne_eq] at this
    simp only [List.cons_append, List.takeWhile_cons, ne_eq, hak, not_false_eq_true,
      decide_True, if_true, this]

theorem mem_found_mappings (ms : List ActivationMapping) (m : ActivationMapping) :
    m ∈ found_mappings ms ↔ m ∈ ms ∧ find_mapping ms m.key = some m := by
  simp [found_mappings, List.mem_filter]

theorem found_of_find_mapping (ms : List ActivationMapping) (k : CStr) (m : ActivationMapping)
    (h : find_mapping ms k = some m) : m ∈ found_mappings ms := by
  obtain ⟨h1, h2⟩ := find_mapping_some ms k m h
  exact (mem_found_mappings ms m).mpr ⟨h1, h2 ▸ h⟩

theorem found_mappings_of_nodup (ms : List ActivationMapping) (hkeys : (keys ms).Nodup) :
    found_mappings ms = ms := by
  refine List.filter_eq_self.mpr (fun m hm => ?_)
  simp [find_mapping_self ms hkeys m hm]

theorem cycleFree_of_activation_order (ms order : List ActivationMapping)
    (h : activation_order ms = some order) : CycleFree ms := by
  obtain ⟨hnodup, heach, -⟩ := activation_order_keys ms order h
  obtain ⟨hall, -⟩ := activation_order_complete ms order h
  refine acyclic_of_rank (found_mappings ms)
    (fun k => ((keys order).takeWhile (fun x => decide (x ≠ k))).length) ?_
  intro m hm b hb hbk
  obtain ⟨hm1, hm2⟩ := (mem_found_mappings ms m).mp hm
  have hbms : b ∈ keys ms := by
    obtain ⟨mb, hmb, hkey⟩ := List.mem_map.mp hbk
    exact List.mem_map.mpr ⟨mb, ((mem_found_mappings ms mb).mp hmb).1, hkey⟩
  obtain ⟨pre, post, hsplit, hdeps⟩ :=
    eachAfter_precedes (DependenciesIn ms) (keys order) heach m.key (hall m hm1)
  have hbpre : b ∈ pre := hdeps m hm2 b hb hbms
  have hnot : m.key ∉ pre := by
    rw [hsplit] at hnodup
    intro hmem
    exact (List.nodup_append.mp hnodup).2.2 hmem (List.mem_cons_self _ _)
  show ((keys order).takeWhile (fun x => decide (x ≠ b))).length <
    ((keys order).takeWhile (fun x => decide (x ≠ m.key))).length
  rw [hsplit, takeWhile_ne_of_not_mem m.key post pre hnot]
  exact length_takeWhile_ne_lt b (m.key :: post) pre hbpre

theorem visit_total_found (ms : List ActivationMapping) (hacyclic : CycleFree ms) :
    ∀ (fuel : Nat) (stack done : List CStr) (k : CStr),
      stack.Nodup → (∀ x ∈ stack, x ∈ keys ms) → ms.length + 1 ≤ fuel + stack.length →
      (∀ x ∈ stack, DependsOn (found_mappings ms) x k) →
      ∃ res, visit ms fuel stack done k = some res := by
  intro fuel
  induction fuel with
  | zero =>
    intro stack done k hnodup hsub hfuel _
    have hle : stack.length ≤ (keys ms).length :=
      (List.subperm_of_subset hnodup hsub).length_le
    simp only [keys, List.length_map] at hle
    omega
  | succ fuel ih =>
    intro stack done k hnodup hsub hfuel hpath
    simp only [visit]
    split_ifs with h1 h2
    · exact ⟨done, rfl⟩
    · exact absurd (hpath k h2) (hacyclic k)
    · cases hfind : find_mapping ms k with
      | none => exact ⟨done, rfl⟩
      | some m =>
        obtain ⟨hm1, hm2⟩ := find_mapping_some ms k m hfind
        have hfound : m ∈ found_mappings ms := found_of_find_mapping ms k m hfind
        have hkey : k ∈ keys ms := List.mem_map.mpr ⟨m, hm1, hm2⟩
        have hstep : ∀ b ∈ m.depends_on, ∀ d, ∃ res, visit ms fuel (k :: stack) d b = some res := by
          intro b hb d
          refine ih (k :: stack) d b (List.nodup_cons.mpr ⟨h2, hnodup⟩) ?_ ?_ ?_
          · intro x hx
            rcases List.mem_cons.mp hx with h3 | h3
            · exact h3 ▸ hkey
            · exact hsub x h3
          · simp only [List.length_cons]
            omega
          · intro x hx
            rcases List.mem_cons.mp hx with h3 | h3
            · rw [h3, ← hm2]
              exact DependsOn.edge m b hfound hb
            · have hxk := hpath x h3
              rw [← hm2] at hxk
              exact DependsOn.step x m b hxk hfound hb
        obtain ⟨d1, hd1⟩ := foldlM_option_total _ m.depends_on hstep done
        exact ⟨d1 ++ [k], by simp [hd1]⟩

theorem activation_order_total_found (ms : List ActivationMapping) (hacyclic : CycleFree ms) :
    ∃ order, activation_order ms = some order := by
  obtain ⟨ks, hks⟩ := foldlM_option_total
    (fun done (m : ActivationMapping) => visit ms (ms.length + 1) [] done m.key) ms
    (fun a _ d => visit_total_found ms hacyclic (ms.length + 1) [] d a.key List.nodup_nil
      (by simp) (by simp) (by simp)) []
  exact ⟨ks.filterMap (find_mapping ms), by simp [activation_order, hks]⟩

theorem cycleFree_iff (ms : List ActivationMapping) :
    (Acyclic ms → CycleFree ms) ∧ ((keys ms).Nodup → (CycleFree ms ↔ Acyclic ms)) := by
  constructor
  · intro h
    obtain ⟨order, ho⟩ := activation_order_total ms h
    exact cycleFree_of_activation_order ms order ho
  · intro hk
    unfold CycleFree
    rw [found_mappings_of_nodup ms hk]

theorem transition_plan_iff_cycleFree (new old : Manifest) :
    (∃ plan, transition_plan new old = some plan) ↔ CycleFree new ∧ CycleFree old := by
  constructor
  · rintro ⟨plan, h⟩
    unfold transition_plan at h
    split at h
    · rename_i order_new order_old hn ho
      exact ⟨cycleFree_of_activation_order new order_new hn,
        cycleFree_of_activation_order old order_old ho⟩
    · cases h
  · rintro ⟨h1, h2⟩
    obtain ⟨o1, ho1⟩ := activation_order_total_found new h1
    obtain ⟨o2, ho2⟩ := activation_order_total_found old h2
    simp only [transition_plan, ho1, ho2]
    exact ⟨_, rfl⟩

theorem transition_result_of_plan (r : Remote) (new old : Manifest) (plan : TransitionPlan)
    (hplan : transition_plan new old = some plan) :
    (transition r new old).result = true ↔
      ∀ m : ActivationMapping,
        Event.activated m false ∉ (transition r new old).trace ∧
        Event.skipped m ∉ (transition r new old).trace := by
  obtain ⟨E, htr, hresult, hcomplete, hmatch, -⟩ := transition_final r new old plan hplan
  obtain ⟨-, hev2, hev3⟩ := transition_activation_events r new old plan hplan
  rw [hresult, htr] at *
  rw [List.all_eq_true]
  constructor
  · intro hall m
    constructor
    · intro hmem
      have hst : status E.table m.key = some .succeeded := by
        simpa using hall m (hev2 m false hmem)
      have hf : (facts E.trace m.key).2.2.1 = true :=
        (facts_resolved_failed E.trace m.key).mpr ⟨m, rfl, hmem⟩
      rw [hmatch m.key, hst] at hf
      simp [expected_facts] at hf
    · intro hmem
      have hst : status E.table m.key = some .succeeded := by
        simpa using hall m (hev3 m hmem)
      have hf : (facts E.trace m.key).2.2.2 = true :=
        (facts_skipped E.trace m.key).mpr ⟨m, rfl, hmem⟩
      rw [hmatch m.key, hst] at hf
      simp [expected_facts] at hf
  · intro hnone m hm
    have hfm := hmatch m.key
    rcases resolved_status _ (hcomplete m hm) with h1 | h1 | h1
    · simpa using h1
    · rw [h1] at hfm
      obtain ⟨m1, -, hmem⟩ := (facts_resolved_failed E.trace m.key).mp (by rw [hfm]; rfl)
      exact absurd hmem (hnone m1).1
    · rw [h1] at hfm
      obtain ⟨m1, -, hmem⟩ := (facts_skipped E.trace m.key).mp (by rw [hfm]; rfl)
      exact absurd hmem (hnone m1).2

theorem any_failed_deactivation (tr : List Event) :
    tr.any is_failed_deactivation = true ↔ ∃ m, Event.deactivated m false ∈ tr := by
  rw [List.any_eq_true]
  constructor
  · rintro ⟨ev, hev, h⟩
    cases ev with
    | deactivated m ok =>
      cases ok with
      | true => simp [is_failed_deactivation] at h
      | false => exact ⟨m, hev⟩
    | _ => simp [is_failed_deactivation] at h
  · rintro ⟨m, hm⟩
    exact ⟨_, hm, rfl⟩

theorem acquire_trace (r : Remote) :
    ∀ (ts : List CStr) (s : LockState),
      ∃ evs, (acquire r ts s).2.trace = s.trace ++ evs ∧
        (∀ ev ∈ evs, (∃ t ok, ev = Event.lock t ok) ∨ ∃ t, ev = Event.unlock t) ∧
        ((acquire r ts s).1 = true → ∀ ev ∈ evs, ∃ t, ev = Event.lock t true) ∧
        ((acquire r ts s).1 = false → ∃ t, Event.lock t false ∈ evs) := by
  intro ts
  induction ts with
  | nil =>
    intro s
    exact ⟨[], by simp [acquire], by simp, by simp, by simp [acquire]⟩
  | cons a rest ih =>
    intro s
    by_cases hok : r.lockOk a = true
    · obtain ⟨evs, h1, h2, h3, h4⟩ := ih ⟨s.held ++ [a], s.trace ++ [.lock a true]⟩
      simp only [acquire, hok, if_true]
      refine ⟨.lock a true :: evs, by simp [h1], ?_, ?_, ?_⟩
      · intro ev hev
        rcases List.mem_cons.mp hev with h | h
        · exact Or.inl ⟨a, true, h⟩
        · exact h2 ev h
      · intro hres ev hev
        rcases List.mem_cons.mp hev with h | h
        · exact ⟨a, h⟩
        · exact h3 hres ev h
      · intro hres
        obtain ⟨t, ht⟩ := h4 hres
        exact ⟨t, List.mem_cons_of_mem _ ht⟩
    · simp only [acquire, hok, Bool.false_eq_true, if_false, release]
      refine ⟨.lock a false :: s.held.map Event.unlock, by simp, ?_, by simp, ?_⟩
      · intro ev hev
        rcases List.mem_cons.mp hev with h | h
        · exact Or.inl ⟨a, false, h⟩
        · obtain ⟨t, -, ht⟩ := List.mem_map.mp h
          exact Or.inr ⟨t, ht.symm⟩
      · intro _
        exact ⟨a, List.mem_cons_self _ _⟩

theorem activate_system_run (r : Remote) (new old : Manifest) :
    (transition_plan new old = none ∧ activate_system r new old = ⟨EXIT_CYCLE, [], []⟩) ∨
    ((∃ plan, transition_plan new old = some plan) ∧
      (activate_system r new old).exit_code = EXIT_LOCK_FAILURE ∧
      (∀ ev ∈ (activate_system r new old).trace,
        (∃ t ok, ev = Event.lock t ok) ∨ ∃ t, ev = Event.unlock t) ∧
      ∃ t, Event.lock t false ∈ (activate_system r new old).trace) ∨
    ((∃ plan, transition_plan new old = some plan) ∧
      (∃ pre post, (activate_system r new old).trace =
          pre ++ (transition r new old).trace ++ post ∧
        (∀ ev ∈ pre, ∃ t, ev = Event.lock t true) ∧ (∀ ev ∈ post, ∃ t, ev = Event.unlock t)) ∧
      (activate_system r new old).exit_code =
        if (transition r new old).result &&
            !((transition r new old).trace.any is_failed_deactivation)
        then (if r.bookkeepingOk then 0 else EXIT_BOOKKEEPING_FAILURE)
        else EXIT_TRANSITION_FAILURE) := by
  cases hplan : transition_plan new old with
  | none => exact Or.inl ⟨rfl, by simp only [activate_system, hplan]⟩
  | some plan =>
    obtain ⟨evs, htr, hkind, hok, hfail⟩ := acquire_trace r (lock_set new old) ⟨[], []⟩
    simp only [List.nil_append] at htr
    cases hacq : acquire r (lock_set new old) ⟨[], []⟩ with
    | mk ok s =>
      rw [hacq] at htr hok hfail
      simp only at htr hok hfail
      cases ok with
      | false =>
        refine Or.inr (Or.inl ⟨⟨plan, rfl⟩, ?_, ?_, ?_⟩)
        · simp only [activate_system, hplan, hacq]
        · simp only [activate_system, hplan, hacq, htr]
          exact hkind
        · simp only [activate_system, hplan, hacq, htr]
          exact hfail rfl
      | true =>
        refine Or.inr (Or.inr ⟨⟨plan, rfl⟩, ⟨evs, s.held.map Event.unlock, ?_, hok rfl, ?_⟩, ?_⟩)
        · simp only [activate_system, hplan, hacq, release, htr]
        · intro ev hev
          obtain ⟨t, -, ht⟩ := List.mem_map.mp hev
          exact ⟨t, ht.symm⟩
        · simp only [activate_system, hplan, hacq]

/-- A manifest with a dependency cycle: transition returns FALSE although no
activation failed and none was skipped (nothing is attempted at all), and
activate_system returns the exit status of a dependency cycle. -/
theorem transition_false_on_cycle :
    (transition remote_all_ok scenario_cycle []).result = false ∧
    (transition remote_all_ok scenario_cycle []).trace = [] ∧
    ¬ ((transition remote_all_ok scenario_cycle []).result = true ↔
      ∀ m : ActivationMapping,
        Event.activated m false ∉ (transition remote_all_ok scenario_cycle []).trace ∧
        Event.skipped m ∉ (transition remote_all_ok scenario_cycle []).trace) ∧
    (activate_system remote_all_ok scenario_cycle []).exit_code = 4 ∧
    (activate_system remote_all_ok scenario_cycle []).trace = [] := by
  have hres : (transition remote_all_ok scenario_cycle []).result = false := by decide
  have htr : (transition remote_all_ok scenario_cycle []).trace = [] := by decide
  refine ⟨hres, htr, ?_, by decide, by decide⟩
  rw [hres, htr]
  simp

/-- Claim C13, amended: transition returns TRUE if and only if neither manifest has a
dependency cycle and no activation failed and none was skipped; with any failed
or skipped activation it returns FALSE, and on a dependency cycle it returns
FALSE without any event. activate_system returns 0 exactly when the whole process
succeeds, that is: neither manifest has a dependency cycle, no lock request
failed, no deactivation failed, no activation failed, none was skipped, and the
new manifest was recorded. Otherwise it returns a non-zero value: the status of
a dependency cycle (with no event at all), of a lock failure (with no
deactivation and no activation dispatched), of a deactivation/activation
failure, or of a bookkeeping failure; these four values and 0 are pairwise
distinct. When the locks are acquired the events of activate_system are the
successful lock requests, the events of the transition and the unlock requests,
in this order. A manifest has no dependency cycle when the dependency relation
of the mappings found under their identity is acyclic; an acyclic manifest has
none, and for distinct identities the two notions agree. -/
theorem transition_result_iff (r : Remote) (new_manifest old_manifest : Manifest) :
    ((transition r new_manifest old_manifest).result = true ↔
      CycleFree new_manifest ∧ CycleFree old_manifest ∧
      ∀ m : ActivationMapping,
        Event.activated m false ∉ (transition r new_manifest old_manifest).trace ∧
        Event.skipped m ∉ (transition r new_manifest old_manifest).trace) ∧
    ((∃ m : ActivationMapping,
        Event.activated m false ∈ (transition r new_manifest old_manifest).trace ∨
        Event.skipped m ∈ (transition r new_manifest old_manifest).trace) →
      (transition r new_manifest old_manifest).result = false) ∧
    (¬ (CycleFree new_manifest ∧ CycleFree old_manifest) →
      (transition r new_manifest old_manifest).result = false ∧
      (transition r new_manifest old_manifest).trace = []) ∧
    ((activate_system r new_manifest old_manifest).exit_code = 0 ↔
      CycleFree new_manifest ∧ CycleFree old_manifest ∧
      (∀ t, Event.lock t false ∉ (activate_system r new_manifest old_manifest).trace) ∧
      (∀ m : ActivationMapping,
        Event.deactivated m false ∉ (activate_system r new_manifest old_manifest).trace ∧
        Event.activated m false ∉ (activate_system r new_manifest old_manifest).trace ∧
        Event.skipped m ∉ (activate_system r new_manifest old_manifest).trace) ∧
      r.bookkeepingOk = true) ∧
    (¬ (CycleFree new_manifest ∧ CycleFree old_manifest) →
      (activate_system r new_manifest old_manifest).exit_code = EXIT_CYCLE ∧
      (activate_system r new_manifest old_manifest).trace = []) ∧
    ((∃ t, Event.lock t false ∈ (activate_system r new_manifest old_manifest).trace) →
      (activate_system r new_manifest old_manifest).exit_code = EXIT_LOCK_FAILURE ∧
      ∀ m : ActivationMapping,
        Event.deactivate m ∉ (activate_system r new_manifest old_manifest).trace ∧
        Event.activate m ∉ (activate_system r new_manifest old_manifest).trace) ∧
    ((∃ m : ActivationMapping,
        Event.deactivated m false ∈ (activate_system r new_manifest old_manifest).trace ∨
        Event.activated m false ∈ (activate_system r new_manifest old_manifest).trace ∨
        Event.skipped m ∈ (activate_system r new_manifest old_manifest).trace) →
      (activate_system r new_manifest old_manifest).exit_code = EXIT_TRANSITION_FAILURE) ∧
    (CycleFree new_manifest → CycleFree old_manifest →
      (∀ t, Event.lock t false ∉ (activate_system r new_manifest old_manifest).trace) →
      (∀ m : ActivationMapping,
        Event.deactivated m false ∉ (activate_system r new_manifest old_manifest).trace ∧
        Event.activated m false ∉ (activate_system r new_manifest old_manifest).trace ∧
        Event.skipped m ∉ (activate_system r new_manifest old_manifest).trace) →
      r.bookkeepingOk = false →
      (activate_system r new_manifest old_manifest).exit_code = EXIT_BOOKKEEPING_FAILURE) ∧
    (CycleFree new_manifest → CycleFree old_manifest →
      (∀ t, Event.lock t false ∉ (activate_system r new_manifest old_manifest).trace) →
      ∃ pre post, (activate_system r new_manifest old_manifest).trace =
          pre ++ (transition r new_manifest old_manifest).trace ++ post ∧
        (∀ ev ∈ pre, ∃ t, ev = Event.lock t true) ∧
        (∀ ev ∈ post, ∃ t, ev = Event.unlock t)) ∧
    [0, EXIT_TRANSITION_FAILURE, EXIT_BOOKKEEPING_FAILURE, EXIT_LOCK_FAILURE, EXIT_CYCLE].Nodup ∧
    (∀ ms : Manifest, (Acyclic ms → CycleFree ms) ∧
      ((keys ms).Nodup → (CycleFree ms ↔ Acyclic ms))) := by
  have hiff := transition_plan_iff_cycleFree new_manifest old_manifest
  have hcodes : [0, EXIT_TRANSITION_FAILURE, EXIT_BOOKKEEPING_FAILURE, EXIT_LOCK_FAILURE,
      EXIT_CYCLE].Nodup := by decide
  rcases activate_system_run r new_manifest old_manifest with
    ⟨hplan, hS⟩ | ⟨hex, hcode, hkind, hfail⟩ | ⟨hex, ⟨pre, post, hStr, hpre, hpost⟩, hcode⟩
  · -- a dependency cycle
    have hcyc : ¬ (CycleFree new_manifest ∧ CycleFree old_manifest) := by
      intro hac
      obtain ⟨plan, hp⟩ := hiff.mpr hac
      rw [hplan] at hp
      cases hp
    have hT : transition r new_manifest old_manifest = ⟨false, []⟩ := by
      simp only [transition, hplan]
    rw [hS, hT]
    refine ⟨?_, ?_, fun _ => ⟨rfl, rfl⟩, ?_, fun _ => ⟨rfl, rfl⟩, ?_, ?_, ?_, ?_, hcodes, cycleFree_iff⟩
    · exact ⟨fun h => absurd h (by simp), fun h => absurd ⟨h.1, h.2.1⟩ hcyc⟩
    · intro _
      rfl
    · constructor
      · intro h
        exact absurd h (by decide)
      · intro h
        exact absurd ⟨h.1, h.2.1⟩ hcyc
    · rintro ⟨t, ht⟩
      simp at ht
    · rintro ⟨m, hm⟩
      simp at hm
    · intro h1 h2
      exact absurd ⟨h1, h2⟩ hcyc
    · intro h1 h2
      exact absurd ⟨h1, h2⟩ hcyc
  · -- a lock request failed
    obtain ⟨plan, hplan⟩ := hex
    have hac := hiff.mp ⟨plan, hplan⟩
    have hres := transition_result_of_plan r new_manifest old_manifest plan hplan
    have hnone : ∀ ev ∈ (activate_system r new_manifest old_manifest).trace,
        (∀ m, ev ≠ Event.deactivate m) ∧ (∀ m, ev ≠ Event.activate m) ∧
        (∀ m ok, ev ≠ Event.deactivated m ok) ∧ (∀ m ok, ev ≠ Event.activated m ok) ∧
        (∀ m, ev ≠ Event.skipped m) := by
      intro ev hev
      rcases hkind ev hev with ⟨t, ok, h⟩ | ⟨t, h⟩ <;> subst h <;> simp
    refine ⟨?_, ?_, fun h => absurd hac h, ?_, fun h => absurd hac h, ?_, ?_, ?_, ?_, hcodes, cycleFree_iff⟩
    · rw [hres]
      exact ⟨fun h => ⟨hac.1, hac.2, h⟩, fun h => h.2.2⟩
    · rintro ⟨m, hm⟩
      cases hr : (transition r new_manifest old_manifest).result with
      | false => rfl
      | true =>
        have := hres.mp hr m
        rcases hm with hm | hm
        · exact absurd hm this.1
        · exact absurd hm this.2
    · rw [hcode]
      constructor
      · intro h
        exact absurd h (by decide)
      · intro h
        obtain ⟨t, ht⟩ := hfail
        exact absurd ht (h.2.2.1 t)
    · intro _
      exact ⟨hcode, fun m => ⟨fun h => (hnone _ h).1 m rfl, fun h => (hnone _ h).2.1 m rfl⟩⟩
    · rintro ⟨m, hm | hm | hm⟩
      · exact absurd rfl ((hnone _ hm).2.2.1 m false)
      · exact absurd rfl ((hnone _ hm).2.2.2.1 m false)
      · exact absurd rfl ((hnone _ hm).2.2.2.2 m)
    · intro _ _ hno
      obtain ⟨t, ht⟩ := hfail
      exact absurd ht (hno t)
    · intro _ _ hno
      obtain ⟨t, ht⟩ := hfail
      exact absurd ht (hno t)
  · -- every lock was acquired
    obtain ⟨plan, hplan⟩ := hex
    have hac := hiff.mp ⟨plan, hplan⟩
    have hres := transition_result_of_plan r new_manifest old_manifest plan hplan
    have hnl := transition_not_locking r new_manifest old_manifest
    have hmem : ∀ ev, (∀ t ok, ev ≠ Event.lock t ok) → (∀ t, ev ≠ Event.unlock t) →
        (ev ∈ (activate_system r new_manifest old_manifest).trace ↔
          ev ∈ (transition r new_manifest old_manifest).trace) := by
      intro ev h1 h2
      rw [hStr]
      constructor
      · intro h
        rcases List.mem_append.mp h with h3 | h3
        · rcases List.mem_append.mp h3 with h4 | h4
          · obtain ⟨t, ht⟩ := hpre ev h4
            exact absurd ht (h1 t true)
          · exact h4
        · obtain ⟨t, ht⟩ := hpost ev h3
          exact absurd ht (h2 t)
      · intro h
        exact List.mem_append_left _ (List.mem_append_right _ h)
    have hd : ∀ m ok, Event.deactivated m ok ∈
        (activate_system r new_manifest old_manifest).trace ↔
        Event.deactivated m ok ∈ (transition r new_manifest old_manifest).trace :=
      fun m ok => hmem _ (by simp) (by simp)
    have ha : ∀ m ok, Event.activated m ok ∈
        (activate_system r new_manifest old_manifest).trace ↔
        Event.activated m ok ∈ (transition r new_manifest old_manifest).trace :=
      fun m ok => hmem _ (by simp) (by simp)
    have hs : ∀ m, Event.skipped m ∈ (activate_system r new_manifest old_manifest).trace ↔
        Event.skipped m ∈ (transition r new_manifest old_manifest).trace :=
      fun m => hmem _ (by simp) (by simp)
    have hnolock : ∀ t, Event.lock t false ∉
        (activate_system r new_manifest old_manifest).trace := by
      intro t h
      rw [hStr] at h
      rcases List.mem_append.mp h with h3 | h3
      · rcases List.mem_append.mp h3 with h4 | h4
        · obtain ⟨t1, ht⟩ := hpre _ h4
          cases ht
        · exact (hnl _ h4).1 t false rfl
      · obtain ⟨t1, ht⟩ := hpost _ h3
        cases ht
    have hcond : ((transition r new_manifest old_manifest).result &&
        !((transition r new_manifest old_manifest).trace.any is_failed_deactivation)) = true ↔
        ∀ m : ActivationMapping,
          Event.deactivated m false ∉ (activate_system r new_manifest old_manifest).trace ∧
          Event.activated m false ∉ (activate_system r new_manifest old_manifest).trace ∧
          Event.skipped m ∉ (activate_system r new_manifest old_manifest).trace := by
      rw [Bool.and_eq_true, hres, Bool.not_eq_true', ← Bool.not_eq_true,
        any_failed_deactivation]
      constructor
      · rintro ⟨h1, h2⟩ m
        exact ⟨fun h => h2 ⟨m, (hd m false).mp h⟩, fun h => (h1 m).1 ((ha m false).mp h),
          fun h => (h1 m).2 ((hs m).mp h)⟩
      · intro h
        refine ⟨fun m => ⟨fun h1 => (h m).2.1 ((ha m false).mpr h1),
          fun h1 => (h m).2.2 ((hs m).mpr h1)⟩, ?_⟩
        rintro ⟨m, hm⟩
        exact (h m).1 ((hd m false).mpr hm)
    refine ⟨?_, ?_, fun h => absurd hac h, ?_, fun h => absurd hac h, ?_, ?_, ?_, ?_, hcodes, cycleFree_iff⟩
    · rw [hres]
      exact ⟨fun h => ⟨hac.1, hac.2, h⟩, fun h => h.2.2⟩
    · rintro ⟨m, hm⟩
      cases hr : (transition r new_manifest old_manifest).result with
      | false => rfl
      | true =>
        have := hres.mp hr m
        rcases hm with hm | hm
        · exact absurd hm this.1
        · exact absurd hm this.2
    · rw [hcode]
      constructor
      · intro h
        by_cases hc : ((transition r new_manifest old_manifest).result &&
            !((transition r new_manifest old_manifest).trace.any is_failed_deactivation)) = true
        · rw [if_pos hc] at h
          refine ⟨hac.1, hac.2, hnolock, hcond.mp hc, ?_⟩
          by_contra hb
          rw [if_neg hb] at h
          exact absurd h (by decide)
        · rw [if_neg hc] at h
          exact absurd h (by decide)
      · rintro ⟨-, -, -, hP, hb⟩
        rw [if_pos (hcond.mpr hP), if_pos hb]
    · rintro ⟨t, ht⟩
      exact absurd ht (hnolock t)
    · rintro ⟨m, hm⟩
      have hc : ¬ ((transition r new_manifest old_manifest).result &&
          !((transition r new_manifest old_manifest).trace.any is_failed_deactivation)) = true := by
        intro hc
        have := hcond.mp hc m
        rcases hm with hm | hm | hm
        · exact this.1 hm
        · exact this.2.1 hm
        · exact this.2.2 hm
      rw [hcode, if_neg hc]
    · intro _ _ _ hP hb
      rw [hcode, if_pos (hcond.mpr hP), hb]
      rfl
    · intro _ _ _
      exact ⟨pre, post, hStr, hpre, hpost⟩

/-- On the scenario of section 8 with the deactivation of webapp failing, every
activation succeeds and transition returns TRUE, and activate_system returns the
status of a deactivation/activation failure. -/
theorem transition_result_iff_witness :
    (transition remote_deactivation_fails scenario_new scenario_old).result = true ∧
    (activate_system remote_deactivation_fails scenario_new scenario_old).exit_code = 1 :=
  have h := transition_result_iff remote_deactivation_fails scenario_new scenario_old
  ⟨by decide, h.2.2.2.2.2.2.1 ⟨example_mapping "webapp" "t1" ["db"], Or.inl (by decide)⟩⟩

/-- The exit status of activate_system on six concrete runs: full success, a failed
activation, a failed deactivation, a bookkeeping failure, a lock failure and a
dependency cycle. -/
theorem activate_system_exit_codes_example :
    (activate_system remote_all_ok scenario_new scenario_old).exit_code = 0 ∧
    (activate_system remote_b_fails scenario_chain []).exit_code = 1 ∧
    (activate_system remote_deactivation_fails scenario_new scenario_old).exit_code = 1 ∧
    (activate_system remote_deactivation_fails scenario_new scenario_old).trace =
      [.lock "t1".toList true, .lock "t2".toList true,
       .deactivate (example_mapping "webapp" "t1" ["db"]),
       .deactivated (example_mapping "webapp" "t1" ["db"]) false,
       .activate (example_mapping "webapp-v2" "t1" ["db"]),
       .activated (example_mapping "webapp-v2" "t1" ["db"]) true,
       .unlock "t1".toList, .unlock "t2".toList] ∧
    (activate_system remote_bookkeeping_fails scenario_new scenario_old).exit_code = 2 ∧
    (activate_system remote_lock_fails scenario_new scenario_old).exit_code = 3 ∧
    (activate_system remote_lock_fails scenario_new scenario_old).trace =
      [.lock "t1".toList true, .lock "t2".toList false, .unlock "t1".toList] ∧
    (activate_system remote_all_ok scenario_cycle []).exit_code = 4 := by
  refine ⟨by decide, by decide, by decide, by decide, by decide, by decide, by decide, by decide⟩

end Disnix
